import Mathlib

/-!
# Radix tree (`radix_tree.h`, `radix_tree_node.h`, `radix_tree_it.h`)

A shallow embedding of the `std::string` instantiation of the radix tree.

* A key (`std::string`) is a list of characters, ordered lexicographically.
* A node is a value of the inductive type `Node`; its children map
  (`std::map<K, radix_tree_node*>`) is an association list kept in ascending key
  order by `map_set` / `map_erase`.
* A node pointer is the list of map keys followed from the root (`Ptr`); the
  `m_parent` link of a node is the pointer with its last step removed, and the
  null pointer is `none`.
* `int` is `Int`, `size_t` is `Nat`.
* A failing `assert`, a thrown `std::out_of_range`, and the dereference of a null
  pointer or of an `end()` map iterator are results of type `Fault`.
-/

namespace RadixTree

/-- The key type `K = std::string`. -/
abbrev Key := List Char

/-- Abnormal terminations of the C++ code. -/
inductive Fault where
  | assertion
  | out_of_range
  | null_deref
  | end_deref
  deriving DecidableEq, Repr

/-- The function `radix_length<std::string>`: `key.size()`. -/
def radix_length (key : Key) : Int := key.length

/-- The function `radix_join<std::string>`: `key1 + key2`. -/
def radix_join (key1 key2 : Key) : Key := key1 ++ key2

/-- The function `radix_substr<std::string>`: `key.substr(begin, num)`. The `int`
arguments are converted to `size_t`, so a negative `begin` is past the end (the call
throws `std::out_of_range`) and a negative `num` reaches to the end of the string. -/
def radix_substr (key : Key) (b num : Int) : Except Fault Key :=
  if b < 0 ∨ (key.length : Int) < b then .error .out_of_range
  else if num < 0 then .ok (key.drop b.toNat)
  else .ok ((key.drop b.toNat).take num.toNat)

/-- Indexing `key[i]` of a `std::string`; `key[key.size()]` is the terminating NUL. -/
def str_at (key : Key) (i : Int) : Char := key.getD i.toNat (Char.ofNat 0)

/-- The order `operator<` of `std::string`, the comparator of the children map. -/
def key_lt : Key → Key → Bool
  | [], [] => false
  | [], _ :: _ => true
  | _ :: _, [] => false
  | a :: as, b :: bs => if a < b then true else if b < a then false else key_lt as bs

/-! ## The children map -/

/-- Lookup `m.find(k)`; `none` is `m.end()`. -/
def map_find {α : Type} : List (Key × α) → Key → Option α
  | [], _ => none
  | (k', c) :: rest, k => if k' = k then some c else map_find rest k

/-- Removal `m.erase(k)`. -/
def map_erase {α : Type} : List (Key × α) → Key → List (Key × α)
  | [], _ => []
  | (k', c) :: rest, k => if k' = k then rest else (k', c) :: map_erase rest k

/-- Assignment `m[k] = c`: overwrite the entry of `k`, or insert it in key order. -/
def map_set {α : Type} : List (Key × α) → Key → α → List (Key × α)
  | [], k, c => [(k, c)]
  | (k', c') :: rest, k, c =>
    if k' = k then (k, c) :: rest
    else if key_lt k k' then (k, c) :: (k', c') :: rest
    else (k', c') :: map_set rest k c

/-- The pointee of the entry of `k` is changed in place (the entry keeps its key). -/
def map_replace {α : Type} : List (Key × α) → Key → α → List (Key × α)
  | [], _, _ => []
  | (k', c') :: rest, k, c =>
    if k' = k then (k', c) :: rest else (k', c') :: map_replace rest k c

/-- The entries that follow the entry of `k` (`it = m.find(k); ++it`); `none` when
`k` has no entry. -/
def map_after {α : Type} : List (Key × α) → Key → Option (List (Key × α))
  | [], _ => none
  | (k', _) :: rest, k => if k' = k then some rest else map_after rest k

/-! ## Nodes, pointers, the tree -/

/-- The class `radix_tree_node<K, T>` without its `m_parent` field. -/
inductive Node (V : Type) where
  | mk (m_key : Key) (m_value : Option (Key × V)) (m_children : List (Key × Node V))
       (m_depth : Int) (m_is_leaf : Bool)

namespace Node

variable {V : Type}

def m_key : Node V → Key
  | mk k _ _ _ _ => k

def m_value : Node V → Option (Key × V)
  | mk _ v _ _ _ => v

def m_children : Node V → List (Key × Node V)
  | mk _ _ cs _ _ => cs

def m_depth : Node V → Int
  | mk _ _ _ d _ => d

def m_is_leaf : Node V → Bool
  | mk _ _ _ _ lf => lf

/-- The node with its children map replaced. -/
def set_children : Node V → List (Key × Node V) → Node V
  | mk k v _ d lf, cs => mk k v cs d lf

end Node

/-- A node pointer: the map keys followed from the root to the node. -/
abbrev Ptr := List Key

/-- An iterator `radix_tree_it<K, T>`: its `m_pointer`, `none` for `NULL`. -/
abbrev Iter := Option Ptr

/-- The class `radix_tree<K, T>`. -/
structure Tree (V : Type) where
  m_size : Nat
  m_root : Option (Node V)

variable {V : Type}

/-- The constructor `radix_tree()`. -/
def Tree.empty : Tree V := ⟨0, none⟩

/-- The member `size()`. -/
def size (t : Tree V) : Nat := t.m_size

/-- The member `empty()`. -/
def empty (t : Tree V) : Bool := t.m_size == 0

/-- The node a pointer refers to, looked up from `n`. -/
def getNode : Node V → Ptr → Option (Node V)
  | n, [] => some n
  | n, f :: p =>
    match map_find n.m_children f with
    | none => none
    | some c => getNode c p

/-- The tree below `n` after the node at the pointer became `x`. -/
def setNode : Node V → Ptr → Node V → Node V
  | _, [], x => x
  | n, f :: p, x =>
    match map_find n.m_children f with
    | none => n
    | some c => n.set_children (map_replace n.m_children f (setNode c p x))

/-- The entry `*it` of an iterator into the tree rooted at `root`. -/
def entry (t : Tree V) (it : Iter) : Option (Key × V) :=
  match t.m_root, it with
  | some root, some p =>
    match getNode root p with
    | some n => n.m_value
    | none => none
  | _, _ => none

/-! ## Lookup -/

mutual
/-- The function `radix_tree::get_longest_prefix_node`; the result is the pointer to
the returned node, relative to `node`. -/
def get_longest_prefix_node (key : Key) : Node V → Int → Except Fault Ptr
  | .mk _ _ cs _ _, matched =>
    if cs.isEmpty then .ok []
    else get_longest_prefix_node_loop key cs matched
/-- The `for` loop of `get_longest_prefix_node` over the remaining children. -/
def get_longest_prefix_node_loop (key : Key) : List (Key × Node V) → Int → Except Fault Ptr
  | [], _ => .ok []
  | (f, c) :: rest, matched =>
    if radix_length key - matched = 0 then
      if c.m_is_leaf then .ok [f]
      else get_longest_prefix_node_loop key rest matched
    else if (!c.m_is_leaf && str_at key matched == str_at f 0) then
      match radix_substr key matched (radix_length f) with
      | .error e => .error e
      | .ok key_next_match =>
        if key_next_match = f then
          match get_longest_prefix_node key c (matched + radix_length f) with
          | .error e => .error e
          | .ok p => .ok (f :: p)
        else .ok [f]
    else get_longest_prefix_node_loop key rest matched
end

/-- The member `radix_tree::find`. -/
def find (t : Tree V) (key : Key) : Except Fault Iter :=
  match t.m_root with
  | none => .ok none
  | some root =>
    match get_longest_prefix_node key root 0 with
    | .error e => .error e
    | .ok p =>
      match getNode root p with
      | none => .error .null_deref
      | some node => if !node.m_is_leaf then .ok none else .ok (some p)

/-! ## Insertion -/

/-- The function `radix_tree::add_leaf`; returns the changed parent and the pointer to
the new leaf relative to it. -/
def add_leaf (parent : Node V) (val : Key × V) : Except Fault (Node V × Ptr) :=
  if radix_length val.1 ≠ parent.m_depth + radix_length parent.m_key then .error .assertion
  else
    match radix_substr val.1 0 0 with
    | .error e => .error e
    | .ok nul =>
      let node : Node V := .mk nul (some val) [] (radix_length val.1) true
      .ok (parent.set_children (map_set parent.m_children nul node), [nul])

/-- The function `radix_tree::add_child`; returns the changed parent and the pointer
to the new leaf relative to it. -/
def add_child (parent : Node V) (val : Key × V) : Except Fault (Node V × Ptr) :=
  match radix_substr val.1 parent.m_depth (radix_length parent.m_key) with
  | .error e => .error e
  | .ok s =>
    if parent.m_key ≠ s then .error .assertion
    else
      let len_pre := parent.m_depth + radix_length parent.m_key
      let len_diff := radix_length val.1 - len_pre
      if len_diff ≠ 0 then
        match radix_substr val.1 len_pre len_diff with
        | .error e => .error e
        | .ok key =>
          let node : Node V :=
            .mk key none [] (parent.m_depth + radix_length parent.m_key) false
          match add_leaf node val with
          | .error e => .error e
          | .ok (node1, p) =>
            .ok (parent.set_children (map_set parent.m_children key node1), key :: p)
      else add_leaf parent val

/-- The counting loop of `add_root`:
`for (count = 0; count < len1 && count < len2; count++) if (...) break;`
The loop stops after at most `len1` rounds, which is the fuel given by `add_root`. -/
def add_root_count (node_key key : Key) (depth len1 len2 : Int) : Nat → Int → Int
  | 0, count => count
  | fuel + 1, count =>
    if count < len1 ∧ count < len2 then
      if str_at node_key count ≠ str_at key (depth + count) then count
      else add_root_count node_key key depth len1 len2 fuel (count + 1)
    else count

/-- The function `radix_tree::add_root`, on the parent of `node`; returns the changed
parent and the pointer to the new leaf relative to it. -/
def add_root (parent node : Node V) (val : Key × V) : Except Fault (Node V × Ptr) :=
  if node.m_is_leaf then .error .assertion
  else
    let len1 := radix_length node.m_key
    let len2 := radix_length val.1 - node.m_depth
    let count := add_root_count node.m_key val.1 node.m_depth len1 len2 len1.toNat 0
    let len_diff_node := len1 - count
    if ¬ (count > 0) then .error .assertion
    else if ¬ (len_diff_node > 0) then .error .assertion
    else
      let siblings := map_erase parent.m_children node.m_key
      match radix_substr node.m_key 0 count with
      | .error e => .error e
      | .ok key =>
        match radix_substr node.m_key count len_diff_node with
        | .error e => .error e
        | .ok node_key =>
          let node1 : Node V :=
            .mk node_key node.m_value node.m_children (node.m_depth + count) node.m_is_leaf
          let p : Node V := .mk key none (map_set [] node_key node1) node.m_depth false
          match add_child p val with
          | .error e => .error e
          | .ok (p1, q) => .ok (parent.set_children (map_set siblings key p1), key :: q)

/-- The member `radix_tree::insert`; returns the tree, the iterator and the flag. -/
def insert (t : Tree V) (val : Key × V) : Except Fault (Tree V × Iter × Bool) :=
  match radix_substr val.1 0 0 with
  | .error e => .error e
  | .ok nul =>
    let root : Node V :=
      match t.m_root with
      | some r => r
      | none => .mk nul none [] 0 false
    match get_longest_prefix_node val.1 root 0 with
    | .error e => .error e
    | .ok ptr =>
      match getNode root ptr with
      | none => .error .null_deref
      | some node =>
        if node.m_is_leaf then .ok (⟨t.m_size, some root⟩, some ptr, false)
        else
          match radix_substr val.1 node.m_depth (radix_length node.m_key) with
          | .error e => .error e
          | .ok s =>
            let node_is_pre : Bool := node.m_key = s
            if ptr = [] ∨ node_is_pre = true then
              match add_child node val with
              | .error e => .error e
              | .ok (node1, q) =>
                .ok (⟨t.m_size + 1, some (setNode root ptr node1)⟩, some (ptr ++ q), true)
            else
              match getNode root ptr.dropLast with
              | none => .error .null_deref
              | some parent =>
                match add_root parent node val with
                | .error e => .error e
                | .ok (parent1, q) =>
                  .ok (⟨t.m_size + 1, some (setNode root ptr.dropLast parent1)⟩,
                       some (ptr.dropLast ++ q), true)

/-- The assignment `it->second = v` through an iterator. -/
def assign (t : Tree V) (it : Iter) (v : V) : Except Fault (Tree V) :=
  match t.m_root, it with
  | some root, some p =>
    match getNode root p with
    | some (.mk k (some (key, _)) cs d lf) =>
      .ok ⟨t.m_size, some (setNode root p (.mk k (some (key, v)) cs d lf))⟩
    | _ => .error .null_deref
  | _, _ => .error .null_deref

/-- The member `radix_tree::operator[]`; returns the tree and the iterator whose
`second` is the returned reference. -/
def subscript [Inhabited V] (t : Tree V) (key : Key) : Except Fault (Tree V × Iter) :=
  match find t key with
  | .error e => .error e
  | .ok (some p) => .ok (t, some p)
  | .ok none =>
    match insert t (key, default) with
    | .error e => .error e
    | .ok (t1, it, flag) => if flag = true then .ok (t1, it) else .error .assertion

/-- The statement `tree[key] = v`. -/
def index_assign [Inhabited V] (t : Tree V) (key : Key) (v : V) : Except Fault (Tree V) :=
  match subscript t key with
  | .error e => .error e
  | .ok (t1, it) => assign t1 it v

/-! ## Multi-result and longest-match queries -/

mutual
/-- The function `radix_tree::get_leafs`; `here` is the pointer of the node, and the
result lists the pointers pushed to `vec`, in order. -/
def get_leafs : Node V → Ptr → List Ptr
  | .mk _ _ cs _ lf, here => if lf then [here] else get_leafs_loop cs here
/-- The `for` loop of `get_leafs` over the remaining children. -/
def get_leafs_loop : List (Key × Node V) → Ptr → List Ptr
  | [], _ => []
  | (f, c) :: rest, here => get_leafs c (here ++ [f]) ++ get_leafs_loop rest here
end

/-- The step `node = node->m_parent` on pointers; `none` is `NULL` (the root has no
parent). -/
def parent_ptr : Ptr → Option Ptr
  | [] => none
  | p => some p.dropLast

/-- The member `radix_tree::greedy_match`; returns the final content of `vec`. -/
def greedy_match (t : Tree V) (key : Key) : Except Fault (List Iter) :=
  match t.m_root with
  | none => .ok []
  | some root =>
    match get_longest_prefix_node key root 0 with
    | .error e => .error e
    | .ok p0 =>
      match getNode root p0 with
      | none => .error .null_deref
      | some node0 =>
        match (if node0.m_is_leaf then parent_ptr p0 else some p0) with
        | none => .error .null_deref
        | some p =>
          match getNode root p with
          | none => .error .null_deref
          | some node => .ok ((get_leafs node p).map some)

/-- The member `radix_tree::prefix_match`; returns the final content of `vec`. -/
def prefix_match (t : Tree V) (key : Key) : Except Fault (List Iter) :=
  match t.m_root with
  | none => .ok []
  | some root =>
    match get_longest_prefix_node key root 0 with
    | .error e => .error e
    | .ok p0 =>
      match getNode root p0 with
      | none => .error .null_deref
      | some node0 =>
        match (if node0.m_is_leaf then parent_ptr p0 else some p0) with
        | none => .error .null_deref
        | some p =>
          match getNode root p with
          | none => .error .null_deref
          | some node =>
            let len_pre := radix_length key - node.m_depth
            match radix_substr key node.m_depth len_pre with
            | .error e => .error e
            | .ok key_sub =>
              match radix_substr node.m_key 0 len_pre with
              | .error e => .error e
              | .ok node_key_sub =>
                if key_sub ≠ node_key_sub then .ok []
                else .ok ((get_leafs node p).map some)

/-- The body of the `while (node != NULL)` loop of `longest_match` at the node with
pointer `p`: `some it` when the loop returns `it`, `none` when it goes on with the
parent. -/
def longest_match_body (root : Node V) (key nul : Key) (p : Ptr) :
    Except Fault (Option Iter) :=
  match getNode root p with
  | none => .error .null_deref
  | some node =>
    match map_find node.m_children nul with
    | some c =>
      if c.m_is_leaf ≠ true then .error .assertion
      else
        match radix_substr key node.m_depth (radix_length node.m_key) with
        | .error e => .error e
        | .ok s =>
          if s ≠ node.m_key then .error .assertion
          else .ok (some (some (p ++ [nul])))
    | none => .ok none

/-- The `while (node != NULL)` loop of `longest_match`; the argument is the pointer
of `node` in reverse (last step first), so that its tail is the pointer of the
parent. -/
def longest_match_loop (root : Node V) (key nul : Key) : List Key → Except Fault Iter
  | [] =>
    match longest_match_body root key nul [] with
    | .error e => .error e
    | .ok (some it) => .ok it
    | .ok none => .ok none
  | f :: rparent =>
    match longest_match_body root key nul (f :: rparent).reverse with
    | .error e => .error e
    | .ok (some it) => .ok it
    | .ok none => longest_match_loop root key nul rparent

/-- The member `radix_tree::longest_match`. -/
def longest_match (t : Tree V) (key : Key) : Except Fault Iter :=
  match t.m_root with
  | none => .ok none
  | some root =>
    match get_longest_prefix_node key root 0 with
    | .error e => .error e
    | .ok p0 =>
      match getNode root p0 with
      | none => .error .null_deref
      | some node0 =>
        if node0.m_is_leaf then .ok (some p0)
        else
          match radix_substr key node0.m_depth (radix_length node0.m_key) with
          | .error e => .error e
          | .ok s0 =>
            let node_has_diff : Bool := !(node0.m_key == s0)
            match radix_substr key 0 0 with
            | .error e => .error e
            | .ok nul =>
              if node_has_diff then
                match parent_ptr p0 with
                | none => .error .null_deref
                | some p =>
                  match getNode root p with
                  | none => .error .null_deref
                  | some node =>
                    match radix_substr key node.m_depth (radix_length node.m_key) with
                    | .error e => .error e
                    | .ok s =>
                      if (!(node.m_key == s)) ≠ false then .error .assertion
                      else longest_match_loop root key nul p.reverse
              else longest_match_loop root key nul p0.reverse

/-! ## Iteration -/

/-- The function `radix_tree::begin(radix_tree_node*)`; the result is relative to
`node`. Taking `begin()` of an empty children map and dereferencing it is a fault. -/
def begin_node : Node V → Except Fault Ptr
  | .mk _ _ cs _ lf =>
    if lf then .ok []
    else
      match cs with
      | [] => .error .end_deref
      | (f, c) :: _ =>
        match begin_node c with
        | .error e => .error e
        | .ok p => .ok (f :: p)

/-- The member `radix_tree::begin()`. -/
def tree_begin (t : Tree V) : Except Fault Iter :=
  match t.m_root with
  | none => .ok none
  | some root =>
    match begin_node root with
    | .error e => .error e
    | .ok p => .ok (some p)

/-- The member `radix_tree::end()`. -/
def tree_end : Iter := none

/-- The function `radix_tree_it::get_first_leaf`; the result is relative to `node`. -/
def get_first_leaf : Node V → Except Fault Ptr
  | .mk _ _ cs _ lf =>
    if lf then .ok []
    else
      match cs with
      | [] => .error .end_deref
      | (f, c) :: _ =>
        match get_first_leaf c with
        | .error e => .error e
        | .ok p => .ok (f :: p)

/-- The function `radix_tree_it::get_next_leaf`; the argument is the pointer of
`node` in reverse (last step first), so that its tail is the pointer of the parent. -/
def get_next_leaf (root : Node V) : List Key → Except Fault Iter
  | [] => .ok none
  | f :: rparent =>
    match getNode root rparent.reverse, getNode root (f :: rparent).reverse with
    | some parent, some node =>
      match map_after parent.m_children node.m_key with
      | none => .error .end_deref
      | some [] => get_next_leaf root rparent
      | some ((g, c) :: _) =>
        match get_first_leaf c with
        | .error e => .error e
        | .ok q => .ok (some (rparent.reverse ++ g :: q))
    | _, _ => .error .null_deref

/-- The operator `radix_tree_it::operator++()`. -/
def iter_next (t : Tree V) (it : Iter) : Except Fault Iter :=
  match it with
  | none => .ok none
  | some p =>
    match t.m_root with
    | none => .error .null_deref
    | some root => get_next_leaf root p.reverse

/-! ## Removal -/

/-- The function `radix_tree::merge_node`; the argument is the pointer of `node` in
reverse. The merged leaf is still an entry of its parent's children map when the
parent is deleted, so it is destroyed together with the parent. -/
def merge_node (root : Node V) (rp : List Key) : Except Fault (Node V) :=
  match getNode root rp.reverse with
  | none => .error .null_deref
  | some node =>
    if !node.m_is_leaf then .ok root
    else
      match rp with
      | [] => .error .null_deref
      | _ :: rparent =>
        if rparent = [] then .ok root
        else
          match getNode root rparent.reverse with
          | none => .error .null_deref
          | some parent =>
            if parent.m_children.length ≠ 1 then .ok root
            else
              match getNode root rparent.tail.reverse with
              | none => .error .null_deref
              | some grandparent =>
                match map_find grandparent.m_children parent.m_key with
                | none => .error .end_deref
                | some _ =>
                  .ok (setNode root rparent.tail.reverse
                    (grandparent.set_children
                      (map_erase grandparent.m_children parent.m_key)))

/-- The function `radix_tree::erase(radix_tree_node*)`; the argument is the pointer of
`node` in reverse (last step first), so that its tail is the pointer of the parent.
Returns the tree below the root after the removal. For the root itself `m_parent` is
`NULL` and is dereferenced. -/
def erase_node : Node V → List Key → Except Fault (Node V)
  | root, [] => if root.m_is_leaf ≠ true then .error .assertion else .error .null_deref
  | root, f :: rparent =>
    match getNode root (f :: rparent).reverse with
    | none => .error .null_deref
    | some node =>
      if node.m_is_leaf ≠ true then .error .assertion
      else
        match getNode root rparent.reverse with
        | none => .error .null_deref
        | some parent =>
          let parent1 := parent.set_children (map_erase parent.m_children node.m_key)
          let root1 := setNode root rparent.reverse parent1
          if rparent = [] ∨ parent1.m_children.length > 1 then .ok root1
          else if parent1.m_children.length = 0 then erase_node root1 rparent
          else
            match parent1.m_children with
            | [] => .error .end_deref
            | (g, c) :: _ =>
              if c.m_is_leaf ≠ false then .error .assertion
              else merge_node root1 (g :: rparent)

/-- The member `radix_tree::erase(const K&)`; returns the tree and the result. -/
def erase (t : Tree V) (key : Key) : Except Fault (Tree V × Bool) :=
  match t.m_root with
  | none => .error .null_deref
  | some root =>
    match get_longest_prefix_node key root 0 with
    | .error e => .error e
    | .ok p =>
      match getNode root p with
      | none => .error .null_deref
      | some node =>
        if !node.m_is_leaf then .ok (t, false)
        else
          match erase_node root p.reverse with
          | .error e => .error e
          | .ok root1 => .ok (⟨t.m_size, some root1⟩, true)

/-- The member `radix_tree::clear()`. -/
def clear (_t : Tree V) : Tree V := ⟨0, none⟩

/-! # The `route_entry` instantiation (`test_ip.cpp`)

The template `radix_tree<K, T>` with the key type `route_entry` of `test_ip.cpp` and
its specialisations of `radix_substr`, `radix_join` and `radix_length`.

* `in_addr_t` is a natural number below `2 ^ 32`; its arithmetic wraps modulo `2 ^ 32`.
* A shift whose count is negative or not below the width, and the signed overflow of
  `(1 << num) - 1` for `num ≥ 31`, are undefined in C++; they are the fault `shift`.
* The library calls `inet_aton` and `ntohl` are not part of the repository: an address
  `a.b.c.d` enters as its host-order value `ipv4 a b c d`.
-/

/-- The class `route_entry`: the address bits and the number of leading bits. -/
structure route_entry where
  addr : Nat
  len_prefix : Int
  deriving DecidableEq, Repr

namespace Route

/-- Abnormal terminations of the C++ code with `route_entry` keys. -/
inductive Fault where
  | assertion
  | null_deref
  | end_deref
  | shift
  deriving DecidableEq, Repr

/-- The host-order value of the dotted address `a.b.c.d` (`inet_aton`, then `ntohl`). -/
def ipv4 (a b c d : Nat) : Nat := a * 2 ^ 24 + b * 2 ^ 16 + c * 2 ^ 8 + d

/-- The function `route_entry::get_inaddr`, on the host-order value of the address. -/
def get_inaddr (host : Nat) (len_pre : Int) : Except Fault Nat :=
  if ¬ (len_pre ≥ 0) then .error .assertion
  else if len_pre = 0 ∨ len_pre ≥ 32 then .ok host
  else
    let shift := 32 - len_pre
    if shift ≥ 31 then .error .shift
    else .ok (host &&& (2 ^ 32 - 2 ^ shift.toNat))

/-- The constructor `route_entry(network, prefix_len)`. -/
def make_entry (host : Nat) (len_pre : Int) : Except Fault route_entry :=
  match get_inaddr host len_pre with
  | .error e => .error e
  | .ok a => .ok ⟨a, len_pre⟩

/-- The operator `route_entry::operator[]`: the bit `n` of the address, counted from
the most significant one. -/
def bit_at (e : route_entry) (n : Int) : Except Fault Nat :=
  if n < 0 ∨ n ≥ 32 then .error .shift
  else if e.addr &&& (2 ^ 31 >>> n.toNat) ≠ 0 then .ok 1 else .ok 0

/-- The operator `route_entry::operator==`. -/
def key_eq (a b : route_entry) : Bool :=
  decide (a.len_prefix = b.len_prefix) && decide (a.addr = b.addr)

/-- The operator `route_entry::operator<`, the comparator of the children map. -/
def key_lt (a b : route_entry) : Bool :=
  if a.addr = b.addr then decide (a.len_prefix < b.len_prefix) else decide (a.addr < b.addr)

/-- The function `radix_substr<route_entry>`. The mask `((1 << num) - 1) << (32 - begin - num)`
is computed in `int`; its value is below `2 ^ 32` and is converted to `in_addr_t`. -/
def radix_substr (entry : route_entry) (b num : Int) : Except Fault route_entry :=
  if ¬ (b < 32) then .error .assertion
  else if ¬ (num ≥ 0) then .error .assertion
  else if num = 0 then .ok ⟨0, 0⟩
  else
    let num1 := if b + num > 32 then 32 - b else num
    if b < 0 ∨ num1 ≥ 31 ∨ num1 < 0 then .error .shift
    else
      let mask_substr := (((2 ^ num1.toNat - 1) <<< (32 - b - num1).toNat) % 2 ^ 32 : Nat)
      .ok ⟨((entry.addr &&& mask_substr) <<< b.toNat) % 2 ^ 32, num1⟩

/-- The function `radix_join<route_entry>`. -/
def radix_join (entry1 entry2 : route_entry) : Except Fault route_entry :=
  if entry1.len_prefix < 0 ∨ entry1.len_prefix ≥ 32 then .error .shift
  else
    .ok ⟨entry1.addr ||| (entry2.addr >>> entry1.len_prefix.toNat),
      entry1.len_prefix + entry2.len_prefix⟩

/-- The function `radix_length<route_entry>`. -/
def radix_length (entry : route_entry) : Int := entry.len_prefix

/-! ## The children map -/

/-- Two keys are the same key of a `std::map` when neither is less than the other. -/
def key_same (a b : route_entry) : Bool := !(key_lt a b) && !(key_lt b a)

/-- Lookup `m.find(k)`; `none` is `m.end()`. -/
def map_find {α : Type} : List (route_entry × α) → route_entry → Option α
  | [], _ => none
  | (k1, c) :: rest, k => if key_same k1 k then some c else map_find rest k

/-- Removal `m.erase(k)`. -/
def map_erase {α : Type} : List (route_entry × α) → route_entry → List (route_entry × α)
  | [], _ => []
  | (k1, c) :: rest, k => if key_same k1 k then rest else (k1, c) :: map_erase rest k

/-- Assignment `m[k] = c`: overwrite the entry of `k`, or insert it in key order. -/
def map_set {α : Type} : List (route_entry × α) → route_entry → α → List (route_entry × α)
  | [], k, c => [(k, c)]
  | (k1, c1) :: rest, k, c =>
    if key_same k1 k then (k1, c) :: rest
    else if key_lt k k1 then (k, c) :: (k1, c1) :: rest
    else (k1, c1) :: map_set rest k c

/-- The pointee of the entry of `k` is changed in place. -/
def map_replace {α : Type} : List (route_entry × α) → route_entry → α → List (route_entry × α)
  | [], _, _ => []
  | (k1, c1) :: rest, k, c =>
    if key_same k1 k then (k1, c) :: rest else (k1, c1) :: map_replace rest k c

/-! ## Nodes, pointers, the tree -/

/-- The class `radix_tree_node<route_entry, T>` without its `m_parent` field. -/
inductive Node (V : Type) where
  | mk (m_key : route_entry) (m_value : Option (route_entry × V))
       (m_children : List (route_entry × Node V)) (m_depth : Int) (m_is_leaf : Bool)

namespace Node

variable {V : Type}

def m_key : Node V → route_entry
  | mk k _ _ _ _ => k

def m_value : Node V → Option (route_entry × V)
  | mk _ v _ _ _ => v

def m_children : Node V → List (route_entry × Node V)
  | mk _ _ cs _ _ => cs

def m_depth : Node V → Int
  | mk _ _ _ d _ => d

def m_is_leaf : Node V → Bool
  | mk _ _ _ _ lf => lf

/-- The node with its children map replaced. -/
def set_children : Node V → List (route_entry × Node V) → Node V
  | mk k v _ d lf, cs => mk k v cs d lf

end Node

/-- A node pointer: the map keys followed from the root to the node. -/
abbrev Ptr := List route_entry

/-- An iterator: its `m_pointer`, `none` for `NULL`. -/
abbrev Iter := Option Ptr

/-- The class `radix_tree<route_entry, T>`. -/
structure Tree (V : Type) where
  m_size : Nat
  m_root : Option (Node V)

variable {V : Type}

/-- The constructor `radix_tree()`. -/
def Tree.empty : Tree V := ⟨0, none⟩

/-- The node a pointer refers to, looked up from `n`. -/
def getNode : Node V → Ptr → Option (Node V)
  | n, [] => some n
  | n, f :: p =>
    match map_find n.m_children f with
    | none => none
    | some c => getNode c p

/-- The tree below `n` after the node at the pointer became `x`. -/
def setNode : Node V → Ptr → Node V → Node V
  | _, [], x => x
  | n, f :: p, x =>
    match map_find n.m_children f with
    | none => n
    | some c => n.set_children (map_replace n.m_children f (setNode c p x))

/-- The entry `*it` of an iterator. -/
def entry (t : Tree V) (it : Iter) : Option (route_entry × V) :=
  match t.m_root, it with
  | some root, some p =>
    match getNode root p with
    | some n => n.m_value
    | none => none
  | _, _ => none

/-! ## Lookup -/

mutual
/-- The function `radix_tree::get_longest_prefix_node`; the result is the pointer to
the returned node, relative to `node`. -/
def get_longest_prefix_node (key : route_entry) : Node V → Int → Except Fault Ptr
  | .mk _ _ cs _ _, matched =>
    if cs.isEmpty then .ok []
    else get_longest_prefix_node_loop key cs matched
/-- The `for` loop of `get_longest_prefix_node` over the remaining children. -/
def get_longest_prefix_node_loop (key : route_entry) :
    List (route_entry × Node V) → Int → Except Fault Ptr
  | [], _ => .ok []
  | (f, c) :: rest, matched =>
    if radix_length key - matched = 0 then
      if c.m_is_leaf then .ok [f]
      else get_longest_prefix_node_loop key rest matched
    else if c.m_is_leaf then get_longest_prefix_node_loop key rest matched
    else
      match bit_at key matched, bit_at f 0 with
      | .error e, _ => .error e
      | _, .error e => .error e
      | .ok x, .ok y =>
        if x = y then
          match radix_substr key matched (radix_length f) with
          | .error e => .error e
          | .ok key_next_match =>
            if key_eq key_next_match f then
              match get_longest_prefix_node key c (matched + radix_length f) with
              | .error e => .error e
              | .ok p => .ok (f :: p)
            else .ok [f]
        else get_longest_prefix_node_loop key rest matched
end

/-- The member `radix_tree::find`. -/
def find (t : Tree V) (key : route_entry) : Except Fault Iter :=
  match t.m_root with
  | none => .ok none
  | some root =>
    match get_longest_prefix_node key root 0 with
    | .error e => .error e
    | .ok p =>
      match getNode root p with
      | none => .error .null_deref
      | some node => if !node.m_is_leaf then .ok none else .ok (some p)

/-! ## Insertion -/

/-- The function `radix_tree::add_leaf`; returns the changed parent and the pointer to
the new leaf relative to it. -/
def add_leaf (parent : Node V) (val : route_entry × V) : Except Fault (Node V × Ptr) :=
  if radix_length val.1 ≠ parent.m_depth + radix_length parent.m_key then .error .assertion
  else
    match radix_substr val.1 0 0 with
    | .error e => .error e
    | .ok nul =>
      let node : Node V := .mk nul (some val) [] (radix_length val.1) true
      .ok (parent.set_children (map_set parent.m_children nul node), [nul])

/-- The function `radix_tree::add_child`; returns the changed parent and the pointer
to the new leaf relative to it. -/
def add_child (parent : Node V) (val : route_entry × V) : Except Fault (Node V × Ptr) :=
  match radix_substr val.1 parent.m_depth (radix_length parent.m_key) with
  | .error e => .error e
  | .ok s =>
    if ¬ (key_eq parent.m_key s = true) then .error .assertion
    else
      let len_pre := parent.m_depth + radix_length parent.m_key
      let len_diff := radix_length val.1 - len_pre
      if len_diff ≠ 0 then
        match radix_substr val.1 len_pre len_diff with
        | .error e => .error e
        | .ok key =>
          let node : Node V :=
            .mk key none [] (parent.m_depth + radix_length parent.m_key) false
          match add_leaf node val with
          | .error e => .error e
          | .ok (node1, p) =>
            .ok (parent.set_children (map_set parent.m_children key node1), key :: p)
      else add_leaf parent val

/-- The counting loop of `add_root`:
`for (count = 0; count < len1 && count < len2; count++) if (...) break;`
The loop stops after at most `len1` rounds, which is the fuel given by `add_root`. -/
def add_root_count (node_key key : route_entry) (depth len1 len2 : Int) :
    Nat → Int → Except Fault Int
  | 0, count => .ok count
  | fuel + 1, count =>
    if count < len1 ∧ count < len2 then
      match bit_at node_key count, bit_at key (depth + count) with
      | .error e, _ => .error e
      | _, .error e => .error e
      | .ok x, .ok y =>
        if x ≠ y then .ok count
        else add_root_count node_key key depth len1 len2 fuel (count + 1)
    else .ok count

/-- The function `radix_tree::add_root`, on the parent of `node`; returns the changed
parent and the pointer to the new leaf relative to it. -/
def add_root (parent node : Node V) (val : route_entry × V) : Except Fault (Node V × Ptr) :=
  if node.m_is_leaf then .error .assertion
  else
    let len1 := radix_length node.m_key
    let len2 := radix_length val.1 - node.m_depth
    match add_root_count node.m_key val.1 node.m_depth len1 len2 len1.toNat 0 with
    | .error e => .error e
    | .ok count =>
      let len_diff_node := len1 - count
      if ¬ (count > 0) then .error .assertion
      else if ¬ (len_diff_node > 0) then .error .assertion
      else
        let siblings := map_erase parent.m_children node.m_key
        match radix_substr node.m_key 0 count with
        | .error e => .error e
        | .ok key =>
          match radix_substr node.m_key count len_diff_node with
          | .error e => .error e
          | .ok node_key =>
            let node1 : Node V :=
              .mk node_key node.m_value node.m_children (node.m_depth + count) node.m_is_leaf
            let p : Node V := .mk key none (map_set [] node_key node1) node.m_depth false
            match add_child p val with
            | .error e => .error e
            | .ok (p1, q) => .ok (parent.set_children (map_set siblings key p1), key :: q)

/-- The member `radix_tree::insert`; returns the tree, the iterator and the flag. -/
def insert (t : Tree V) (val : route_entry × V) : Except Fault (Tree V × Iter × Bool) :=
  let mroot : Except Fault (Node V) :=
    match t.m_root with
    | some r => .ok r
    | none =>
      match radix_substr val.1 0 0 with
      | .error e => .error e
      | .ok nul => .ok (.mk nul none [] 0 false)
  match mroot with
  | .error e => .error e
  | .ok root =>
    match get_longest_prefix_node val.1 root 0 with
    | .error e => .error e
    | .ok ptr =>
      match getNode root ptr with
      | none => .error .null_deref
      | some node =>
        if node.m_is_leaf then .ok (⟨t.m_size, some root⟩, some ptr, false)
        else
          match radix_substr val.1 node.m_depth (radix_length node.m_key) with
          | .error e => .error e
          | .ok s =>
            let node_is_pre : Bool := key_eq node.m_key s
            if ptr = [] ∨ node_is_pre = true then
              match add_child node val with
              | .error e => .error e
              | .ok (node1, q) =>
                .ok (⟨t.m_size + 1, some (setNode root ptr node1)⟩, some (ptr ++ q), true)
            else
              match getNode root ptr.dropLast with
              | none => .error .null_deref
              | some parent =>
                match add_root parent node val with
                | .error e => .error e
                | .ok (parent1, q) =>
                  .ok (⟨t.m_size + 1, some (setNode root ptr.dropLast parent1)⟩,
                       some (ptr.dropLast ++ q), true)

/-- The assignment `it->second = v` through an iterator. -/
def assign (t : Tree V) (it : Iter) (v : V) : Except Fault (Tree V) :=
  match t.m_root, it with
  | some root, some p =>
    match getNode root p with
    | some (.mk k (some (key, _)) cs d lf) =>
      .ok ⟨t.m_size, some (setNode root p (.mk k (some (key, v)) cs d lf))⟩
    | _ => .error .null_deref
  | _, _ => .error .null_deref

/-- The member `radix_tree::operator[]`; returns the tree and the iterator whose
`second` is the returned reference. -/
def subscript [Inhabited V] (t : Tree V) (key : route_entry) : Except Fault (Tree V × Iter) :=
  match find t key with
  | .error e => .error e
  | .ok (some p) => .ok (t, some p)
  | .ok none =>
    match insert t (key, default) with
    | .error e => .error e
    | .ok (t1, it, flag) => if flag = true then .ok (t1, it) else .error .assertion

/-- The statement `tree[key] = v`. -/
def index_assign [Inhabited V] (t : Tree V) (key : route_entry) (v : V) :
    Except Fault (Tree V) :=
  match subscript t key with
  | .error e => .error e
  | .ok (t1, it) => assign t1 it v

/-! ## Longest match -/

/-- The step `node = node->m_parent` on pointers; `none` is `NULL`. -/
def parent_ptr : Ptr → Option Ptr
  | [] => none
  | p => some p.dropLast

/-- The body of the `while (node != NULL)` loop of `longest_match` at the node with
pointer `p`: `some it` when the loop returns `it`, `none` when it goes on with the
parent. -/
def longest_match_body (root : Node V) (key nul : route_entry) (p : Ptr) :
    Except Fault (Option Iter) :=
  match getNode root p with
  | none => .error .null_deref
  | some node =>
    match map_find node.m_children nul with
    | some c =>
      if c.m_is_leaf ≠ true then .error .assertion
      else
        match radix_substr key node.m_depth (radix_length node.m_key) with
        | .error e => .error e
        | .ok s =>
          if ¬ (key_eq s node.m_key = true) then .error .assertion
          else .ok (some (some (p ++ [nul])))
    | none => .ok none

/-- The `while (node != NULL)` loop of `longest_match`; the argument is the pointer
of `node` in reverse (last step first), so that its tail is the pointer of the
parent. -/
def longest_match_loop (root : Node V) (key nul : route_entry) :
    List route_entry → Except Fault Iter
  | [] =>
    match longest_match_body root key nul [] with
    | .error e => .error e
    | .ok (some it) => .ok it
    | .ok none => .ok none
  | f :: rparent =>
    match longest_match_body root key nul (f :: rparent).reverse with
    | .error e => .error e
    | .ok (some it) => .ok it
    | .ok none => longest_match_loop root key nul rparent

/-- The member `radix_tree::longest_match`. -/
def longest_match (t : Tree V) (key : route_entry) : Except Fault Iter :=
  match t.m_root with
  | none => .ok none
  | some root =>
    match get_longest_prefix_node key root 0 with
    | .error e => .error e
    | .ok p0 =>
      match getNode root p0 with
      | none => .error .null_deref
      | some node0 =>
        if node0.m_is_leaf then .ok (some p0)
        else
          match radix_substr key node0.m_depth (radix_length node0.m_key) with
          | .error e => .error e
          | .ok s0 =>
            let start : Except Fault Ptr :=
              if !(key_eq node0.m_key s0) then
                match parent_ptr p0 with
                | none => .error .null_deref
                | some p =>
                  match getNode root p with
                  | none => .error .null_deref
                  | some node =>
                    match radix_substr key node.m_depth (radix_length node.m_key) with
                    | .error e => .error e
                    | .ok s =>
                      if (!(key_eq node.m_key s)) ≠ false then .error .assertion
                      else .ok p
              else .ok p0
            match start with
            | .error e => .error e
            | .ok p =>
              match radix_substr key 0 0 with
              | .error e => .error e
              | .ok nul => longest_match_loop root key nul p.reverse

/-! ## The calls of `test_ip.cpp` -/

/-- The function `insert(network, len_prefix, dst)` of `test_ip.cpp`:
`rttable[entry] = in_add`. -/
def insert_route [Inhabited V] (t : Tree V) (host : Nat) (len_pre : Int) (dst : V) :
    Except Fault (Tree V) :=
  match make_entry host len_pre with
  | .error e => .error e
  | .ok key => index_assign t key dst

/-- A run of `insert(network, len_prefix, dst)` calls, in order. -/
def insert_routes [Inhabited V] : List (Nat × Int × V) → Tree V → Except Fault (Tree V)
  | [], t => .ok t
  | (host, len_pre, dst) :: rest, t =>
    match insert_route t host len_pre dst with
    | .error e => .error e
    | .ok t1 => insert_routes rest t1

/-- The lookup of `find(dst)` of `test_ip.cpp`, `longest_match(route_entry(dst, 32))`,
on the table built by a run of `insert` calls; the result tells whether the iterator
is `end()` and holds its entry. -/
def lookup_route [Inhabited V] (routes : List (Nat × Int × V)) (host : Nat) :
    Except Fault (Bool × Option (route_entry × V)) :=
  match insert_routes routes Tree.empty with
  | .error e => .error e
  | .ok t =>
    match make_entry host 32 with
    | .error e => .error e
    | .ok key =>
      match longest_match t key with
      | .error e => .error e
      | .ok it => .ok (it.isNone, entry t it)

end Route

/-! # The tree with its parent references

The embedding above follows `m_parent` by dropping the last step of a path. The
embedding below keeps the nodes in a store and `m_parent` as a field of the node, for
the properties of the parent references themselves.

* A node pointer is an address (`Nat`); `none` is the null pointer. `new` takes the
  next unused address, `delete` removes the node from the store.
* Loading from an address that holds no node is the fault `null_deref`.
* The recursive functions take the number `fuel` of nested calls they may make; when it
  is used up the result is `out_of_fuel`. Every execution that ends is a run with some
  `fuel`.
-/

namespace Linked

/-- Abnormal terminations: a fault of the code, or the fuel is used up. -/
inductive Stop where
  | fault (f : Fault)
  | out_of_fuel
  deriving DecidableEq, Repr

/-- The class `radix_tree_node<K, T>`, with its `m_parent` field. -/
structure Node (V : Type) where
  m_key : Key
  m_value : Option (Key × V)
  m_children : List (Key × Nat)
  m_parent : Option Nat
  m_depth : Int
  m_is_leaf : Bool
  deriving DecidableEq, Repr

/-- The class `radix_tree<K, T>` together with the store of its nodes. -/
structure Tree (V : Type) where
  cells : List (Nat × Node V)
  next : Nat
  m_size : Nat
  m_root : Option Nat
  deriving DecidableEq, Repr

variable {V : Type}

/-- The constructor `radix_tree()`. -/
def Tree.empty : Tree V := ⟨[], 0, 0, none⟩

/-- The node at an address of a list of cells. -/
def cells_get : List (Nat × Node V) → Nat → Option (Node V)
  | [], _ => none
  | (b, n) :: rest, a => if b = a then some n else cells_get rest a

/-- The cells without those of an address. -/
def cells_del : List (Nat × Node V) → Nat → List (Nat × Node V)
  | [], _ => []
  | (b, n) :: rest, a => if b = a then cells_del rest a else (b, n) :: cells_del rest a

/-- The node at an address; `none` when there is none. -/
def load (t : Tree V) (a : Nat) : Option (Node V) := cells_get t.cells a

/-- The node at an address is written. -/
def store (t : Tree V) (a : Nat) (n : Node V) : Tree V :=
  { t with cells := (a, n) :: cells_del t.cells a }

/-- The node at an address is removed. -/
def free (t : Tree V) (a : Nat) : Tree V :=
  { t with cells := cells_del t.cells a }

/-- The expression `new radix_tree_node(...)`: the node is written at the next unused
address. -/
def alloc (t : Tree V) (n : Node V) : Tree V × Nat :=
  ({ t with cells := (t.next, n) :: cells_del t.cells t.next, next := t.next + 1 }, t.next)

/-- The result of `radix_substr` as a result of this embedding. -/
def substr (key : Key) (b num : Int) : Except Stop Key :=
  match radix_substr key b num with
  | .error e => .error (.fault e)
  | .ok s => .ok s

/-! ## Lookup -/

/-- The `for` loop of `get_longest_prefix_node` over the remaining children; `call` is
the recursive call of `get_longest_prefix_node`, and `node` the address of the node
whose children are visited. -/
def get_longest_prefix_node_loop (call : Nat → Int → Except Stop Nat) (t : Tree V)
    (key : Key) (node : Nat) : List (Key × Nat) → Int → Except Stop Nat
  | [], _ => .ok node
  | (f, c) :: rest, matched =>
    match load t c with
    | none => .error (.fault .null_deref)
    | some child =>
      if radix_length key - matched = 0 then
        if child.m_is_leaf then .ok c
        else get_longest_prefix_node_loop call t key node rest matched
      else if (!child.m_is_leaf && str_at key matched == str_at f 0) then
        match substr key matched (radix_length f) with
        | .error e => .error e
        | .ok key_next_match =>
          if key_next_match = f then call c (matched + radix_length f)
          else .ok c
      else get_longest_prefix_node_loop call t key node rest matched

/-- The function `radix_tree::get_longest_prefix_node`; returns the address of the
node. -/
def get_longest_prefix_node (t : Tree V) (key : Key) : Nat → Nat → Int → Except Stop Nat
  | 0, _, _ => .error .out_of_fuel
  | fuel + 1, node, matched =>
    match load t node with
    | none => .error (.fault .null_deref)
    | some n =>
      if n.m_children.isEmpty then .ok node
      else
        get_longest_prefix_node_loop (get_longest_prefix_node t key fuel) t key node
          n.m_children matched

/-- The member `radix_tree::find`; an iterator is its `m_pointer`. -/
def find (fuel : Nat) (t : Tree V) (key : Key) : Except Stop (Option Nat) :=
  match t.m_root with
  | none => .ok none
  | some root =>
    match get_longest_prefix_node t key fuel root 0 with
    | .error e => .error e
    | .ok node =>
      match load t node with
      | none => .error (.fault .null_deref)
      | some n => if !n.m_is_leaf then .ok none else .ok (some node)

/-! ## Insertion -/

/-- The function `radix_tree::add_leaf`; returns the address of the new leaf. -/
def add_leaf (t : Tree V) (parent : Nat) (val : Key × V) : Except Stop (Tree V × Nat) :=
  match load t parent with
  | none => .error (.fault .null_deref)
  | some pn =>
    if radix_length val.1 ≠ pn.m_depth + radix_length pn.m_key then
      .error (.fault .assertion)
    else
      match substr val.1 0 0 with
      | .error e => .error e
      | .ok nul =>
        let (t1, node) := alloc t ⟨nul, some val, [], some parent, radix_length val.1, true⟩
        match load t1 parent with
        | none => .error (.fault .null_deref)
        | some pn1 =>
          .ok (store t1 parent { pn1 with m_children := map_set pn1.m_children nul node },
               node)

/-- The function `radix_tree::add_child`; returns the address of the new leaf. -/
def add_child (t : Tree V) (parent : Nat) (val : Key × V) : Except Stop (Tree V × Nat) :=
  match load t parent with
  | none => .error (.fault .null_deref)
  | some pn =>
    match substr val.1 pn.m_depth (radix_length pn.m_key) with
    | .error e => .error e
    | .ok s =>
      if pn.m_key ≠ s then .error (.fault .assertion)
      else
        let len_pre := pn.m_depth + radix_length pn.m_key
        let len_diff := radix_length val.1 - len_pre
        if len_diff ≠ 0 then
          match substr val.1 len_pre len_diff with
          | .error e => .error e
          | .ok key =>
            let (t1, node) := alloc t
              ⟨key, none, [], some parent, pn.m_depth + radix_length pn.m_key, false⟩
            match load t1 parent with
            | none => .error (.fault .null_deref)
            | some pn1 =>
              add_leaf
                (store t1 parent { pn1 with m_children := map_set pn1.m_children key node })
                node val
        else add_leaf t parent val

/-- The function `radix_tree::add_root`; returns the address of the new leaf. -/
def add_root (t : Tree V) (node : Nat) (val : Key × V) : Except Stop (Tree V × Nat) :=
  match load t node with
  | none => .error (.fault .null_deref)
  | some n =>
    if n.m_is_leaf then .error (.fault .assertion)
    else
      let len1 := radix_length n.m_key
      let len2 := radix_length val.1 - n.m_depth
      let count := add_root_count n.m_key val.1 n.m_depth len1 len2 len1.toNat 0
      let len_diff_node := len1 - count
      if ¬ (count > 0) then .error (.fault .assertion)
      else if ¬ (len_diff_node > 0) then .error (.fault .assertion)
      else
        -- node->m_parent->m_children.erase(node->m_key)
        match n.m_parent with
        | none => .error (.fault .null_deref)
        | some parent =>
          match load t parent with
          | none => .error (.fault .null_deref)
          | some pn =>
            let t1 := store t parent { pn with m_children := map_erase pn.m_children n.m_key }
            -- K key = radix_substr(node->m_key, 0, count); p = new ...
            match load t1 node with
            | none => .error (.fault .null_deref)
            | some n1 =>
              match substr n1.m_key 0 count with
              | .error e => .error e
              | .ok key =>
                let (t2, p) := alloc t1 ⟨key, none, [], n1.m_parent, n1.m_depth, false⟩
                -- p->m_parent->m_children[key] = p
                match n1.m_parent with
                | none => .error (.fault .null_deref)
                | some pp =>
                  match load t2 pp with
                  | none => .error (.fault .null_deref)
                  | some ppn =>
                    let t3 := store t2 pp
                      { ppn with m_children := map_set ppn.m_children key p }
                    -- node->m_parent = p; node->m_depth += count; node->m_key = ...
                    match load t3 node with
                    | none => .error (.fault .null_deref)
                    | some n3 =>
                      match substr n3.m_key count len_diff_node with
                      | .error e => .error e
                      | .ok node_key =>
                        let t4 := store t3 node
                          { n3 with m_parent := some p, m_depth := n3.m_depth + count,
                                    m_key := node_key }
                        -- node->m_parent->m_children[node->m_key] = node
                        match load t4 p with
                        | none => .error (.fault .null_deref)
                        | some pn4 =>
                          add_child
                            (store t4 p
                              { pn4 with m_children := map_set pn4.m_children node_key node })
                            p val

/-- The tree with its root created when there is none (the first lines of `insert`). -/
def ensure_root (t : Tree V) (key : Key) : Except Stop (Tree V × Nat) :=
  match t.m_root with
  | some r => .ok (t, r)
  | none =>
    match substr key 0 0 with
    | .error e => .error e
    | .ok nul =>
      let (t1, r) := alloc t ⟨nul, none, [], none, 0, false⟩
      .ok ({ t1 with m_root := some r }, r)

/-- The member `radix_tree::insert`; returns the tree, the iterator and the flag. -/
def insert (fuel : Nat) (t : Tree V) (val : Key × V) :
    Except Stop (Tree V × Option Nat × Bool) :=
  match ensure_root t val.1 with
  | .error e => .error e
  | .ok (t0, root) =>
    match get_longest_prefix_node t0 val.1 fuel root 0 with
    | .error e => .error e
    | .ok node =>
      match load t0 node with
      | none => .error (.fault .null_deref)
      | some n =>
        if n.m_is_leaf then .ok (t0, some node, false)
        else
          let t1 : Tree V := { t0 with m_size := t0.m_size + 1 }
          match substr val.1 n.m_depth (radix_length n.m_key) with
          | .error e => .error e
          | .ok s =>
            let node_is_pre : Bool := n.m_key = s
            if node = root ∨ node_is_pre = true then
              match add_child t1 node val with
              | .error e => .error e
              | .ok (t2, leaf) => .ok (t2, some leaf, true)
            else
              match add_root t1 node val with
              | .error e => .error e
              | .ok (t2, leaf) => .ok (t2, some leaf, true)

/-- The assignment `it->second = v` through an iterator. -/
def assign (t : Tree V) (it : Option Nat) (v : V) : Except Stop (Tree V) :=
  match it with
  | none => .error (.fault .null_deref)
  | some a =>
    match load t a with
    | none => .error (.fault .null_deref)
    | some n =>
      match n.m_value with
      | none => .error (.fault .null_deref)
      | some (key, _) => .ok (store t a { n with m_value := some (key, v) })

/-- The member `radix_tree::operator[]`; returns the tree and the iterator whose
`second` is the returned reference. -/
def subscript [Inhabited V] (fuel : Nat) (t : Tree V) (key : Key) :
    Except Stop (Tree V × Option Nat) :=
  match find fuel t key with
  | .error e => .error e
  | .ok (some a) => .ok (t, some a)
  | .ok none =>
    match insert fuel t (key, default) with
    | .error e => .error e
    | .ok (t1, it, flag) =>
      if flag = true then .ok (t1, it) else .error (.fault .assertion)

/-- The statement `tree[key] = v`. -/
def index_assign [Inhabited V] (fuel : Nat) (t : Tree V) (key : Key) (v : V) :
    Except Stop (Tree V) :=
  match subscript fuel t key with
  | .error e => .error e
  | .ok (t1, it) => assign t1 it v

/-! ## Removal -/

/-- The loop of the destructor `~radix_tree_node` over the children; `call` is
`delete it->second`. -/
def destroy_loop (call : Tree V → Nat → Except Stop (Tree V)) :
    Tree V → List (Key × Nat) → Except Stop (Tree V)
  | t, [] => .ok t
  | t, (_, c) :: rest =>
    match call t c with
    | .error e => .error e
    | .ok t1 => destroy_loop call t1 rest

/-- The statement `delete node`: the destructor deletes the children, then the node is
removed. -/
def destroy : Nat → Tree V → Nat → Except Stop (Tree V)
  | 0, _, _ => .error .out_of_fuel
  | fuel + 1, t, node =>
    match load t node with
    | none => .error (.fault .null_deref)
    | some n =>
      match destroy_loop (destroy fuel) t n.m_children with
      | .error e => .error e
      | .ok t1 => .ok (free t1 node)

/-- The function `radix_tree::merge_node`. -/
def merge_node (fuel : Nat) (t : Tree V) (node : Nat) : Except Stop (Tree V) :=
  match load t node with
  | none => .error (.fault .null_deref)
  | some n =>
    if !n.m_is_leaf then .ok t
    else if n.m_parent = t.m_root then .ok t
    else
      match n.m_parent with
      | none => .error (.fault .null_deref)
      | some parent =>
        match load t parent with
        | none => .error (.fault .null_deref)
        | some pn =>
          if pn.m_children.length ≠ 1 then .ok t
          else
            let t1 := store t node
              { n with m_key := radix_join n.m_key pn.m_key, m_depth := pn.m_depth,
                       m_parent := pn.m_parent }
            match pn.m_parent with
            | none => .error (.fault .null_deref)
            | some grandparent =>
              match load t1 grandparent, load t1 parent with
              | some gn, some pn1 =>
                match map_find gn.m_children pn1.m_key with
                | none => .error (.fault .end_deref)
                | some _ =>
                  destroy fuel
                    (store t1 grandparent
                      { gn with m_children := map_erase gn.m_children pn1.m_key })
                    parent
              | _, _ => .error (.fault .null_deref)

/-- The function `radix_tree::erase(radix_tree_node*)`. -/
def erase_node : Nat → Tree V → Nat → Except Stop (Tree V)
  | 0, _, _ => .error .out_of_fuel
  | fuel + 1, t, node =>
    match load t node with
    | none => .error (.fault .null_deref)
    | some n =>
      if n.m_is_leaf ≠ true then .error (.fault .assertion)
      else
        match n.m_parent with
        | none => .error (.fault .null_deref)
        | some parent =>
          match load t parent with
          | none => .error (.fault .null_deref)
          | some pn =>
            let t1 := store t parent { pn with m_children := map_erase pn.m_children n.m_key }
            match destroy fuel t1 node with
            | .error e => .error e
            | .ok t2 =>
              match load t2 parent with
              | none => .error (.fault .null_deref)
              | some pn2 =>
                if some parent = t2.m_root ∨ pn2.m_children.length > 1 then .ok t2
                else if pn2.m_children.length = 0 then erase_node fuel t2 parent
                else
                  match pn2.m_children with
                  | [] => .error (.fault .end_deref)
                  | (_, c) :: _ =>
                    match load t2 c with
                    | none => .error (.fault .null_deref)
                    | some cn =>
                      if cn.m_is_leaf ≠ false then .error (.fault .assertion)
                      else merge_node fuel t2 c

/-- The member `radix_tree::erase(const K&)`; returns the tree and the result. -/
def erase (fuel : Nat) (t : Tree V) (key : Key) : Except Stop (Tree V × Bool) :=
  match t.m_root with
  | none => .error (.fault .null_deref)
  | some root =>
    match get_longest_prefix_node t key fuel root 0 with
    | .error e => .error e
    | .ok node =>
      match load t node with
      | none => .error (.fault .null_deref)
      | some n =>
        if !n.m_is_leaf then .ok (t, false)
        else
          match erase_node fuel t node with
          | .error e => .error e
          | .ok t1 => .ok (t1, true)

/-- A call of `insert(val)`, a statement `tree[k] = v`, or a call of `erase(k)`. -/
inductive Edit (V : Type) where
  | insert (val : Key × V)
  | assign (k : Key) (v : V)
  | erase (k : Key)
  deriving DecidableEq, Repr

/-- A run of insertions and erasures, in order; a fault ends the run. -/
def run_edits [Inhabited V] (fuel : Nat) : List (Edit V) → Tree V → Except Stop (Tree V)
  | [], t => .ok t
  | .insert val :: rest, t =>
    match insert fuel t val with
    | .error e => .error e
    | .ok (t1, _, _) => run_edits fuel rest t1
  | .assign k v :: rest, t =>
    match index_assign fuel t k v with
    | .error e => .error e
    | .ok t1 => run_edits fuel rest t1
  | .erase k :: rest, t =>
    match erase fuel t k with
    | .error e => .error e
    | .ok (t1, _) => run_edits fuel rest t1

/-- The invariant of the store: the entries of the children maps and the parent
references agree, and only the root has a null parent reference. -/
structure WF (t : Tree V) : Prop where
  /-- An entry of a children map refers to a node with that fragment whose parent
  reference is the holder of the map. -/
  link : ∀ a n, load t a = some n → ∀ e ∈ n.m_children,
    ∃ c, load t e.2 = some c ∧ c.m_key = e.1 ∧ c.m_parent = some a
  /-- The parent reference of a node is null exactly when the node is the root. -/
  root_null : ∀ a n, load t a = some n → (n.m_parent = none ↔ t.m_root = some a)
  /-- The keys of a children map are in strictly ascending order. -/
  sorted : ∀ a n, load t a = some n →
    n.m_children.Pairwise (fun x y => key_lt x.1 y.1 = true)
  /-- The addresses in use are below the next unused address. -/
  bound : ∀ a n, load t a = some n → a < t.next
  /-- The address of the root is below the next unused address. -/
  root_bound : ∀ r, t.m_root = some r → r < t.next
  /-- The root is a node of the store. -/
  root_live : ∀ r, t.m_root = some r → ∃ n, load t r = some n
  /-- A leaf has no children. -/
  leaf_childless : ∀ a n, load t a = some n → n.m_is_leaf = true → n.m_children = []
  /-- No node is its own parent. -/
  no_self : ∀ a n, load t a = some n → n.m_parent ≠ some a

/-- The statements `tree["bro"] = 1; tree["brother"] = 2; insert(("brace", 3));
erase("bro")`. -/
def bro_edits : List (Edit Nat) :=
  [.assign "bro".toList 1, .assign "brother".toList 2, .insert ("brace".toList, 3),
   .erase "bro".toList]

/-- The store after `bro_edits` on a fresh tree. -/
def bro_store : Tree Nat :=
  { cells :=
      [(1, ⟨"o".toList, none, [("ther".toList, 3)], some 5, 2, false⟩),
       (6, ⟨"ace".toList, none, [([], 7)], some 5, 2, false⟩),
       (7, ⟨[], some ("brace".toList, 3), [], some 6, 5, true⟩),
       (5, ⟨"br".toList, none, [("ace".toList, 6), ("o".toList, 1)], some 0, 0, false⟩),
       (0, ⟨[], none, [("br".toList, 5)], none, 0, false⟩),
       (4, ⟨[], some ("brother".toList, 2), [], some 3, 7, true⟩),
       (3, ⟨"ther".toList, none, [([], 4)], some 1, 3, false⟩)],
    next := 8,
    m_size := 3,
    m_root := some 0 }

end Linked

/-! ## Definitions used by the specification and the proofs -/

/-- The order of two sibling fragments: the empty fragment comes first, and two
non-empty fragments are ordered by their first symbols. -/
def frag_lt : Key → Key → Prop
  | [], _ :: _ => True
  | a :: _, b :: _ => a < b
  | _, [] => False

instance : Inhabited (Node V) := ⟨.mk [] none [] 0 false⟩

instance : Nonempty Key := ⟨[]⟩

/-- The invariant of the node `n` whose ancestors' fragments join to `pre`: a leaf has
an empty fragment, no children and the value stored under the key `pre`; an inner
node has no value, and each entry of its children map is keyed by the child's own
fragment, holds a leaf exactly under the empty fragment, holds no childless inner
node, and satisfies the invariant below `pre ++ m_key`; sibling fragments are ordered
by their first symbols. The depth is the length of `pre`. -/
inductive InvNode : Node V → Key → Prop
  | leaf (pre : Key) (v : V) :
      InvNode (.mk [] (some (pre, v)) [] (pre.length : Int) true) pre
  | inner (pre k : Key) (cs : List (Key × Node V))
      (hc : ∀ e ∈ cs, e.2.m_key = e.1 ∧ (e.2.m_is_leaf = true ↔ e.1 = []) ∧
              (e.2.m_is_leaf = false → e.2.m_children ≠ []))
      (hi : ∀ e ∈ cs, InvNode e.2 (pre ++ k))
      (hs : cs.Pairwise (fun a b => frag_lt a.1 b.1)) :
      InvNode (.mk k none cs (pre.length : Int) false) pre

/-- The invariant of a root: an inner node with an empty fragment. -/
structure RootInv (root : Node V) : Prop where
  inv : InvNode root []
  key : root.m_key = []
  inner : root.m_is_leaf = false

/-- The invariant of a tree: the root, when there is one, satisfies `RootInv`. -/
def InvTree (t : Tree V) : Prop :=
  ∀ root, t.m_root = some root → RootInv root

mutual
/-- The entries stored in the leaves below a node, in the order of the children maps. -/
def leaves : Node V → List (Key × V)
  | .mk _ v cs _ lf => if lf then v.toList else leaves_loop cs
/-- The entries stored below the nodes of a children map. -/
def leaves_loop : List (Key × Node V) → List (Key × V)
  | [] => []
  | (_, c) :: rest => leaves c ++ leaves_loop rest
end

/-- The entries stored in a tree. -/
def stored (t : Tree V) : List (Key × V) :=
  match t.m_root with
  | none => []
  | some root => leaves root

/-- Where the descent from the inner node `n` ends, `rest` being the part of the key
after the fragment of `n`: on the leaf under the node whose path is the key; on an
inner node whose path is consumed and none of whose children continues the key; or
on an inner node whose fragment starts like the remainder of the key without being
a leading part of it. -/
def Land (n : Node V) (rest : Key) (p : Ptr) : Prop :=
  (∃ p0 par lf, p = p0 ++ [[]] ∧ getNode n p0 = some par ∧ par.m_is_leaf = false ∧
      p0.flatten = rest ∧ map_find par.m_children [] = some lf ∧ lf.m_is_leaf = true) ∨
  (∃ node rest1, getNode n p = some node ∧ node.m_is_leaf = false ∧
      rest = p.flatten ++ rest1 ∧
      (rest1 = [] → map_find node.m_children [] = none) ∧
      (∀ a r, rest1 = a :: r → ∀ e ∈ node.m_children, e.1.head? ≠ some a)) ∨
  (∃ p0 f par node a r, p = p0 ++ [f] ∧ getNode n p0 = some par ∧ par.m_is_leaf = false ∧
      map_find par.m_children f = some node ∧ node.m_is_leaf = false ∧
      rest = p0.flatten ++ a :: r ∧ f.head? = some a ∧ ¬ f <+: a :: r)

/-- The length of the longest common leading run of two keys. -/
def lcp : Key → Key → Nat
  | a :: as, b :: bs => if a = b then lcp as bs + 1 else 0
  | _, _ => 0

/-- A run of statements `tree[k] = v`, in order. -/
def assign_all [Inhabited V] : List (Key × V) → Tree V → Except Fault (Tree V)
  | [], t => .ok t
  | (k, v) :: rest, t =>
    match index_assign t k v with
    | .error e => .error e
    | .ok t1 => assign_all rest t1

/-- The value of the last assignment to `q` in a run of assignments; `none` when `q`
was never assigned. -/
def last_assigned : List (Key × V) → Key → Option V
  | [], _ => none
  | (k, v) :: rest, q =>
    match last_assigned rest q with
    | some w => some w
    | none => if k = q then some v else none

/-- A call of `insert(val)` or a statement `tree[k] = v`. -/
inductive Op (V : Type) where
  | insert (val : Key × V)
  | assign (k : Key) (v : V)

/-- The key an operation is about. -/
def Op.key : Op V → Key
  | .insert val => val.1
  | .assign k _ => k

/-- A run of `insert` calls and `tree[k] = v` statements, in order. -/
def run_ops [Inhabited V] : List (Op V) → Tree V → Except Fault (Tree V)
  | [], t => .ok t
  | .insert val :: rest, t =>
    match insert t val with
    | .error e => .error e
    | .ok (t1, _, _) => run_ops rest t1
  | .assign k v :: rest, t =>
    match index_assign t k v with
    | .error e => .error e
    | .ok t1 => run_ops rest t1

/-- The value an associative container holds for `q` after the operations, starting
from the content `m`: `insert` adds an entry only for an absent key, `tree[k] = v`
sets the value of `k`. -/
def ref_value : List (Op V) → (Key → Option V) → Key → Option V
  | [], m, q => m q
  | .insert val :: rest, m, q =>
    ref_value rest (fun x => if x = val.1 then (match m x with
      | some w => some w
      | none => some val.2) else m x) q
  | .assign k v :: rest, m, q => ref_value rest (fun x => if x = k then some v else m x) q

/-- The stored keys of a tree. -/
def keys (t : Tree V) : List Key := (stored t).map Prod.fst

mutual
/-- Decidable equality of nodes. -/
def Node.decEq [DecidableEq V] : (a b : Node V) → Decidable (a = b)
  | .mk k1 v1 cs1 d1 l1, .mk k2 v2 cs2 d2 l2 =>
    if hk : k1 = k2 then
      if hv : v1 = v2 then
        if hd : d1 = d2 then
          if hl : l1 = l2 then
            match Node.decEqList cs1 cs2 with
            | isTrue h => isTrue (by rw [hk, hv, hd, hl, h])
            | isFalse h => isFalse (by intro e; injection e; contradiction)
          else isFalse (by intro e; injection e; contradiction)
        else isFalse (by intro e; injection e; contradiction)
      else isFalse (by intro e; injection e; contradiction)
    else isFalse (by intro e; injection e; contradiction)
/-- Decidable equality of children maps. -/
def Node.decEqList [DecidableEq V] : (a b : List (Key × Node V)) → Decidable (a = b)
  | [], [] => isTrue rfl
  | [], _ :: _ => isFalse (by intro e; cases e)
  | _ :: _, [] => isFalse (by intro e; cases e)
  | (f1, c1) :: r1, (f2, c2) :: r2 =>
    if hf : f1 = f2 then
      match Node.decEq c1 c2 with
      | isTrue hc =>
        match Node.decEqList r1 r2 with
        | isTrue hr => isTrue (by rw [hf, hc, hr])
        | isFalse hr => isFalse (by intro e; injection e; contradiction)
      | isFalse hc => isFalse (by intro e; injection e with e1 e2; injection e1; contradiction)
    else isFalse (by intro e; injection e with e1 e2; injection e1; contradiction)
end

instance [DecidableEq V] : DecidableEq (Node V) := Node.decEq

deriving instance DecidableEq for Tree

deriving instance DecidableEq for Except

/-- The call `erase(key)` on the tree built by a run of assignments; the result holds
the size before the call, the size after it and the returned flag. -/
def erase_after_assignments [Inhabited V] (ops : List (Key × V)) (key : Key) :
    Except Fault (Nat × Nat × Bool) :=
  match assign_all ops Tree.empty with
  | .error e => .error e
  | .ok t =>
    match erase t key with
    | .error e => .error e
    | .ok (t1, b) => .ok (size t, size t1, b)

/-- The eleven assignments of `insert()` in `test_string.cpp`. -/
def test_assignments : List (Key × Int) :=
  [("apache".toList, 0), ("afford".toList, 1), ("available".toList, 2),
   ("affair".toList, 3), ("avenger".toList, 4), ("binary".toList, 5), ("bind".toList, 6),
   ("brother".toList, 7), ("brace".toList, 8), ("blind".toList, 9), ("bro".toList, 10)]

/-- The value of the node a pointer refers to, from the root. -/
def value_at (root : Node V) (p : Ptr) : Option (Key × V) :=
  match getNode root p with
  | some n => n.m_value
  | none => none

/-- The loop `for (; it != tree.end(); ++it)` of `print_tree` in `test_string.cpp`,
with the entries `it->first`, `it->second` it prints; `none` when the fuel runs out. -/
def print_tree_loop (t : Tree V) : Nat → Iter → Except Fault (Option (List (Key × V)))
  | _, none => .ok (some [])
  | 0, some _ => .ok none
  | fuel + 1, some p =>
    match entry t (some p) with
    | none => .error .null_deref
    | some e =>
      match iter_next t (some p) with
      | .error err => .error err
      | .ok it1 =>
        match print_tree_loop t fuel it1 with
        | .error err => .error err
        | .ok none => .ok none
        | .ok (some l) => .ok (some (e :: l))

/-- The function `print_tree` of `test_string.cpp`: the walk from `begin()` to `end()`. -/
def print_tree (t : Tree V) (fuel : Nat) : Except Fault (Option (List (Key × V))) :=
  match tree_begin t with
  | .error e => .error e
  | .ok it => print_tree_loop t fuel it

/-- The first five assignments of `insert()` in `test_string.cpp`. -/
def five_assignments : List (Key × Int) :=
  [("apache".toList, 0), ("afford".toList, 1), ("available".toList, 2),
   ("affair".toList, 3), ("avenger".toList, 4)]

/-- The call `longest_match(q)` on the tree built by a run of assignments; the result
tells whether the returned iterator is `end()` and holds its entry. -/
def longest_match_after_assignments [Inhabited V] (ops : List (Key × V)) (q : Key) :
    Except Fault (Bool × Option (Key × V)) :=
  match assign_all ops Tree.empty with
  | .error e => .error e
  | .ok t =>
    match longest_match t q with
    | .error e => .error e
    | .ok it => .ok (it.isNone, entry t it)

/-- The call `prefix_match(q, vec)` on the tree built by a run of assignments; the
result holds the entries of the iterators left in `vec`. -/
def prefix_match_after_assignments [Inhabited V] (ops : List (Key × V)) (q : Key) :
    Except Fault (List (Option (Key × V))) :=
  match assign_all ops Tree.empty with
  | .error e => .error e
  | .ok t =>
    match prefix_match t q with
    | .error e => .error e
    | .ok out => .ok (out.map (entry t))

/-- The call `greedy_match(q, vec)` on the tree built by a run of assignments; the
result holds the entries of the iterators left in `vec`. -/
def greedy_match_after_assignments [Inhabited V] (ops : List (Key × V)) (q : Key) :
    Except Fault (List (Option (Key × V))) :=
  match assign_all ops Tree.empty with
  | .error e => .error e
  | .ok t =>
    match greedy_match t q with
    | .error e => .error e
    | .ok out => .ok (out.map (entry t))

/-- A call of a member that changes the tree: `insert(val)`, `tree[k] = v`, `erase(k)`
or `clear()`. -/
inductive Call (V : Type) where
  | insert (val : Key × V)
  | assign (k : Key) (v : V)
  | erase (k : Key)
  | clear

/-- A run of calls that change the tree, in order; a fault ends the run. -/
def run_calls [Inhabited V] : List (Call V) → Tree V → Except Fault (Tree V)
  | [], t => .ok t
  | .insert val :: rest, t =>
    match insert t val with
    | .error e => .error e
    | .ok (t1, _, _) => run_calls rest t1
  | .assign k v :: rest, t =>
    match index_assign t k v with
    | .error e => .error e
    | .ok t1 => run_calls rest t1
  | .erase k :: rest, t =>
    match erase t k with
    | .error e => .error e
    | .ok (t1, _) => run_calls rest t1
  | .clear :: rest, t => run_calls rest (clear t)

/-- The calls `tree["bro"] = 1; tree["brother"] = 2; erase("bro")`. -/
def bro_calls : List (Call Int) :=
  [Call.assign "bro".toList 1, Call.assign "brother".toList 2, Call.erase "bro".toList]

/-- The two calls `insert(("a", 1)); tree["a"] = 2`. -/
def a_ops : List (Op Int) := [Op.insert ("a".toList, 1), Op.assign "a".toList 2]

/-- The tree left by `tree["bro"] = 1; tree["brother"] = 2; erase("bro")`. -/
def erased_bro : Tree Int :=
  ⟨2, some (.mk [] none
    [("bro".toList, .mk "bro".toList none
      [("ther".toList, .mk "ther".toList none
        [([], .mk [] (some ("brother".toList, 2)) [] 7 true)] 3 false)] 0 false)] 0 false)⟩

mutual
/-- Every node of the tree below a node, the node itself first, each with the list of
its proper ancestors from the root down; `anc` lists the proper ancestors of the
node. -/
def nodes_below (anc : List (Node V)) : Node V → List (List (Node V) × Node V)
  | .mk k v cs d lf =>
    (anc, .mk k v cs d lf) :: nodes_below_loop (anc ++ [.mk k v cs d lf]) cs
/-- The nodes below the nodes of a children map. -/
def nodes_below_loop (anc : List (Node V)) :
    List (Key × Node V) → List (List (Node V) × Node V)
  | [] => []
  | (_, c) :: rest => nodes_below anc c ++ nodes_below_loop anc rest
end

/-- Every node of a tree with its proper ancestors, the root first. -/
def all_nodes (t : Tree V) : List (List (Node V) × Node V) :=
  match t.m_root with
  | none => []
  | some root => nodes_below [] root

/-- The fragments of a list of nodes joined in order. -/
def join_fragments (ns : List (Node V)) : Key :=
  (ns.map Node.m_key).foldr radix_join []

/-- The ancestors of a node are inner nodes, and the depth of each is the length of
the joined fragments of the ancestors above it. -/
def AncOk (anc : List (Node V)) : Prop :=
  ∀ a0 p a1, anc = a0 ++ p :: a1 →
    p.m_depth = ((join_fragments a0).length : Int) ∧ p.m_is_leaf = false

/-- The value of an observation on the tree left by a run of calls on a fresh tree. -/
def after_calls [Inhabited V] {α : Type} (calls : List (Call V)) (f : Tree V → α) :
    Except Fault α :=
  match run_calls calls Tree.empty with
  | .error e => .error e
  | .ok t => .ok (f t)

/-- The fragment and the leaf flag of the node at a pointer, and those of its
children. -/
def node_shape (t : Tree V) (p : Ptr) : Option ((Key × Bool) × List (Key × Bool)) :=
  match t.m_root with
  | none => none
  | some root =>
    match getNode root p with
    | none => none
    | some n => some ((n.m_key, n.m_is_leaf), n.m_children.map (fun e => (e.2.m_key, e.2.m_is_leaf)))

/-- The calls `tree["bro"] = 0; tree["brace"] = 1; tree["brother"] = 2;
tree["blind"] = 3; tree["binary"] = 4; tree["bind"] = 5; erase("bro")`. -/
def merge_calls : List (Call Int) :=
  [Call.assign "bro".toList 0, Call.assign "brace".toList 1, Call.assign "brother".toList 2,
   Call.assign "blind".toList 3, Call.assign "binary".toList 4, Call.assign "bind".toList 5,
   Call.erase "bro".toList]

/-- The calls `tree[""] = 1; erase("")`. -/
def nul_calls : List (Call Int) := [Call.assign [] 1, Call.erase []]

/-- The leaf of the key "a" with the value 1. -/
def a_leaf : Node Int := .mk [] (some ("a".toList, 1)) [] 1 true

/-- The inner node with the fragment "a" above the leaf of "a". -/
def a_inner : Node Int := .mk "a".toList none [([], a_leaf)] 0 false

/-- The root of the tree left by `insert(("a", 1))` on a fresh tree. -/
def a_root : Node Int := .mk [] none [("a".toList, a_inner)] 0 false

/-- The tree left by `insert(("a", 1))` on a fresh tree. -/
def a_tree : Tree Int := ⟨1, some a_root⟩

/-- An inner node with exactly one child has a leaf as that child. -/
def lone_ok (c : Node V) : Prop :=
  c.m_is_leaf = false → ∀ e, c.m_children = [e] → e.2.m_is_leaf = true

/-- Below the node, every inner node with exactly one child has a leaf as that
child; nothing is asked of the node itself. -/
inductive Lone : Node V → Prop
  | mk (n : Node V) (h1 : ∀ e ∈ n.m_children, lone_ok e.2)
      (h2 : ∀ e ∈ n.m_children, Lone e.2) : Lone n

/-- The property `Lone` of the root of a tree, when there is one. -/
def LoneTree (t : Tree V) : Prop := ∀ root, t.m_root = some root → Lone root

/-- The first four `insert` calls of `main` in `test_ip.cpp`: the routes `0.0.0.0/0`,
`10.0.0.0/8`, `172.16.0.0/16` and `172.16.1.0/24` with their next hops. -/
def test_routes : List (Nat × Int × Nat) :=
  [(Route.ipv4 0 0 0 0, 0, Route.ipv4 192 168 0 1),
   (Route.ipv4 10 0 0 0, 8, Route.ipv4 192 168 0 2),
   (Route.ipv4 172 16 0 0, 16, Route.ipv4 192 168 0 3),
   (Route.ipv4 172 16 1 0, 24, Route.ipv4 192 168 0 255)]

/-- The inner node with the fragment "bro" above the leaf of "bro". -/
def bro_inner : Node Int :=
  .mk "bro".toList none [([], .mk [] (some ("bro".toList, 1)) [] 3 true)] 0 false

/-- The root of the tree left by `tree["bro"] = 1` on a fresh tree. -/
def bro_root : Node Int := .mk [] none [("bro".toList, bro_inner)] 0 false

/-! ## Theorems -/

/-! ## Facts about the key order -/

theorem key_lt_irrefl (a : Key) : key_lt a a = false := by
  induction a with
  | nil => rfl
  | cons x xs ih => simp [key_lt, ih]

theorem key_lt_append_left (p a b : Key) : key_lt (p ++ a) (p ++ b) = key_lt a b := by
  induction p with
  | nil => rfl
  | cons x xs ih => simp [key_lt, ih]

theorem key_lt_trans : ∀ (a b c : Key), key_lt a b = true → key_lt b c = true → key_lt a c = true
  | [], [], _, h, _ => by simp [key_lt] at h
  | [], _ :: _, [], _, h => by simp [key_lt] at h
  | [], _ :: _, _ :: _, _, _ => by simp [key_lt]
  | _ :: _, [], _, h, _ => by simp [key_lt] at h
  | _ :: _, _ :: _, [], _, h => by simp [key_lt] at h
  | x :: a, y :: b, z :: c, h1, h2 => by
    simp only [key_lt] at h1 h2 ⊢
    by_cases hxy : x < y
    · by_cases hyz : y < z
      · simp [lt_trans hxy hyz]
      · simp only [hyz, if_false] at h2
        by_cases hzy : z < y
        · simp [hzy] at h2
        · have : y = z := le_antisymm (not_lt.mp hzy) (not_lt.mp hyz)
          subst this; simp [hxy]
    · simp only [hxy, if_false] at h1
      by_cases hyx : y < x
      · simp [hyx] at h1
      · have hxy2 : x = y := le_antisymm (not_lt.mp hyx) (not_lt.mp hxy)
        subst hxy2
        simp only [hyx, if_false] at h1
        by_cases hyz : x < z
        · simp [hyz]
        · simp only [hyz, if_false] at h2 ⊢
          by_cases hzy : z < x
          · simp [hzy] at h2
          · simp only [hzy, if_false] at h2 ⊢
            exact key_lt_trans a b c h1 h2

theorem key_lt_total : ∀ (a b : Key), key_lt a b = true ∨ a = b ∨ key_lt b a = true
  | [], [] => by simp
  | [], _ :: _ => by simp [key_lt]
  | _ :: _, [] => by simp [key_lt]
  | x :: a, y :: b => by
    simp only [key_lt]
    rcases lt_trichotomy x y with h | h | h
    · simp [h]
    · subst h
      simp only [lt_irrefl, if_false]
      rcases key_lt_total a b with h | h | h
      · simp [h]
      · simp [h]
      · simp [h]
    · simp [h]

theorem key_lt_asymm (a b : Key) (h : key_lt a b = true) : key_lt b a = false := by
  by_contra h2
  have h3 : key_lt b a = true := by simpa using h2
  have := key_lt_trans a b a h h3
  simp [key_lt_irrefl] at this

theorem frag_lt_key_lt {f g : Key} (h : frag_lt f g) : key_lt f g = true := by
  cases f <;> cases g <;> simp_all [frag_lt, key_lt]

theorem frag_lt_ne {f g : Key} (h : frag_lt f g) : f ≠ g := by
  intro e; subst e
  cases f <;> simp_all [frag_lt]

theorem frag_lt_head {f g : Key} (h : frag_lt f g) : f.head? ≠ g.head? ∨ f = [] := by
  cases f <;> cases g <;> simp_all [frag_lt]
  exact ne_of_lt h

theorem frag_lt_trans {f g h : Key} (h1 : frag_lt f g) (h2 : frag_lt g h) : frag_lt f h := by
  cases f <;> cases g <;> cases h <;> simp_all [frag_lt]
  exact lt_trans h1 h2

/-! ## The representation invariant and the stored entries -/

@[simp]
theorem Node.m_key_mk (k : Key) (v : Option (Key × V)) (cs : List (Key × Node V))
    (d : Int) (lf : Bool) : (Node.mk k v cs d lf).m_key = k := rfl

@[simp]
theorem Node.m_value_mk (k : Key) (v : Option (Key × V)) (cs : List (Key × Node V))
    (d : Int) (lf : Bool) : (Node.mk k v cs d lf).m_value = v := rfl

@[simp]
theorem Node.m_children_mk (k : Key) (v : Option (Key × V)) (cs : List (Key × Node V))
    (d : Int) (lf : Bool) : (Node.mk k v cs d lf).m_children = cs := rfl

@[simp]
theorem Node.m_depth_mk (k : Key) (v : Option (Key × V)) (cs : List (Key × Node V))
    (d : Int) (lf : Bool) : (Node.mk k v cs d lf).m_depth = d := rfl

@[simp]
theorem Node.m_is_leaf_mk (k : Key) (v : Option (Key × V)) (cs : List (Key × Node V))
    (d : Int) (lf : Bool) : (Node.mk k v cs d lf).m_is_leaf = lf := rfl

@[simp]
theorem Node.set_children_mk (k : Key) (v : Option (Key × V)) (cs cs2 : List (Key × Node V))
    (d : Int) (lf : Bool) : (Node.mk k v cs d lf).set_children cs2 = Node.mk k v cs2 d lf := rfl

@[simp]
theorem leaves_loop_nil : leaves_loop ([] : List (Key × Node V)) = [] := by
  simp [leaves_loop]

@[simp]
theorem leaves_loop_cons (e : Key × Node V) (rest : List (Key × Node V)) :
    leaves_loop (e :: rest) = leaves e.2 ++ leaves_loop rest := by
  cases e; simp [leaves_loop]

theorem leaves_loop_append (a b : List (Key × Node V)) :
    leaves_loop (a ++ b) = leaves_loop a ++ leaves_loop b := by
  induction a with
  | nil => simp
  | cons e rest ih => simp [ih]

theorem mem_leaves_loop {x : Key × V} {cs : List (Key × Node V)} :
    x ∈ leaves_loop cs ↔ ∃ e ∈ cs, x ∈ leaves e.2 := by
  induction cs with
  | nil => simp
  | cons e rest ih => simp [ih]

theorem leaves_inner (n : Node V) (h : n.m_is_leaf = false) :
    leaves n = leaves_loop n.m_children := by
  cases n with
  | mk k v cs d lf => simp at h; subst h; simp [leaves]

@[simp]
theorem leaves_mk_inner (k : Key) (v : Option (Key × V)) (cs : List (Key × Node V))
    (d : Int) : leaves (Node.mk k v cs d false) = leaves_loop cs := by
  simp [leaves]

theorem leaves_leaf (k : Key) (x : Key × V) (cs : List (Key × Node V)) (d : Int) :
    leaves (Node.mk k (some x) cs d true) = [x] := by
  simp [leaves]

/-! ### Inversion of the invariant -/

theorem InvNode.depth_eq {n : Node V} {pre : Key} (h : InvNode n pre) :
    n.m_depth = (pre.length : Int) := by
  cases h <;> rfl

theorem InvNode.leaf_inv {n : Node V} {pre : Key} (h : InvNode n pre)
    (hl : n.m_is_leaf = true) :
    ∃ v, n = .mk [] (some (pre, v)) [] (pre.length : Int) true := by
  cases h with
  | leaf pre v => exact ⟨v, rfl⟩
  | inner pre k cs hc hi hs => simp at hl

theorem InvNode.inner_inv {n : Node V} {pre : Key} (h : InvNode n pre)
    (hl : n.m_is_leaf = false) :
    n = .mk n.m_key none n.m_children (pre.length : Int) false ∧
    (∀ e ∈ n.m_children, e.2.m_key = e.1 ∧ (e.2.m_is_leaf = true ↔ e.1 = []) ∧
        (e.2.m_is_leaf = false → e.2.m_children ≠ [])) ∧
    (∀ e ∈ n.m_children, InvNode e.2 (pre ++ n.m_key)) ∧
    n.m_children.Pairwise (fun a b => frag_lt a.1 b.1) := by
  cases h with
  | leaf pre v => simp at hl
  | inner pre k cs hc hi hs => exact ⟨rfl, hc, hi, hs⟩

/-! ### The children map as a list with distinct keys -/

theorem map_find_mem {α : Type} {cs : List (Key × α)} {f : Key} {c : α}
    (h : map_find cs f = some c) : (f, c) ∈ cs := by
  induction cs with
  | nil => simp [map_find] at h
  | cons e rest ih =>
    obtain ⟨k, x⟩ := e
    simp only [map_find] at h
    by_cases hk : k = f
    · simp [hk] at h; simp [hk, h]
    · simp [hk] at h; simp [ih h]

theorem map_find_none {α : Type} {cs : List (Key × α)} {f : Key} :
    map_find cs f = none ↔ ∀ e ∈ cs, e.1 ≠ f := by
  induction cs with
  | nil => simp [map_find]
  | cons e rest ih =>
    obtain ⟨k, x⟩ := e
    by_cases hk : k = f <;> simp [map_find, hk, ih]

theorem map_find_split {α : Type} {cs : List (Key × α)} {f : Key} {c : α}
    (h : map_find cs f = some c) :
    ∃ l1 l2, cs = l1 ++ (f, c) :: l2 ∧ (∀ e ∈ l1, e.1 ≠ f) ∧
      (∀ x, map_replace cs f x = l1 ++ (f, x) :: l2) ∧ map_erase cs f = l1 ++ l2 ∧
      map_after cs f = some l2 := by
  induction cs with
  | nil => simp [map_find] at h
  | cons e rest ih =>
    obtain ⟨k, y⟩ := e
    simp only [map_find] at h
    by_cases hk : k = f
    · simp [hk] at h
      subst hk; subst h
      exact ⟨[], rest, by simp, by simp, by simp [map_replace], by simp [map_erase],
        by simp [map_after]⟩
    · simp [hk] at h
      obtain ⟨l1, l2, e1, e2, e3, e4, e5⟩ := ih h
      refine ⟨(k, y) :: l1, l2, by simp [e1], ?_, ?_, ?_, ?_⟩
      · intro e he
        rcases List.mem_cons.mp he with rfl | he
        · exact hk
        · exact e2 e he
      · intro x; simp [map_replace, hk, e3]
      · simp [map_erase, hk, e4]
      · simp [map_after, hk, e5]

theorem map_find_of_mem {cs : List (Key × Node V)} {f : Key} {c : Node V}
    (hs : cs.Pairwise (fun a b => frag_lt a.1 b.1)) (h : (f, c) ∈ cs) :
    map_find cs f = some c := by
  induction cs with
  | nil => simp at h
  | cons e rest ih =>
    obtain ⟨k, y⟩ := e
    rw [List.pairwise_cons] at hs
    rcases List.mem_cons.mp h with e1 | e1
    · cases e1; simp [map_find]
    · have : k ≠ f := frag_lt_ne (hs.1 _ e1)
      simp [map_find, this, ih hs.2 e1]

/-- Assigning a fragment that is comparable with every present one inserts a new entry
at its place in the order. -/
theorem map_set_split {cs : List (Key × Node V)} {k : Key} (x : Node V)
    (hs : cs.Pairwise (fun a b => frag_lt a.1 b.1))
    (hk : ∀ e ∈ cs, frag_lt e.1 k ∨ frag_lt k e.1) :
    ∃ l1 l2, cs = l1 ++ l2 ∧ map_set cs k x = l1 ++ (k, x) :: l2 ∧
      (∀ e ∈ l1, frag_lt e.1 k) ∧ (∀ e ∈ l2, frag_lt k e.1) := by
  induction cs with
  | nil => exact ⟨[], [], by simp, by simp [map_set], by simp, by simp⟩
  | cons e rest ih =>
    obtain ⟨k1, y⟩ := e
    rw [List.pairwise_cons] at hs
    have hne : k1 ≠ k := by
      rcases hk (k1, y) (by simp) with h | h
      · exact frag_lt_ne h
      · exact (frag_lt_ne h).symm
    by_cases hlt : key_lt k k1 = true
    · have hf : frag_lt k k1 := by
        rcases hk (k1, y) (by simp) with h | h
        · have := key_lt_asymm _ _ (frag_lt_key_lt h)
          simp [hlt] at this
        · exact h
      refine ⟨[], (k1, y) :: rest, by simp, by simp [map_set, hne, hlt], by simp, ?_⟩
      intro e he
      rcases List.mem_cons.mp he with rfl | he
      · exact hf
      · exact frag_lt_trans hf (hs.1 e he)
    · have hf : frag_lt k1 k := by
        rcases hk (k1, y) (by simp) with h | h
        · exact h
        · exact absurd (frag_lt_key_lt h) hlt
      obtain ⟨l1, l2, e1, e2, e3, e4⟩ := ih hs.2 (fun e he => hk e (by simp [he]))
      refine ⟨(k1, y) :: l1, l2, by simp [e1], by simp [map_set, hne, hlt, e2], ?_, e4⟩
      intro e he
      rcases List.mem_cons.mp he with rfl | he
      · exact hf
      · exact e3 e he

/-! ### Pointers -/

theorem getNode_append (n : Node V) (a b : Ptr) :
    getNode n (a ++ b) = (getNode n a).bind (fun m => getNode m b) := by
  induction a generalizing n with
  | nil => simp [getNode]
  | cons f p ih =>
    simp only [List.cons_append, getNode]
    cases h : map_find n.m_children f with
    | none => simp
    | some c => simp [ih]

theorem getNode_cons_of_find {n c : Node V} {f : Key} (p : Ptr)
    (h : map_find n.m_children f = some c) : getNode n (f :: p) = getNode c p := by
  simp [getNode, h]

/-! ### Keys below a node -/

theorem InvNode.leaves_below {n : Node V} {pre : Key} (h : InvNode n pre) :
    ∀ x ∈ leaves n, (pre ++ n.m_key) <+: x.1 ∧ (n.m_is_leaf = true → x.1 = pre) := by
  induction h with
  | leaf pre v =>
    intro x hx
    simp [leaves] at hx
    subst hx
    simp
  | inner pre k cs hc hi hs ih =>
    intro x hx
    rw [leaves_inner (Node.mk k none cs (pre.length : Int) false) rfl] at hx
    obtain ⟨e, he, hxe⟩ := mem_leaves_loop.mp hx
    have := (ih e he x hxe).1
    simp only [Node.m_key_mk, Node.m_is_leaf_mk]
    refine ⟨?_, by simp⟩
    exact List.IsPrefix.trans (List.prefix_append _ _) this

theorem cross_lt {P f g a b : Key} (hfg : frag_lt f g) (ha : (P ++ f) <+: a)
    (hb : (P ++ g) <+: b) (hf : f = [] → a = P) : key_lt a b = true := by
  obtain ⟨sa, rfl⟩ := ha
  obtain ⟨sb, rfl⟩ := hb
  cases f with
  | nil =>
    cases g with
    | nil => simp [frag_lt] at hfg
    | cons y g1 =>
      have h1 := hf rfl
      rw [h1]
      have : key_lt (P ++ []) (P ++ (y :: g1 ++ sb)) = true := by
        rw [key_lt_append_left]; simp [key_lt]
      simpa [List.append_assoc] using this
  | cons x f1 =>
    cases g with
    | nil => simp [frag_lt] at hfg
    | cons y g1 =>
      have hxy : x < y := by simpa [frag_lt] using hfg
      have : key_lt (P ++ (x :: f1 ++ sa)) (P ++ (y :: g1 ++ sb)) = true := by
        rw [key_lt_append_left]; simp [key_lt, hxy]
      simpa [List.append_assoc] using this

theorem leaves_loop_sorted (P : Key) (cs : List (Key × Node V))
    (hc : ∀ e ∈ cs, e.2.m_key = e.1 ∧ (e.2.m_is_leaf = true ↔ e.1 = []) ∧
              (e.2.m_is_leaf = false → e.2.m_children ≠ []))
    (hi : ∀ e ∈ cs, InvNode e.2 P)
    (hsorted : ∀ e ∈ cs, (leaves e.2).Pairwise (fun a b => key_lt a.1 b.1 = true))
    (hs : cs.Pairwise (fun a b => frag_lt a.1 b.1)) :
    (leaves_loop cs).Pairwise (fun a b => key_lt a.1 b.1 = true) := by
  induction cs with
  | nil => simp
  | cons e rest ih =>
    rw [List.pairwise_cons] at hs
    rw [leaves_loop_cons, List.pairwise_append]
    refine ⟨hsorted e (by simp), ?_, ?_⟩
    · exact ih (fun e he => hc e (by simp [he])) (fun e he => hi e (by simp [he]))
        (fun e he => hsorted e (by simp [he])) hs.2
    · intro a ha b hb
      obtain ⟨e2, he2, hb2⟩ := mem_leaves_loop.mp hb
      have h1 := (hi e (by simp)).leaves_below a ha
      have h2 := (hi e2 (by simp [he2])).leaves_below b hb2
      have hce := hc e (by simp)
      have hce2 := hc e2 (by simp [he2])
      rw [hce.1] at h1
      rw [hce2.1] at h2
      exact cross_lt (hs.1 e2 he2) h1.1 h2.1 (fun h0 => h1.2 (hce.2.1.mpr h0))

theorem InvNode.leaves_sorted {n : Node V} {pre : Key} (h : InvNode n pre) :
    (leaves n).Pairwise (fun a b => key_lt a.1 b.1 = true) := by
  induction h with
  | leaf pre v => simp [leaves]
  | inner pre k cs hc hi hs ih =>
    rw [leaves_inner (Node.mk k none cs (pre.length : Int) false) rfl]
    exact leaves_loop_sorted (pre ++ k) cs hc hi ih hs

/-- An inner node that satisfies the invariant and has children is not a leaf. -/
theorem InvNode.not_leaf_of_find {n c : Node V} {pre f : Key} (h : InvNode n pre)
    (hf : map_find n.m_children f = some c) : n.m_is_leaf = false := by
  cases h with
  | leaf pre v => simp [map_find] at hf
  | inner pre k cs hc hi hs => rfl

theorem InvNode.child {n c : Node V} {pre f : Key} (h : InvNode n pre)
    (hf : map_find n.m_children f = some c) :
    c.m_key = f ∧ (c.m_is_leaf = true ↔ f = []) ∧
      (c.m_is_leaf = false → c.m_children ≠ []) ∧ InvNode c (pre ++ n.m_key) := by
  have hl := h.not_leaf_of_find hf
  obtain ⟨-, hc, hi, -⟩ := h.inner_inv hl
  have hm := map_find_mem hf
  exact ⟨(hc _ hm).1, (hc _ hm).2.1, (hc _ hm).2.2, hi _ hm⟩

/-- The node at a pointer satisfies the invariant below the joined fragments of the
path to it. -/
theorem getNode_inv {p : Ptr} : ∀ {n node : Node V} {pre : Key}, InvNode n pre →
    getNode n p = some node →
    ∃ pre1, InvNode node pre1 ∧ pre1 ++ node.m_key = pre ++ n.m_key ++ p.flatten := by
  induction p with
  | nil =>
    intro n node pre h hg
    simp [getNode] at hg
    subst hg
    exact ⟨pre, h, by simp⟩
  | cons f p ih =>
    intro n node pre h hg
    simp only [getNode] at hg
    cases hf : map_find n.m_children f with
    | none => simp [hf] at hg
    | some c =>
      simp only [hf] at hg
      obtain ⟨hk, -, -, hic⟩ := h.child hf
      obtain ⟨pre1, h1, h2⟩ := ih hic hg
      refine ⟨pre1, h1, ?_⟩
      rw [h2, hk]
      simp [List.append_assoc]

/-! ### String primitives on a key split as `pre ++ rest` -/

theorem radix_substr_ok (key : Key) (b num : Nat) (hb : b ≤ key.length) :
    radix_substr key (b : Int) (num : Int) = .ok ((key.drop b).take num) := by
  have h1 : ¬ ((b : Int) < 0 ∨ (key.length : Int) < (b : Int)) := by omega
  have h2 : ¬ ((num : Int) < 0) := by omega
  simp only [radix_substr, h1, h2, if_false, Int.toNat_ofNat]

theorem radix_substr_split (pre rest : Key) (num : Nat) :
    radix_substr (pre ++ rest) (pre.length : Int) (num : Int) = .ok (rest.take num) := by
  rw [radix_substr_ok _ _ _ (by simp)]
  simp

theorem radix_substr_nul (key : Key) : radix_substr key 0 0 = .ok [] := by
  have := radix_substr_ok key 0 0 (by simp)
  simpa using this

theorem str_at_split (pre : Key) (a : Char) (r : Key) :
    str_at (pre ++ a :: r) (pre.length : Int) = a := by
  simp [str_at, List.getD_eq_getElem?_getD, List.getElem?_append_right, List.getElem_append_right]

theorem str_at_zero (a : Char) (f : Key) : str_at (a :: f) 0 = a := by
  simp [str_at]

theorem take_eq_iff_leading (f rest : Key) : rest.take f.length = f ↔ f <+: rest := by
  rw [List.prefix_iff_eq_take]
  exact eq_comm

/-! ### The descent -/

theorem glpn_eq_loop (q : Key) (n : Node V) (m : Int) :
    get_longest_prefix_node q n m = get_longest_prefix_node_loop q n.m_children m := by
  cases n with
  | mk k v cs d lf =>
    cases cs with
    | nil => simp [get_longest_prefix_node, get_longest_prefix_node_loop]
    | cons e rest => simp [get_longest_prefix_node]

/-- The whole key is consumed: the loop returns the leaf child when there is one. -/
theorem glpn_loop_done (q : Key) (m : Int) (hm : m = (q.length : Int))
    (cs : List (Key × Node V))
    (hc : ∀ e ∈ cs, (e.2.m_is_leaf = true ↔ e.1 = [])) :
    (map_find cs [] = none → get_longest_prefix_node_loop q cs m = .ok []) ∧
    (∀ c, map_find cs [] = some c → get_longest_prefix_node_loop q cs m = .ok [[]]) := by
  induction cs with
  | nil => simp [map_find, get_longest_prefix_node_loop]
  | cons e rest ih =>
    obtain ⟨f, c⟩ := e
    have h0 : radix_length q - m = 0 := by simp [radix_length, hm]
    have hfc := hc (f, c) (by simp)
    have ih2 := ih (fun e he => hc e (by simp [he]))
    simp only [get_longest_prefix_node_loop, h0, if_true, map_find]
    by_cases hf : f = []
    · have hl : c.m_is_leaf = true := hfc.mpr hf
      simp [hf, hl]
    · have hl : c.m_is_leaf = false := by
        cases h : c.m_is_leaf
        · rfl
        · exact absurd (hfc.mp h) hf
      simp [hf, hl]
      exact ih2

/-- No child starts with the next symbol of the key: the loop returns the node. -/
theorem glpn_loop_none (q pre : Key) (a : Char) (r : Key) (hq : q = pre ++ a :: r)
    (m : Int) (hm : m = (pre.length : Int)) (cs : List (Key × Node V))
    (hc : ∀ e ∈ cs, (e.2.m_is_leaf = true ↔ e.1 = []))
    (hno : ∀ e ∈ cs, e.1.head? ≠ some a) :
    get_longest_prefix_node_loop q cs m = .ok [] := by
  induction cs with
  | nil => simp [get_longest_prefix_node_loop]
  | cons e rest ih =>
    obtain ⟨f, c⟩ := e
    have h0 : ¬ (radix_length q - m = 0) := by
      simp [radix_length, hm, hq]; omega
    have hfc := hc (f, c) (by simp)
    have hfa := hno (f, c) (by simp)
    have ih2 := ih (fun e he => hc e (by simp [he])) (fun e he => hno e (by simp [he]))
    simp only [get_longest_prefix_node_loop, h0, if_false]
    have hcond : (!c.m_is_leaf && str_at q m == str_at f 0) = false := by
      cases f with
      | nil => simp [hfc.mpr rfl]
      | cons x f1 =>
        have hxa : ¬ (a = x) := by
          intro h; apply hfa; simp [h]
        simp [hq, hm, str_at_split, str_at_zero, hxa]
    simp [hcond, ih2]

/-- A child starts with the next symbol of the key: the loop descends into it when its
whole fragment matches, and returns it otherwise. -/
theorem glpn_loop_hit (q pre : Key) (a : Char) (r : Key) (hq : q = pre ++ a :: r)
    (m : Int) (hm : m = (pre.length : Int)) (cs : List (Key × Node V))
    (hc : ∀ e ∈ cs, (e.2.m_is_leaf = true ↔ e.1 = []))
    (hs : cs.Pairwise (fun x y => frag_lt x.1 y.1))
    (f : Key) (c : Node V) (hmem : (f, c) ∈ cs) (hf : f.head? = some a) :
    (f <+: a :: r → ∀ p, get_longest_prefix_node q c (m + radix_length f) = .ok p →
        get_longest_prefix_node_loop q cs m = .ok (f :: p)) ∧
    (¬ f <+: a :: r → get_longest_prefix_node_loop q cs m = .ok [f]) := by
  induction cs with
  | nil => simp at hmem
  | cons e rest ih =>
    obtain ⟨f0, c0⟩ := e
    have h0 : ¬ (radix_length q - m = 0) := by
      simp [radix_length, hm, hq]; omega
    rw [List.pairwise_cons] at hs
    simp only [get_longest_prefix_node_loop, h0, if_false]
    rcases List.mem_cons.mp hmem with heq | hin
    · cases heq
      obtain ⟨f1, rfl⟩ : ∃ f1, f = a :: f1 := by
        cases f with
        | nil => simp at hf
        | cons x f1 => simp at hf; exact ⟨f1, by rw [hf]⟩
      have hl : c.m_is_leaf = false := by
        cases h : c.m_is_leaf
        · rfl
        · have := (hc (a :: f1, c) (by simp)).mp h
          simp at this
      have hcond : (!c.m_is_leaf && str_at q m == str_at (a :: f1) 0) = true := by
        simp [hl, hq, hm, str_at_split, str_at_zero]
      have hsub : radix_substr q m (radix_length (a :: f1)) =
          .ok ((a :: r).take (a :: f1).length) := by
        rw [hq, hm]; exact radix_substr_split pre (a :: r) (a :: f1).length
      simp only [hcond, if_true, hsub]
      constructor
      · intro hp p hg
        have := (take_eq_iff_leading (a :: f1) (a :: r)).mpr hp
        rw [if_pos this, hg]
      · intro hp
        have : ¬ ((a :: r).take (a :: f1).length = a :: f1) := fun h =>
          hp ((take_eq_iff_leading (a :: f1) (a :: r)).mp h)
        rw [if_neg this]
    · have hlt : frag_lt f0 f := hs.1 _ hin
      have hcond : (!c0.m_is_leaf && str_at q m == str_at f0 0) = false := by
        cases f0 with
        | nil => simp [(hc ([], c0) (by simp)).mpr rfl]
        | cons x f01 =>
          cases f with
          | nil => simp at hf
          | cons y f1 =>
            simp at hf
            subst hf
            have hxy : x < y := by simpa [frag_lt] using hlt
            have hne : ¬ (y = x) := fun h => by simp [h] at hxy
            simp [hq, hm, str_at_split, str_at_zero, hne]
      simp only [hcond]
      exact ih (fun e he => hc e (by simp [he])) hs.2 hin

theorem Land.lift {n c : Node V} {f rest : Key} {p : Ptr}
    (hf : map_find n.m_children f = some c) (h : Land c rest p) :
    Land n (f ++ rest) (f :: p) := by
  rcases h with ⟨p0, par, lf, e1, e2, e3, e4, e5, e6⟩ |
    ⟨node, rest1, e1, e2, e3, e4, e5⟩ | ⟨p0, g, par, node, a, r, e1, e2, e3, e4, e5, e6, e7, e8⟩
  · left
    refine ⟨f :: p0, par, lf, by simp [e1], ?_, e3, by simp [e4], e5, e6⟩
    rw [getNode_cons_of_find _ hf]; exact e2
  · right; left
    refine ⟨node, rest1, ?_, e2, by simp [e3], e4, e5⟩
    rw [getNode_cons_of_find _ hf]; exact e1
  · right; right
    refine ⟨f :: p0, g, par, node, a, r, by simp [e1], ?_, e3, e4, e5, by simp [e6], e7, e8⟩
    rw [getNode_cons_of_find _ hf]; exact e2

/-- The descent from an inner node whose path is a leading part of the key returns,
and ends in one of the three ways of `Land`. -/
theorem descent_spec (rest : Key) (n : Node V) (pre q : Key) (m : Int)
    (hinv : InvNode n pre) (hl : n.m_is_leaf = false) (hq : q = pre ++ n.m_key ++ rest)
    (hm : m = ((pre ++ n.m_key).length : Int)) :
    ∃ p, get_longest_prefix_node q n m = .ok p ∧ Land n rest p := by
  generalize hk : rest.length = k
  induction k using Nat.strong_induction_on generalizing rest n pre q m with
  | _ k ih =>
  obtain ⟨-, hc, hi, hs⟩ := hinv.inner_inv hl
  have hc2 : ∀ e ∈ n.m_children, (e.2.m_is_leaf = true ↔ e.1 = []) := fun e he => (hc e he).2.1
  rw [glpn_eq_loop]
  cases rest with
  | nil =>
    have hm2 : m = (q.length : Int) := by rw [hm, hq]; simp
    obtain ⟨h1, h2⟩ := glpn_loop_done q m hm2 n.m_children hc2
    cases hfind : map_find n.m_children [] with
    | none =>
      refine ⟨[], h1 hfind, Or.inr (Or.inl ⟨n, [], by simp [getNode], hl, by simp, ?_, ?_⟩)⟩
      · intro _; exact hfind
      · intro a r h; simp at h
    | some c =>
      refine ⟨[[]], h2 c hfind, Or.inl ⟨[], n, c, by simp, by simp [getNode], hl, by simp,
        hfind, ?_⟩⟩
      exact (hc2 _ (map_find_mem hfind)).mpr rfl
  | cons a r =>
    have hq2 : q = (pre ++ n.m_key) ++ a :: r := by rw [hq]
    by_cases hex : ∃ e ∈ n.m_children, e.1.head? = some a
    · obtain ⟨⟨f, c⟩, hmem, hfa⟩ := hex
      have hfind : map_find n.m_children f = some c := map_find_of_mem hs hmem
      obtain ⟨h1, h2⟩ := glpn_loop_hit q (pre ++ n.m_key) a r hq2 m hm n.m_children hc2 hs
        f c hmem hfa
      have hfne : f ≠ [] := by
        intro h; simp [h] at hfa
      have hcl : c.m_is_leaf = false := by
        cases h : c.m_is_leaf
        · rfl
        · exact absurd ((hc2 _ hmem).mp h) hfne
      by_cases hp : f <+: a :: r
      · obtain ⟨rest1, hr⟩ := hp
        have hck : c.m_key = f := (hc _ hmem).1
        have hlen : rest1.length < (a :: r).length := by
          have := congrArg List.length hr
          simp at this
          have : 0 < f.length := List.length_pos.mpr hfne
          simp; omega
        obtain ⟨p1, hg, hland⟩ := ih rest1.length (by rw [← hk]; exact hlen) rest1 c
          (pre ++ n.m_key) q (m + radix_length f) (hi _ hmem) hcl
          (by rw [hq, hck, ← hr]; simp [List.append_assoc])
          (by rw [hm, hck]; simp [radix_length, add_assoc]) rfl
        refine ⟨f :: p1, h1 ⟨rest1, hr⟩ p1 hg, ?_⟩
        rw [← hr]
        exact Land.lift hfind hland
      · refine ⟨[f], h2 hp, Or.inr (Or.inr ⟨[], f, n, c, a, r, by simp, by simp [getNode], hl,
          hfind, hcl, by simp, hfa, hp⟩)⟩
    · have hno : ∀ e ∈ n.m_children, e.1.head? ≠ some a := by
        intro e he h; exact hex ⟨e, he, h⟩
      refine ⟨[], glpn_loop_none q (pre ++ n.m_key) a r hq2 m hm n.m_children hc2 hno,
        Or.inr (Or.inl ⟨n, a :: r, by simp [getNode], hl, by simp, by simp, ?_⟩)⟩
      intro a1 r1 h e he
      have : a = a1 := by simp at h; exact h.1
      rw [← this]; exact hno e he

/-! ### Replacing the node at a pointer -/

theorem sibling_not_leading {P e f s y : Key} (hcmp : frag_lt e f ∨ frag_lt f e)
    (hf : f ≠ []) (hy : (P ++ e) <+: y) (he : e = [] → y = P) :
    ¬ (P ++ f ++ s) <+: y := by
  intro h
  obtain ⟨t1, h1⟩ := hy
  obtain ⟨t2, h2⟩ := h
  cases e with
  | nil =>
    have := he rfl
    rw [this] at h2
    have hlen := congrArg List.length h2
    rw [List.length_append, List.length_append, List.length_append] at hlen
    have : 0 < f.length := List.length_pos.mpr hf
    omega
  | cons x e1 =>
    cases f with
    | nil => exact hf rfl
    | cons z f1 =>
      rw [← h1] at h2
      simp only [List.append_assoc, List.append_cancel_left_eq, List.cons_append] at h2
      have hzx : z = x := by
        have := List.head_eq_of_cons_eq h2
        exact this
      rcases hcmp with h | h <;> simp [frag_lt, hzx] at h

theorem map_find_replace {α : Type} {cs : List (Key × α)} {f : Key} {c : α} (x : α)
    (h : map_find cs f = some c) : map_find (map_replace cs f x) f = some x := by
  induction cs with
  | nil => simp [map_find] at h
  | cons e rest ih =>
    obtain ⟨k, y⟩ := e
    by_cases hk : k = f
    · simp [map_replace, map_find, hk]
    · simp only [map_find, hk, if_false] at h
      simp [map_replace, map_find, hk, ih h]

theorem setNode_cons {n c : Node V} {f : Key} (p : Ptr) (x : Node V)
    (h : map_find n.m_children f = some c) :
    setNode n (f :: p) x = n.set_children (map_replace n.m_children f (setNode c p x)) := by
  simp [setNode, h]

theorem Node.set_children_fields (n : Node V) (cs : List (Key × Node V)) :
    (n.set_children cs).m_key = n.m_key ∧ (n.set_children cs).m_is_leaf = n.m_is_leaf ∧
    (n.set_children cs).m_children = cs ∧ (n.set_children cs).m_depth = n.m_depth ∧
    (n.set_children cs).m_value = n.m_value := by
  cases n; simp

theorem getNode_setNode {p : Ptr} : ∀ {n node : Node V} (x : Node V) (q : Ptr),
    getNode n p = some node → getNode (setNode n p x) (p ++ q) = getNode x q := by
  induction p with
  | nil => intro n node x q _; simp [setNode]
  | cons f p ih =>
    intro n node x q hg
    simp only [getNode] at hg
    cases hf : map_find n.m_children f with
    | none => simp [hf] at hg
    | some c =>
      simp only [hf] at hg
      rw [setNode_cons p x hf]
      have h1 : map_find (n.set_children (map_replace n.m_children f (setNode c p x))).m_children f
          = some (setNode c p x) := by
        rw [(n.set_children_fields _).2.2.1]
        exact map_find_replace _ hf
      simp only [List.cons_append]
      rw [getNode_cons_of_find _ h1]
      exact ih x q hg

theorem setNode_fields {p : Ptr} : ∀ {n node x : Node V}, getNode n p = some node →
    x.m_key = node.m_key → x.m_is_leaf = node.m_is_leaf →
    (x.m_is_leaf = false → x.m_children ≠ []) →
    (setNode n p x).m_key = n.m_key ∧ (setNode n p x).m_is_leaf = n.m_is_leaf ∧
      ((setNode n p x).m_is_leaf = false → (setNode n p x).m_children ≠ []) := by
  cases p with
  | nil =>
    intro n node x hg h1 h2 h3
    simp [getNode] at hg
    subst hg
    simp only [setNode]
    exact ⟨h1, h2, h3⟩
  | cons f p =>
    intro n node x hg h1 h2 h3
    simp only [getNode] at hg
    cases hf : map_find n.m_children f with
    | none => simp [hf] at hg
    | some c =>
      rw [setNode_cons p x hf]
      obtain ⟨e1, e2, e3, -, -⟩ := n.set_children_fields (map_replace n.m_children f (setNode c p x))
      refine ⟨e1, e2, fun _ => ?_⟩
      rw [e3]
      obtain ⟨l1, l2, -, -, hr, -, -⟩ := map_find_split hf
      rw [hr]; simp

theorem InvNode.set_children_eq {n : Node V} {pre : Key} (h : InvNode n pre)
    (hl : n.m_is_leaf = false) (cs : List (Key × Node V)) :
    n.set_children cs = Node.mk n.m_key none cs (pre.length : Int) false := by
  cases h with
  | leaf pre v => simp at hl
  | inner pre k cs0 hc hi hs => rfl

theorem setNode_inv {p : Ptr} : ∀ {n node x : Node V} {pre : Key}, InvNode n pre →
    getNode n p = some node →
    (∀ pre1, InvNode node pre1 → pre1 ++ node.m_key = pre ++ n.m_key ++ p.flatten →
      InvNode x pre1) →
    x.m_key = node.m_key → x.m_is_leaf = node.m_is_leaf →
    (x.m_is_leaf = false → x.m_children ≠ []) →
    InvNode (setNode n p x) pre := by
  induction p with
  | nil =>
    intro n node x pre h hg hx _ _ _
    simp [getNode] at hg
    subst hg
    simpa [setNode] using hx pre h (by simp)
  | cons f p ih =>
    intro n node x pre h hg hx h1 h2 h3
    simp only [getNode] at hg
    cases hf : map_find n.m_children f with
    | none => simp [hf] at hg
    | some c =>
      simp only [hf] at hg
      rw [setNode_cons p x hf]
      have hl := h.not_leaf_of_find hf
      obtain ⟨hn, hc, hi, hs⟩ := h.inner_inv hl
      obtain ⟨hck, hcl, hcc, hci⟩ := h.child hf
      obtain ⟨l1, l2, hcs, -, hr, -, -⟩ := map_find_split hf
      obtain ⟨g1, g2, g3⟩ := setNode_fields (n := c) hg h1 h2 h3
      have hci2 : InvNode (setNode c p x) (pre ++ n.m_key) :=
        ih hci hg (fun pre1 hp1 he => hx pre1 hp1 (by rw [he, hck]; simp [List.append_assoc]))
          h1 h2 h3
      rw [h.set_children_eq hl, hr]
      rw [hcs] at hc hi hs
      refine InvNode.inner pre n.m_key _ ?_ ?_ ?_
      · intro e he
        rcases List.mem_append.mp he with he | he
        · exact hc e (by simp [he])
        · rcases List.mem_cons.mp he with rfl | he
          · exact ⟨by simp [g1, hck], by simp [g2, hcl], g3⟩
          · exact hc e (by simp [he])
      · intro e he
        rcases List.mem_append.mp he with he | he
        · exact hi e (by simp [he])
        · rcases List.mem_cons.mp he with rfl | he
          · exact hci2
          · exact hi e (by simp [he])
      · have hmap : (l1 ++ (f, setNode c p x) :: l2).map Prod.fst =
            (l1 ++ (f, c) :: l2).map Prod.fst := by simp
        have := (List.pairwise_map (f := Prod.fst) (R := frag_lt)).mpr hs
        rw [← hmap] at this
        exact (List.pairwise_map (f := Prod.fst) (R := frag_lt)).mp this

/-- The entries below the node at a pointer form a segment of the entries of the
tree; replacing the node replaces the segment; and outside an inner node no key
starts with the path of that node. -/
theorem leaves_context {p : Ptr} : ∀ {n node : Node V} {pre : Key}, InvNode n pre →
    getNode n p = some node →
    ∃ l1 l2, leaves n = l1 ++ leaves node ++ l2 ∧
      (∀ x : Node V, leaves (setNode n p x) = l1 ++ leaves x ++ l2) ∧
      (node.m_is_leaf = false → ∀ y ∈ l1 ++ l2, ¬ (pre ++ n.m_key ++ p.flatten) <+: y.1) := by
  induction p with
  | nil =>
    intro n node pre h hg
    simp [getNode] at hg
    subst hg
    exact ⟨[], [], by simp, by simp [setNode], by simp⟩
  | cons f p ih =>
    intro n node pre h hg
    simp only [getNode] at hg
    cases hf : map_find n.m_children f with
    | none => simp [hf] at hg
    | some c =>
      simp only [hf] at hg
      have hl := h.not_leaf_of_find hf
      obtain ⟨hn, hc, hi, hs⟩ := h.inner_inv hl
      obtain ⟨hck, hcl, hcc, hci⟩ := h.child hf
      obtain ⟨l1, l2, hcs, -, hr, -, -⟩ := map_find_split hf
      obtain ⟨m1, m2, e1, e2, e3⟩ := ih hci hg
      refine ⟨leaves_loop l1 ++ m1, m2 ++ leaves_loop l2, ?_, ?_, ?_⟩
      · rw [leaves_inner n hl, hcs, leaves_loop_append, leaves_loop_cons, e1]
        simp [List.append_assoc]
      · intro x
        rw [setNode_cons p x hf]
        have hl2 : (n.set_children (map_replace n.m_children f (setNode c p x))).m_is_leaf
            = false := by rw [(n.set_children_fields _).2.1]; exact hl
        rw [leaves_inner _ hl2, (n.set_children_fields _).2.2.1, hr, leaves_loop_append,
          leaves_loop_cons, e2 x]
        simp [List.append_assoc]
      · intro hnl y hy
        have hfne : f ≠ [] := by
          intro h0
          have hcleaf : c.m_is_leaf = true := hcl.mpr h0
          cases p with
          | nil =>
            simp [getNode] at hg
            rw [hg] at hcleaf
            rw [hcleaf] at hnl
            exact Bool.noConfusion hnl
          | cons g p1 =>
            simp only [getNode] at hg
            cases hg2 : map_find c.m_children g with
            | none => simp [hg2] at hg
            | some c2 =>
              have := hci.not_leaf_of_find hg2
              rw [hcleaf] at this
              exact Bool.noConfusion this
        have hout : ∀ e ∈ l1 ++ l2, ∀ y ∈ leaves e.2,
            ¬ (pre ++ n.m_key ++ (f :: p).flatten) <+: y.1 := by
          intro e he y hy
          have hmem : e ∈ n.m_children := by
            rw [hcs]
            rcases List.mem_append.mp he with he | he
            · simp [he]
            · simp [he]
          have hcmp : frag_lt e.1 f ∨ frag_lt f e.1 := by
            rw [hcs, List.pairwise_append, List.pairwise_cons] at hs
            rcases List.mem_append.mp he with he | he
            · exact Or.inl (hs.2.2 e he (f, c) (by simp))
            · exact Or.inr (hs.2.1.1 e he)
          have hb := (hi e hmem).leaves_below y hy
          rw [(hc e hmem).1] at hb
          have := sibling_not_leading (s := p.flatten) hcmp hfne hb.1
            (fun h0 => hb.2 ((hc e hmem).2.1.mpr h0))
          simpa [List.append_assoc] using this
        have hin : ∀ y ∈ m1 ++ m2, ¬ (pre ++ n.m_key ++ (f :: p).flatten) <+: y.1 := by
          intro y hy
          have := e3 hnl y hy
          rw [hck] at this
          simpa [List.append_assoc] using this
        simp only [List.mem_append] at hy
        rcases hy with (hy | hy) | (hy | hy)
        · obtain ⟨e, he, hye⟩ := mem_leaves_loop.mp hy
          exact hout e (by simp [he]) y hye
        · exact hin y (by simp [hy])
        · exact hin y (by simp [hy])
        · obtain ⟨e, he, hye⟩ := mem_leaves_loop.mp hy
          exact hout e (by simp [he]) y hye

/-! ### Stored keys along a path from the root -/

theorem same_head {cs : List (Key × Node V)} (hs : cs.Pairwise (fun a b => frag_lt a.1 b.1))
    {e1 e2 : Key × Node V} (h1 : e1 ∈ cs) (h2 : e2 ∈ cs) (hh : e1.1.head? = e2.1.head?)
    (hne : e1.1 ≠ []) : e1 = e2 := by
  induction cs with
  | nil => simp at h1
  | cons e rest ih =>
    rw [List.pairwise_cons] at hs
    have key : ∀ a b : Key × Node V, frag_lt a.1 b.1 → a.1.head? = b.1.head? →
        (a.1 ≠ [] ∨ b.1 ≠ []) → False := by
      intro a b hab hhd hn
      rcases ha : a.1 with _ | ⟨x, a1⟩ <;> rcases hb : b.1 with _ | ⟨y, b1⟩ <;>
        simp [ha, hb, frag_lt] at hab hhd hn
      exact absurd hhd (ne_of_lt hab)
    rcases List.mem_cons.mp h1 with g1 | g1
    · rcases List.mem_cons.mp h2 with g2 | g2
      · rw [g1, g2]
      · rw [g1] at hh hne
        exact (key _ _ (hs.1 _ g2) hh (Or.inl hne)).elim
    · rcases List.mem_cons.mp h2 with g2 | g2
      · rw [g2] at hh
        exact (key _ _ (hs.1 _ g1) hh.symm (Or.inr hne)).elim
      · exact ih hs.2 g1 g2

theorem mem_child {node : Node V} {pre : Key} (h : InvNode node pre)
    (hl : node.m_is_leaf = false) {y : Key × V} (hy : y ∈ leaves node) :
    ∃ e ∈ node.m_children, y ∈ leaves e.2 ∧ (pre ++ node.m_key ++ e.1) <+: y.1 ∧
      (e.1 = [] → y.1 = pre ++ node.m_key) := by
  obtain ⟨-, hc, hi, -⟩ := h.inner_inv hl
  rw [leaves_inner node hl] at hy
  obtain ⟨e, he, hye⟩ := mem_leaves_loop.mp hy
  have hb := (hi e he).leaves_below y hye
  rw [(hc e he).1] at hb
  exact ⟨e, he, hye, hb.1, fun h0 => hb.2 ((hc e he).2.1.mpr h0)⟩

theorem root_path {root node : Node V} (hr : RootInv root) {p : Ptr}
    (hg : getNode root p = some node) :
    ∃ pre1, InvNode node pre1 ∧ pre1 ++ node.m_key = p.flatten := by
  obtain ⟨pre1, h1, h2⟩ := getNode_inv hr.inv hg
  exact ⟨pre1, h1, by rw [h2, hr.key]; simp⟩

theorem mem_root_of_mem_node {root node : Node V} (hr : RootInv root) {p : Ptr}
    (hg : getNode root p = some node) {y : Key × V} (hy : y ∈ leaves node) :
    y ∈ leaves root := by
  obtain ⟨l1, l2, e1, -, -⟩ := leaves_context hr.inv hg
  rw [e1]; simp [hy]

/-- A stored key that starts with the path of an inner node is stored below one of the
children of that node. -/
theorem below_path {root node : Node V} (hr : RootInv root) {p : Ptr}
    (hg : getNode root p = some node) (hl : node.m_is_leaf = false) {y : Key × V}
    (hy : y ∈ leaves root) (hp : p.flatten <+: y.1) :
    ∃ e ∈ node.m_children, y ∈ leaves e.2 ∧ (p.flatten ++ e.1) <+: y.1 ∧
      (e.1 = [] → y.1 = p.flatten) := by
  obtain ⟨l1, l2, e1, -, e3⟩ := leaves_context hr.inv hg
  obtain ⟨pre1, h1, h2⟩ := root_path hr hg
  have hin : y ∈ leaves node := by
    rw [e1] at hy
    simp only [List.mem_append] at hy
    have hno := e3 hl y
    rw [hr.key] at hno
    simp only [List.nil_append, List.mem_append] at hno
    rcases hy with (hy | hy) | hy
    · exact absurd hp (hno (Or.inl hy))
    · exact hy
    · exact absurd hp (hno (Or.inr hy))
  obtain ⟨e, he, hye, hpre, hnil⟩ := mem_child h1 hl hin
  rw [h2] at hpre hnil
  exact ⟨e, he, hye, hpre, hnil⟩

theorem descent_root {root : Node V} (hr : RootInv root) (q : Key) :
    ∃ p, get_longest_prefix_node q root 0 = .ok p ∧ Land root q p :=
  descent_spec q root [] q 0 hr.inv hr.inner (by simp [hr.key]) (by simp [hr.key])

/-- The descent ended on a leaf: the key is stored with the value of that leaf. -/
theorem land_leaf {root par lf : Node V} (hr : RootInv root) {p0 : Ptr}
    (hg : getNode root p0 = some par) (hf : map_find par.m_children [] = some lf)
    (hl : lf.m_is_leaf = true) :
    ∃ v, lf = .mk [] (some (p0.flatten, v)) [] (p0.flatten.length : Int) true ∧
      getNode root (p0 ++ [[]]) = some lf ∧ (p0.flatten, v) ∈ leaves root := by
  have hg2 : getNode root (p0 ++ [[]]) = some lf := by
    rw [getNode_append, hg]; simp [getNode, hf]
  obtain ⟨pre1, h1, h2⟩ := root_path hr hg2
  obtain ⟨v, hv⟩ := h1.leaf_inv hl
  have hpre : pre1 = p0.flatten := by
    rw [hv] at h2; simpa using h2
  rw [hpre] at hv
  refine ⟨v, hv, hg2, ?_⟩
  apply mem_root_of_mem_node hr hg2
  rw [hv]; simp [leaves]

/-- The descent ended on an inner node whose path is consumed: no stored key continues
the key beyond that path through a child, so the key itself is not stored. -/
theorem land_inner_not_stored {root node : Node V} (hr : RootInv root) {p : Ptr} {q rest1 : Key}
    (hg : getNode root p = some node) (hl : node.m_is_leaf = false)
    (hq : q = p.flatten ++ rest1)
    (h1 : rest1 = [] → map_find node.m_children [] = none)
    (h2 : ∀ a r, rest1 = a :: r → ∀ e ∈ node.m_children, e.1.head? ≠ some a) :
    ∀ v, (q, v) ∉ leaves root := by
  intro v hv
  obtain ⟨e, he, -, hpre, hnil⟩ := below_path hr hg hl hv (by rw [hq]; simp)
  simp only [hq, List.prefix_append_right_inj] at hpre hnil
  cases rest1 with
  | nil =>
    have : e.1 = [] := List.prefix_nil.mp hpre
    exact (map_find_none.mp (h1 rfl)) e he this
  | cons a r =>
    cases hk : e.1 with
    | nil => simpa using hnil hk
    | cons x e1 =>
      rw [hk] at hpre
      have hxa : x = a := by
        obtain ⟨t, ht⟩ := hpre
        simp at ht; exact ht.1
      exact h2 a r rfl e he (by simp [hk, hxa])

/-- The descent ended on an inner node whose fragment diverges from the key: the key
is not stored. -/
theorem land_partial_not_stored {root par node : Node V} (hr : RootInv root) {p0 : Ptr}
    {q f r : Key} {a : Char}
    (hg : getNode root p0 = some par) (hl : par.m_is_leaf = false)
    (hf : map_find par.m_children f = some node)
    (hq : q = p0.flatten ++ a :: r) (hfa : f.head? = some a) (hnp : ¬ f <+: a :: r) :
    ∀ v, (q, v) ∉ leaves root := by
  intro v hv
  obtain ⟨hpar, -⟩ := root_path hr hg
  obtain ⟨pre1, hinv, -⟩ := root_path hr hg
  obtain ⟨-, -, -, hs⟩ := hinv.inner_inv hl
  obtain ⟨e, he, -, hpre, hnil⟩ := below_path hr hg hl hv (by rw [hq]; simp)
  simp only [hq, List.prefix_append_right_inj] at hpre hnil
  cases hk : e.1 with
  | nil => simpa using hnil hk
  | cons x e1 =>
    rw [hk] at hpre
    have hxa : x = a := by
      obtain ⟨t, ht⟩ := hpre
      simp at ht; exact ht.1
    have hsame : e = (f, node) := same_head hs he (map_find_mem hf)
      (by simp [hk, hxa, hfa]) (by simp [hk])
    rw [hsame] at hk
    simp only at hk
    rw [← hk] at hpre
    exact hnp hpre

/-- The specification of `find`: it returns, and the result is the end iterator
exactly when the key is not stored, and otherwise an iterator to the entry of the key. -/
theorem find_spec (t : Tree V) (hinv : InvTree t) (q : Key) :
    ∃ it, find t q = .ok it ∧
      ((it = none ∧ ∀ v, (q, v) ∉ stored t) ∨
       (∃ p v, it = some p ∧ entry t it = some (q, v) ∧ (q, v) ∈ stored t)) := by
  cases hroot : t.m_root with
  | none => exact ⟨none, by simp [find, hroot], Or.inl ⟨rfl, by simp [stored, hroot]⟩⟩
  | some root =>
    have hr := hinv root hroot
    obtain ⟨p, hp, hland⟩ := descent_root hr q
    simp only [find, hroot, hp, stored]
    rcases hland with ⟨p0, par, lf, e1, e2, e3, e4, e5, e6⟩ |
      ⟨node, rest1, e1, e2, e3, e4, e5⟩ | ⟨p0, f, par, node, a, r, e1, e2, e3, e4, e5, e6, e7, e8⟩
    · obtain ⟨v, hv, hg, hmem⟩ := land_leaf hr e2 e5 e6
      rw [e4] at hv hmem
      rw [e1, hg]
      refine ⟨some (p0 ++ [[]]), by simp [e6], Or.inr ⟨_, v, rfl, ?_, hmem⟩⟩
      simp [entry, hroot, hg, hv]
    · rw [e1]
      exact ⟨none, by simp [e2], Or.inl ⟨rfl, land_inner_not_stored hr e1 e2 e3 e4 e5⟩⟩
    · have hg : getNode root p = some node := by
        rw [e1, getNode_append, e2]; simp [getNode, e4]
      rw [hg]
      exact ⟨none, by simp [e5], Or.inl ⟨rfl, land_partial_not_stored hr e2 e3 e4 e6 e7 e8⟩⟩

/-! ### The common leading run of two keys -/

@[simp]
theorem lcp_nil_left (g : Key) : lcp [] g = 0 := by simp [lcp]

@[simp]
theorem lcp_nil_right (f : Key) : lcp f [] = 0 := by cases f <;> simp [lcp]

theorem lcp_cons (a b : Char) (f g : Key) :
    lcp (a :: f) (b :: g) = if a = b then lcp f g + 1 else 0 := by simp [lcp]

theorem lcp_le_left : ∀ (f g : Key), lcp f g ≤ f.length
  | [], g => by simp
  | _ :: _, [] => by simp
  | a :: f, b :: g => by
    rw [lcp_cons]; split
    · have := lcp_le_left f g; simp; omega
    · simp

theorem lcp_le_right : ∀ (f g : Key), lcp f g ≤ g.length
  | [], g => by simp
  | _ :: _, [] => by simp
  | a :: f, b :: g => by
    rw [lcp_cons]; split
    · have := lcp_le_right f g; simp; omega
    · simp

theorem lcp_comm : ∀ (f g : Key), lcp f g = lcp g f
  | [], g => by simp
  | _ :: _, [] => by simp
  | a :: f, b :: g => by
    rw [lcp_cons, lcp_cons, lcp_comm f g]
    by_cases h : a = b
    · simp [h]
    · have : ¬ b = a := fun e => h e.symm
      simp [h, this]

theorem lcp_eq_length_iff : ∀ (f g : Key), lcp f g = f.length ↔ f <+: g
  | [], g => by simp
  | a :: f, [] => by simp
  | a :: f, b :: g => by
    rw [lcp_cons]
    by_cases h : a = b
    · subst h
      simp only [if_true, List.length_cons, Nat.add_right_cancel_iff]
      rw [lcp_eq_length_iff f g, List.prefix_cons_inj]
    · simp only [h, if_false, List.length_cons]
      constructor
      · intro h0; omega
      · intro hp
        obtain ⟨t, ht⟩ := hp
        simp at ht
        exact absurd ht.1 h

theorem lcp_take : ∀ (f g : Key), f.take (lcp f g) = g.take (lcp f g)
  | [], g => by simp
  | _ :: _, [] => by simp
  | a :: f, b :: g => by
    rw [lcp_cons]
    by_cases h : a = b
    · subst h; simp [lcp_take f g]
    · simp [h]

theorem lcp_drop_head : ∀ (f g : Key) (x y : Char), (f.drop (lcp f g)).head? = some x →
    (g.drop (lcp f g)).head? = some y → x ≠ y
  | [], g, x, y => by simp
  | _ :: _, [], x, y => by simp
  | a :: f, b :: g, x, y => by
    rw [lcp_cons]
    by_cases h : a = b
    · subst h; simpa using lcp_drop_head f g x y
    · simp only [h, if_false, List.drop_zero, List.head?_cons, Option.some.injEq]
      intro h1 h2; rw [← h1, ← h2]; exact h

theorem lcp_append_left (P f g : Key) : lcp (P ++ f) (P ++ g) = P.length + lcp f g := by
  induction P with
  | nil => simp
  | cons x P ih => simp [lcp_cons, ih]; omega

theorem lcp_pos_of_head {f g : Key} {a : Char} (hf : f.head? = some a)
    (hg : g.head? = some a) : 0 < lcp f g := by
  cases f with
  | nil => simp at hf
  | cons x f1 =>
    cases g with
    | nil => simp at hg
    | cons y g1 =>
      simp at hf hg
      simp [lcp_cons, hf, hg]

theorem str_at_lt (key : Key) (i : Nat) (h : i < key.length) :
    str_at key (i : Int) = key[i] := by
  simp [str_at, List.getD_eq_getElem?_getD, h]

theorem str_at_add (P rest : Key) (i : Nat) (h : i < rest.length) :
    str_at (P ++ rest) ((P.length : Int) + (i : Int)) = rest[i] := by
  have : ((P.length : Int) + (i : Int)) = ((P.length + i : Nat) : Int) := by push_cast; rfl
  rw [this, str_at_lt _ _ (by simp; omega)]
  rw [List.getElem_append_right (by omega)]
  simp

/-- The counting loop of `add_root` computes the common leading run. -/
theorem add_root_count_eq (P f rest : Key) (depth len1 len2 : Int)
    (hd : depth = (P.length : Int)) (h1 : len1 = (f.length : Int))
    (h2 : len2 = (rest.length : Int)) :
    ∀ (fuel i : Nat), i ≤ f.length → f.length ≤ fuel + i →
      add_root_count f (P ++ rest) depth len1 len2 fuel (i : Int)
        = ((i + lcp (f.drop i) (rest.drop i) : Nat) : Int) := by
  intro fuel
  induction fuel with
  | zero =>
    intro i hi hfu
    have : f.drop i = [] := List.drop_eq_nil_of_le (by omega)
    simp [add_root_count, this]
  | succ fuel ih =>
    intro i hi hfu
    simp only [add_root_count]
    by_cases hc : (i : Int) < len1 ∧ (i : Int) < len2
    · have hif : i < f.length := by omega
      have hir : i < rest.length := by omega
      rw [if_pos hc]
      have e1 : f.drop i = f[i] :: f.drop (i + 1) := List.drop_eq_getElem_cons hif
      have e2 : rest.drop i = rest[i] :: rest.drop (i + 1) :=
        List.drop_eq_getElem_cons hir
      rw [e1, e2, lcp_cons, str_at_lt f i hif, hd, str_at_add P rest i hir]
      by_cases hne : f[i] = rest[i]
      · have := ih (i + 1) (by omega) (by omega)
        simp only [hne, ne_eq, not_true_eq_false, if_false, if_true]
        have hcast : ((i : Int) + 1) = ((i + 1 : Nat) : Int) := by push_cast; rfl
        rw [hcast, ← hd, this]
        push_cast; ring
      · simp [hne]
    · rw [if_neg hc]
      have : f.drop i = [] ∨ rest.drop i = [] := by
        by_cases h : i < f.length
        · right; exact List.drop_eq_nil_of_le (by omega)
        · left; exact List.drop_eq_nil_of_le (by omega)
      rcases this with h | h <;> simp [h]

/-! ### Adding nodes -/

/-- A new entry, comparable with every present fragment, is added to a children map:
the invariant of the parent is kept and the stored entries grow by those of the new
child. -/
theorem inner_insert (pre k : Key) (cs : List (Key × Node V))
    (hc : ∀ e ∈ cs, e.2.m_key = e.1 ∧ (e.2.m_is_leaf = true ↔ e.1 = []) ∧
              (e.2.m_is_leaf = false → e.2.m_children ≠ []))
    (hi : ∀ e ∈ cs, InvNode e.2 (pre ++ k))
    (hs : cs.Pairwise (fun a b => frag_lt a.1 b.1))
    (g : Key) (x : Node V) (hk : ∀ e ∈ cs, frag_lt e.1 g ∨ frag_lt g e.1)
    (hx1 : x.m_key = g) (hx2 : x.m_is_leaf = true ↔ g = [])
    (hx3 : x.m_is_leaf = false → x.m_children ≠ []) (hx4 : InvNode x (pre ++ k)) :
    InvNode (.mk k none (map_set cs g x) (pre.length : Int) false) pre ∧
    (∀ y, y ∈ leaves_loop (map_set cs g x) ↔ y ∈ leaves x ∨ y ∈ leaves_loop cs) ∧
    map_find (map_set cs g x) g = some x ∧ map_set cs g x ≠ [] := by
  obtain ⟨l1, l2, e1, e2, e3, e4⟩ := map_set_split x hs hk
  have hs2 : (l1 ++ (g, x) :: l2).Pairwise (fun a b => frag_lt a.1 b.1) := by
    rw [e1, List.pairwise_append] at hs
    rw [List.pairwise_append, List.pairwise_cons]
    refine ⟨hs.1, ⟨e4, hs.2.1⟩, ?_⟩
    intro a ha b hb
    rcases List.mem_cons.mp hb with rfl | hb
    · exact e3 a ha
    · exact hs.2.2 a ha b hb
  rw [e2]
  refine ⟨InvNode.inner pre k _ ?_ ?_ hs2, ?_, map_find_of_mem hs2 (by simp), by simp⟩
  · intro e he
    rcases List.mem_append.mp he with he | he
    · exact hc e (by rw [e1]; simp [he])
    · rcases List.mem_cons.mp he with rfl | he
      · exact ⟨hx1, hx2, hx3⟩
      · exact hc e (by rw [e1]; simp [he])
  · intro e he
    rcases List.mem_append.mp he with he | he
    · exact hi e (by rw [e1]; simp [he])
    · rcases List.mem_cons.mp he with rfl | he
      · exact hx4
      · exact hi e (by rw [e1]; simp [he])
  · intro y
    rw [e1, leaves_loop_append, leaves_loop_append, leaves_loop_cons]
    simp only [List.mem_append]
    tauto

theorem add_leaf_spec {par : Node V} {pre : Key} (h : InvNode par pre)
    (hl : par.m_is_leaf = false) (q : Key) (v : V) (hq : q = pre ++ par.m_key)
    (hno : map_find par.m_children [] = none) :
    ∃ par1, add_leaf par (q, v) = .ok (par1, [[]]) ∧ InvNode par1 pre ∧
      par1.m_key = par.m_key ∧ par1.m_is_leaf = false ∧ par1.m_children ≠ [] ∧
      (∀ y, y ∈ leaves par1 ↔ y = (q, v) ∨ y ∈ leaves par) ∧
      (∃ lf, getNode par1 [[]] = some lf ∧ lf.m_value = some (q, v)) := by
  obtain ⟨hn, hc, hi, hs⟩ := h.inner_inv hl
  have hassert : ¬ (radix_length q ≠ par.m_depth + radix_length par.m_key) := by
    rw [h.depth_eq, hq]; simp [radix_length]
  have hk : ∀ e ∈ par.m_children, frag_lt e.1 [] ∨ frag_lt [] e.1 := by
    intro e he
    right
    have := map_find_none.mp hno e he
    cases hk : e.1 with
    | nil => exact absurd hk this
    | cons x e1 => simp [frag_lt]
  have hleaf : InvNode (Node.mk [] (some (q, v)) [] (radix_length q) true : Node V)
      (pre ++ par.m_key) := by
    rw [← hq]; exact InvNode.leaf q v
  obtain ⟨g1, g2, g3, g4⟩ := inner_insert pre par.m_key par.m_children hc hi hs []
    (Node.mk [] (some (q, v)) [] (radix_length q) true) hk rfl (by simp) (by simp) hleaf
  refine ⟨par.set_children (map_set par.m_children []
    (Node.mk [] (some (q, v)) [] (radix_length q) true)), ?_, ?_⟩
  · simp only [add_leaf, hassert, if_false, radix_substr_nul]
  · rw [h.set_children_eq hl]
    refine ⟨g1, rfl, rfl, g4, ?_, ?_⟩
    · intro y
      rw [leaves_mk_inner, leaves_inner par hl, g2 y]
      simp [leaves]
    · exact ⟨Node.mk [] (some (q, v)) [] (radix_length q) true, by simp [getNode, g3], rfl⟩

theorem add_child_spec {node : Node V} {pre : Key} (h : InvNode node pre)
    (hl : node.m_is_leaf = false) (q rest1 : Key) (v : V)
    (hq : q = pre ++ node.m_key ++ rest1)
    (h1 : rest1 = [] → map_find node.m_children [] = none)
    (h2 : ∀ a r, rest1 = a :: r → ∀ e ∈ node.m_children, e.1.head? ≠ some a) :
    ∃ node1 rel, add_child node (q, v) = .ok (node1, rel) ∧ InvNode node1 pre ∧
      node1.m_key = node.m_key ∧ node1.m_is_leaf = false ∧ node1.m_children ≠ [] ∧
      (∀ y, y ∈ leaves node1 ↔ y = (q, v) ∨ y ∈ leaves node) ∧
      (∃ lf, getNode node1 rel = some lf ∧ lf.m_value = some (q, v)) := by
  obtain ⟨hn, hc, hi, hs⟩ := h.inner_inv hl
  have hsub : radix_substr q node.m_depth (radix_length node.m_key) = .ok node.m_key := by
    rw [h.depth_eq, hq, List.append_assoc]
    simp only [radix_length]
    rw [radix_substr_split]; simp
  have hdepth : node.m_depth + radix_length node.m_key = ((pre ++ node.m_key).length : Int) := by
    rw [h.depth_eq]; simp [radix_length]
  simp only [add_child, hsub, ne_eq, not_true_eq_false, if_false]
  cases rest1 with
  | nil =>
    have hdiff : radix_length q - (node.m_depth + radix_length node.m_key) = 0 := by
      rw [hdepth, hq]; simp [radix_length]
    simp only [hdiff, not_true_eq_false, if_false]
    obtain ⟨par1, g1, g2⟩ := add_leaf_spec h hl q v (by simpa using hq) (h1 rfl)
    exact ⟨par1, [[]], g1, g2⟩
  | cons a r =>
    have hdiff : radix_length q - (node.m_depth + radix_length node.m_key)
        = ((a :: r).length : Int) := by
      rw [hdepth, hq]; simp only [radix_length, List.length_append, List.length_cons]
      push_cast; omega
    have hdiff0 : ¬ (radix_length q - (node.m_depth + radix_length node.m_key) = 0) := by
      rw [hdiff]; simp; omega
    have hsub2 : radix_substr q (node.m_depth + radix_length node.m_key)
        (radix_length q - (node.m_depth + radix_length node.m_key)) = .ok (a :: r) := by
      rw [hdiff, hdepth, hq, radix_substr_split]; simp
    simp only [hdiff0, not_false_eq_true, if_true, hsub2]
    rw [hdepth]
    have hmid : InvNode (Node.mk (a :: r) none [] ((pre ++ node.m_key).length : Int) false : Node V)
        (pre ++ node.m_key) :=
      InvNode.inner (pre ++ node.m_key) (a :: r) [] (by simp) (by simp) (by simp)
    obtain ⟨mid1, g1, g2, g3, g4, g5, g6, lf, g7, g8⟩ := add_leaf_spec hmid rfl q v
      (by rw [hq]; simp) (by simp [map_find])
    simp only [g1]
    have hk : ∀ e ∈ node.m_children, frag_lt e.1 (a :: r) ∨ frag_lt (a :: r) e.1 := by
      intro e he
      have := h2 a r rfl e he
      cases hk : e.1 with
      | nil => left; simp [frag_lt]
      | cons x e1 =>
        have hxa : x ≠ a := by
          intro h0; apply this; simp [hk, h0]
        simp only [frag_lt]
        rcases lt_trichotomy x a with h0 | h0 | h0
        · exact Or.inl h0
        · exact absurd h0 hxa
        · exact Or.inr h0
    obtain ⟨k1, k2, k3, k4⟩ := inner_insert pre node.m_key node.m_children hc hi hs (a :: r)
      mid1 hk g3 (by simp [g4]) (fun _ => g5) g2
    refine ⟨node.set_children (map_set node.m_children (a :: r) mid1), (a :: r) :: [[]],
      rfl, ?_⟩
    rw [h.set_children_eq hl]
    refine ⟨k1, rfl, rfl, k4, ?_, ?_⟩
    · intro y
      rw [leaves_mk_inner, leaves_inner node hl, k2 y, g6 y]
      simp [leaves]
    · have hfind : map_find (Node.mk node.m_key none (map_set node.m_children (a :: r) mid1)
          (pre.length : Int) false).m_children (a :: r) = some mid1 := k3
      exact ⟨lf, by rw [getNode_cons_of_find _ hfind]; exact g7, g8⟩

theorem frag_lt_same_head {f g : Key} (hh : f.head? = g.head?) (hf : f ≠ []) (e : Key) :
    (frag_lt e f → frag_lt e g) ∧ (frag_lt f e → frag_lt g e) := by
  cases f with
  | nil => exact absurd rfl hf
  | cons x f1 =>
    cases g with
    | nil => simp at hh
    | cons y g1 =>
      simp at hh
      subst hh
      cases e <;> simp [frag_lt]

/-- The edge split of `add_root`: the child `node` of `par`, whose fragment `f` starts
like the remainder `a :: r` of the key without being a leading part of it, is replaced
by a node for the common run that holds the shortened `node` and the new key. -/
theorem add_root_spec {par node : Node V} {pre f : Key} (h : InvNode par pre)
    (hl : par.m_is_leaf = false) (hf : map_find par.m_children f = some node)
    (hnl : node.m_is_leaf = false) (q : Key) (a : Char) (r : Key) (v : V)
    (hq : q = pre ++ par.m_key ++ a :: r) (hfa : f.head? = some a)
    (hnp : ¬ f <+: a :: r) :
    ∃ par1 rel, add_root par node (q, v) = .ok (par1, rel) ∧ InvNode par1 pre ∧
      par1.m_key = par.m_key ∧ par1.m_is_leaf = false ∧ par1.m_children ≠ [] ∧
      (∀ y, y ∈ leaves par1 ↔ y = (q, v) ∨ y ∈ leaves par) ∧
      (∃ lf, getNode par1 rel = some lf ∧ lf.m_value = some (q, v)) := by
  obtain ⟨-, hc, hi, hs⟩ := h.inner_inv hl
  obtain ⟨hk, -, hcne, hinode⟩ := h.child hf
  obtain ⟨hnode, hc1, hi1, hs1⟩ := hinode.inner_inv hnl
  obtain ⟨l1, l2, hcs, -, -, herase, -⟩ := map_find_split hf
  have hfne : f ≠ [] := by intro h0; simp [h0] at hfa
  -- the common run
  have hcpos : 0 < lcp f (a :: r) := lcp_pos_of_head hfa (by simp)
  have hclt : lcp f (a :: r) < f.length := by
    have h1 := lcp_le_left f (a :: r)
    have h2 : lcp f (a :: r) ≠ f.length := fun h0 => hnp ((lcp_eq_length_iff _ _).mp h0)
    omega
  have hdepth : node.m_depth = ((pre ++ par.m_key).length : Int) := hinode.depth_eq
  have hcount : add_root_count node.m_key q node.m_depth (radix_length node.m_key)
      (radix_length q - node.m_depth) (radix_length node.m_key).toNat 0
      = (lcp f (a :: r) : Int) := by
    have := add_root_count_eq (pre ++ par.m_key) f (a :: r) node.m_depth
      (radix_length node.m_key) (radix_length q - node.m_depth) hdepth
      (by rw [hk]; rfl)
      (by rw [hdepth, hq]; simp only [radix_length, List.length_append, List.length_cons]
          push_cast; omega)
      f.length 0 (by omega) (by omega)
    rw [hk] at this ⊢
    simp only [radix_length, Int.toNat_ofNat]
    simp only [radix_length] at this
    rw [← hq] at this
    simpa using this
  have hsub1 : radix_substr node.m_key 0 (lcp f (a :: r) : Int)
      = .ok (f.take (lcp f (a :: r))) := by
    rw [hk]
    have := radix_substr_ok f 0 (lcp f (a :: r)) (by omega)
    simpa using this
  have hsub2 : radix_substr node.m_key (lcp f (a :: r) : Int)
      (radix_length node.m_key - (lcp f (a :: r) : Int)) = .ok (f.drop (lcp f (a :: r))) := by
    rw [hk]
    have hnum : radix_length f - (lcp f (a :: r) : Int)
        = ((f.length - lcp f (a :: r) : Nat) : Int) := by
      simp only [radix_length]; omega
    rw [hnum, radix_substr_ok f _ _ (by omega)]
    congr 1
    apply List.take_of_length_le
    simp
  -- the shortened node and the node of the common run
  have hd1 : node.m_depth + (lcp f (a :: r) : Int)
      = (((pre ++ par.m_key) ++ f.take (lcp f (a :: r))).length : Int) := by
    rw [hdepth]
    simp only [List.length_append, List.length_take]
    push_cast
    rw [min_eq_left (by exact_mod_cast le_of_lt hclt)]
  have hdropne : f.drop (lcp f (a :: r)) ≠ [] := by
    intro h0
    have := congrArg List.length h0
    simp at this
    omega
  have hv : node.m_value = none := by
    cases hinode with
    | leaf pre v => simp at hnl
    | inner pre k cs hc hi hs => rfl
  have hnode1 : InvNode (Node.mk (f.drop (lcp f (a :: r))) node.m_value node.m_children
      (node.m_depth + (lcp f (a :: r) : Int)) node.m_is_leaf)
      ((pre ++ par.m_key) ++ f.take (lcp f (a :: r))) := by
    rw [hv, hnl, hd1]
    refine InvNode.inner _ _ _ hc1 ?_ hs1
    intro e he
    have := hi1 e he
    rw [hk] at this
    simpa [List.append_assoc, List.take_append_drop] using this
  have hp : ∀ N : Node V, InvNode N ((pre ++ par.m_key) ++ f.take (lcp f (a :: r))) →
      N.m_key = f.drop (lcp f (a :: r)) → N.m_is_leaf = false → N.m_children ≠ [] →
      InvNode (Node.mk (f.take (lcp f (a :: r))) none
        (map_set [] (f.drop (lcp f (a :: r))) N) node.m_depth false) (pre ++ par.m_key) := by
    intro N hN1 hN2 hN3 hN4
    rw [hdepth]
    refine InvNode.inner _ _ _ ?_ ?_ (by simp [map_set])
    · intro e he
      simp only [map_set, List.mem_singleton] at he
      subst he
      exact ⟨hN2, by simp [hN3, hdropne], fun _ => hN4⟩
    · intro e he
      simp only [map_set, List.mem_singleton] at he
      subst he
      exact hN1
  have hq2 : q = (pre ++ par.m_key)
      ++ (Node.mk (f.take (lcp f (a :: r))) none
      (map_set [] (f.drop (lcp f (a :: r)))
        (Node.mk (f.drop (lcp f (a :: r))) node.m_value node.m_children
          (node.m_depth + (lcp f (a :: r) : Int)) node.m_is_leaf))
      node.m_depth false).m_key ++ (a :: r).drop (lcp f (a :: r)) := by
    rw [hq, Node.m_key_mk, lcp_take f (a :: r)]
    rw [List.append_assoc (pre ++ par.m_key), List.take_append_drop]
  obtain ⟨p1, rel1, g1, g2, g3, g4, g5, g6, lf, g7, g8⟩ := add_child_spec
    (hp _ hnode1 rfl hnl (hcne hnl)) rfl q
    ((a :: r).drop (lcp f (a :: r))) v hq2
    (by
      intro _
      simp only [Node.m_children_mk, map_set]
      rw [map_find_none]
      intro e he
      simp only [List.mem_singleton] at he
      subst he
      exact hdropne)
    (by
      intro a1 r1 hr e he
      simp only [Node.m_children_mk, map_set, List.mem_singleton] at he
      subst he
      intro hhead
      exact lcp_drop_head f (a :: r) a1 a1 hhead (by rw [hr]; rfl) rfl)
  -- the parent
  have hc2 : ∀ e ∈ l1 ++ l2, e.2.m_key = e.1 ∧ (e.2.m_is_leaf = true ↔ e.1 = []) ∧
      (e.2.m_is_leaf = false → e.2.m_children ≠ []) := by
    intro e he
    apply hc e
    rw [hcs]
    rcases List.mem_append.mp he with he | he <;> simp [he]
  have hi2 : ∀ e ∈ l1 ++ l2, InvNode e.2 (pre ++ par.m_key) := by
    intro e he
    apply hi e
    rw [hcs]
    rcases List.mem_append.mp he with he | he <;> simp [he]
  have hs2 : (l1 ++ l2).Pairwise (fun a b => frag_lt a.1 b.1) := by
    rw [hcs, List.pairwise_append, List.pairwise_cons] at hs
    rw [List.pairwise_append]
    exact ⟨hs.1, hs.2.1.2, fun x hx y hy => hs.2.2 x hx y (by simp [hy])⟩
  have htakehead : f.head? = (f.take (lcp f (a :: r))).head? := by
    cases f with
    | nil => exact absurd rfl hfne
    | cons x f1 =>
      obtain ⟨c, hc0⟩ : ∃ c, lcp (x :: f1) (a :: r) = c + 1 := ⟨lcp (x :: f1) (a :: r) - 1, by omega⟩
      rw [hc0]; simp
  have hcmp : ∀ e ∈ l1 ++ l2, frag_lt e.1 (f.take (lcp f (a :: r))) ∨
      frag_lt (f.take (lcp f (a :: r))) e.1 := by
    intro e he
    rw [hcs, List.pairwise_append, List.pairwise_cons] at hs
    rcases List.mem_append.mp he with he | he
    · exact Or.inl ((frag_lt_same_head htakehead hfne e.1).1 (hs.2.2 e he (f, node) (by simp)))
    · exact Or.inr ((frag_lt_same_head htakehead hfne e.1).2 (hs.2.1.1 e he))
  have htakene : f.take (lcp f (a :: r)) ≠ [] := by
    intro h0
    have := congrArg List.length h0
    rw [List.length_take, List.length_nil] at this
    omega
  obtain ⟨k1, k2, k3, k4⟩ := inner_insert pre par.m_key (l1 ++ l2) hc2 hi2 hs2
    (f.take (lcp f (a :: r))) p1 hcmp g3 (by simp [g4, htakene]) (fun _ => g5) g2
  refine ⟨par.set_children (map_set (map_erase par.m_children node.m_key)
      (f.take (lcp f (a :: r))) p1), f.take (lcp f (a :: r)) :: rel1, ?_, ?_⟩
  · rw [hnl] at g1
    simp only [add_root, hnl, hcount, hsub1, hsub2, g1]
    have e1 : (lcp f (a :: r) : Int) > 0 := by exact_mod_cast hcpos
    have e2 : radix_length node.m_key - (lcp f (a :: r) : Int) > 0 := by
      rw [hk]; simp only [radix_length]; omega
    simp [e1, e2]
  · rw [hk, herase, h.set_children_eq hl]
    refine ⟨k1, rfl, rfl, k4, ?_, ?_⟩
    · intro y
      rw [leaves_mk_inner, leaves_inner par hl, k2 y, g6 y, hcs, leaves_loop_append,
        leaves_loop_append, leaves_loop_cons]
      simp only [map_set, leaves_mk_inner, leaves_loop_cons, leaves_loop_nil, List.append_nil,
        List.mem_append]
      have : leaves (Node.mk (f.drop (lcp f (a :: r))) node.m_value node.m_children
          (node.m_depth + (lcp f (a :: r) : Int)) node.m_is_leaf) = leaves node := by
        rw [hnl, leaves_mk_inner, leaves_inner node hnl]
      rw [this]
      tauto
    · have hfind : map_find (Node.mk par.m_key none (map_set (l1 ++ l2)
          (f.take (lcp f (a :: r))) p1) (pre.length : Int) false).m_children
          (f.take (lcp f (a :: r))) = some p1 := k3
      exact ⟨lf, by rw [getNode_cons_of_find _ hfind]; exact g7, g8⟩

/-! ### Insertion into a tree -/

theorem pairwise_mem_cases {α : Type} {R : α → α → Prop} {l : List α} (h : l.Pairwise R)
    {x y : α} (hx : x ∈ l) (hy : y ∈ l) : x = y ∨ R x y ∨ R y x := by
  induction l with
  | nil => simp at hx
  | cons e rest ih =>
    rw [List.pairwise_cons] at h
    rcases List.mem_cons.mp hx with g1 | g1
    · rcases List.mem_cons.mp hy with g2 | g2
      · left; rw [g1, g2]
      · right; left; rw [g1]; exact h.1 y g2
    · rcases List.mem_cons.mp hy with g2 | g2
      · right; right; rw [g2]; exact h.1 x g1
      · exact ih h.2 g1 g2

theorem leaves_unique {n : Node V} {pre : Key} (h : InvNode n pre) {q : Key} {v1 v2 : V}
    (h1 : (q, v1) ∈ leaves n) (h2 : (q, v2) ∈ leaves n) : v1 = v2 := by
  rcases pairwise_mem_cases h.leaves_sorted h1 h2 with e | e | e
  · exact (Prod.mk.inj e).2
  · simp [key_lt_irrefl] at e
  · simp [key_lt_irrefl] at e

theorem rootInv_fresh : RootInv (Node.mk [] none [] 0 false : Node V) :=
  ⟨InvNode.inner [] [] [] (by simp) (by simp) (by simp), rfl, rfl⟩

theorem RootInv.setNode {root node x : Node V} (hr : RootInv root) {p : Ptr}
    (hg : getNode root p = some node)
    (hx : ∀ pre1, InvNode node pre1 → pre1 ++ node.m_key = p.flatten → InvNode x pre1)
    (h1 : x.m_key = node.m_key) (h2 : x.m_is_leaf = node.m_is_leaf)
    (h3 : x.m_is_leaf = false → x.m_children ≠ []) : RootInv (setNode root p x) := by
  obtain ⟨g1, g2, -⟩ := setNode_fields hg h1 h2 h3
  refine ⟨setNode_inv hr.inv hg ?_ h1 h2 h3, by rw [g1, hr.key], by rw [g2, hr.inner]⟩
  intro pre1 hp1 he
  exact hx pre1 hp1 (by rw [he, hr.key]; simp)

/-- The effect of `insert` with a key that is not stored, on a tree whose root (the
present one, or the one created by `insert`) is `root`. -/
theorem insert_core (s : Nat) (mroot : Option (Node V)) (root : Node V)
    (hroot : (match mroot with
      | some r => r
      | none => Node.mk [] none [] 0 false) = root)
    (hr : RootInv root) (q : Key) (v : V) (hns : ∀ v1, (q, v1) ∉ leaves root) :
    ∃ root1 p, insert ⟨s, mroot⟩ (q, v) = .ok (⟨s + 1, some root1⟩, some p, true) ∧
      RootInv root1 ∧ (∃ lf, getNode root1 p = some lf ∧ lf.m_value = some (q, v)) ∧
      (∀ y, y ∈ leaves root1 ↔ y = (q, v) ∨ y ∈ leaves root) := by
  obtain ⟨p, hp, hland⟩ := descent_root hr q
  have hunfold : insert ⟨s, mroot⟩ (q, v) =
      match getNode root p with
      | none => .error .null_deref
      | some node =>
        if node.m_is_leaf then .ok (⟨s, some root⟩, some p, false)
        else
          match radix_substr q node.m_depth (radix_length node.m_key) with
          | .error e => .error e
          | .ok s1 =>
            if p = [] ∨ decide (node.m_key = s1) = true then
              match add_child node (q, v) with
              | .error e => .error e
              | .ok (node1, q1) =>
                .ok (⟨s + 1, some (setNode root p node1)⟩, some (p ++ q1), true)
            else
              match getNode root p.dropLast with
              | none => .error .null_deref
              | some parent =>
                match add_root parent node (q, v) with
                | .error e => .error e
                | .ok (parent1, q1) =>
                  .ok (⟨s + 1, some (setNode root p.dropLast parent1)⟩,
                       some (p.dropLast ++ q1), true) := by
    cases mroot with
    | none => simp only at hroot; subst hroot; simp only [insert, radix_substr_nul, hp]
    | some r => simp only at hroot; subst hroot; simp only [insert, radix_substr_nul, hp]
  rw [hunfold]
  rcases hland with ⟨p0, par, lf, e1, e2, e3, e4, e5, e6⟩ |
    ⟨node, rest1, e1, e2, e3, e4, e5⟩ | ⟨p0, f, par, node, a, r, e1, e2, e3, e4, e5, e6, e7, e8⟩
  · obtain ⟨v1, -, -, hmem⟩ := land_leaf hr e2 e5 e6
    rw [e4] at hmem
    exact absurd hmem (hns v1)
  · obtain ⟨pre1, h1, h2⟩ := root_path hr e1
    have hq : q = pre1 ++ node.m_key ++ rest1 := by rw [h2, e3]
    have hsub : radix_substr q node.m_depth (radix_length node.m_key) = .ok node.m_key := by
      rw [h1.depth_eq, hq, List.append_assoc]
      simp only [radix_length]
      rw [radix_substr_split]; simp
    obtain ⟨node1, rel, g1, g2, g3, g4, g5, g6, g7⟩ := add_child_spec h1 e2 q rest1 v hq e4 e5
    obtain ⟨l1, l2, c1, c2, -⟩ := leaves_context hr.inv e1
    refine ⟨setNode root p node1, p ++ rel, ?_, ?_, ?_, ?_⟩
    · simp [e1, e2, hsub, g1]
    · refine hr.setNode e1 ?_ g3 (by rw [g4, e2]) (fun _ => g5)
      intro pre2 hp2 he
      have hpre : pre2 = pre1 := List.append_cancel_right (he.trans h2.symm)
      rw [hpre]; exact g2
    · rw [getNode_setNode _ _ e1]; exact g7
    · intro y
      rw [c2 node1, c1]
      simp only [List.mem_append, g6 y]
      tauto
  · have hg : getNode root p = some node := by
      rw [e1, getNode_append, e2]; simp [getNode, e4]
    obtain ⟨pre0, h1, h2⟩ := root_path hr e2
    obtain ⟨hk, -, -, hinode⟩ := h1.child e4
    have hq : q = pre0 ++ par.m_key ++ a :: r := by rw [h2, e6]
    have hsub : radix_substr q node.m_depth (radix_length node.m_key)
        = .ok ((a :: r).take f.length) := by
      rw [hinode.depth_eq, hq, hk]
      simp only [radix_length]
      rw [radix_substr_split]
    have hne : ¬ (node.m_key = (a :: r).take f.length) := by
      rw [hk]
      intro h0
      exact e8 ((take_eq_iff_leading f (a :: r)).mp h0.symm)
    have hpne : ¬ (p = []) := by rw [e1]; simp
    have hdrop : p.dropLast = p0 := by rw [e1]; simp
    obtain ⟨par1, rel, g1, g2, g3, g4, g5, g6, g7⟩ := add_root_spec h1 e3 e4 e5 q a r v hq e7 e8
    obtain ⟨l1, l2, c1, c2, -⟩ := leaves_context hr.inv e2
    refine ⟨setNode root p0 par1, p0 ++ rel, ?_, ?_, ?_, ?_⟩
    · simp [hg, e5, hsub, hne, hpne, hdrop, e2, g1]
    · refine hr.setNode e2 ?_ g3 (by rw [g4, e3]) (fun _ => g5)
      intro pre2 hp2 he
      have hpre : pre2 = pre0 := List.append_cancel_right (he.trans h2.symm)
      rw [hpre]; exact g2
    · rw [getNode_setNode _ _ e2]; exact g7
    · intro y
      rw [c2 par1, c1]
      simp only [List.mem_append, g6 y]
      tauto

/-- The member `insert` with a key that is not stored adds the entry. -/
theorem insert_new (t : Tree V) (hinv : InvTree t) (q : Key) (v : V)
    (hns : ∀ v1, (q, v1) ∉ stored t) :
    ∃ t1 p, insert t (q, v) = .ok (t1, some p, true) ∧ InvTree t1 ∧
      t1.m_size = t.m_size + 1 ∧ entry t1 (some p) = some (q, v) ∧
      (∀ y, y ∈ stored t1 ↔ y = (q, v) ∨ y ∈ stored t) := by
  obtain ⟨s, mroot⟩ := t
  cases mroot with
  | none =>
    obtain ⟨root1, p, g1, g2, ⟨lf, g3, g4⟩, g5⟩ := insert_core s none _ rfl rootInv_fresh q v
      (by simp [leaves])
    refine ⟨⟨s + 1, some root1⟩, p, g1, ?_, rfl, by simp [entry, g3, g4], ?_⟩
    · intro r hr; simp at hr; subst hr; exact g2
    · intro y; simp only [stored]; rw [g5 y]; simp [leaves]
  | some root =>
    have hr := hinv root rfl
    obtain ⟨root1, p, g1, g2, ⟨lf, g3, g4⟩, g5⟩ := insert_core s (some root) root rfl hr q v
      (by simpa [stored] using hns)
    refine ⟨⟨s + 1, some root1⟩, p, g1, ?_, rfl, by simp [entry, g3, g4], ?_⟩
    · intro r hr; simp at hr; subst hr; exact g2
    · intro y; simp only [stored]; exact g5 y

/-- The member `insert` with a stored key changes nothing and returns the iterator of
the stored entry. -/
theorem insert_old (t : Tree V) (hinv : InvTree t) (q : Key) (v v0 : V)
    (hs : (q, v0) ∈ stored t) :
    ∃ p, insert t (q, v) = .ok (t, some p, false) ∧ entry t (some p) = some (q, v0) ∧
      find t q = .ok (some p) := by
  obtain ⟨s, mroot⟩ := t
  cases mroot with
  | none => simp [stored] at hs
  | some root =>
    have hr := hinv root rfl
    simp only [stored] at hs
    obtain ⟨p, hp, hland⟩ := descent_root hr q
    simp only [insert, find, radix_substr_nul, hp]
    rcases hland with ⟨p0, par, lf, e1, e2, e3, e4, e5, e6⟩ |
      ⟨node, rest1, e1, e2, e3, e4, e5⟩ | ⟨p0, f, par, node, a, r, e1, e2, e3, e4, e5, e6, e7, e8⟩
    · obtain ⟨v1, hv, hg, hmem⟩ := land_leaf hr e2 e5 e6
      rw [e4] at hmem hv
      have hvv : v1 = v0 := leaves_unique hr.inv hmem hs
      rw [← e1] at hg
      refine ⟨p, by simp [hg, e6], ?_, by simp [hg, e6]⟩
      simp [entry, hg, hv, hvv]
    · exact absurd hs (land_inner_not_stored hr e1 e2 e3 e4 e5 v0)
    · exact absurd hs (land_partial_not_stored hr e2 e3 e4 e6 e7 e8 v0)

/-! ### Assignment through an iterator and `operator[]` -/

theorem stored_unique {t : Tree V} (hinv : InvTree t) {q : Key} {v1 v2 : V}
    (h1 : (q, v1) ∈ stored t) (h2 : (q, v2) ∈ stored t) : v1 = v2 := by
  cases hroot : t.m_root with
  | none => simp [stored, hroot] at h1
  | some root =>
    simp only [stored, hroot] at h1 h2
    exact leaves_unique (hinv root hroot).inv h1 h2

theorem entry_some {t : Tree V} {p : Ptr} {x : Key × V} (h : entry t (some p) = some x) :
    ∃ root lf, t.m_root = some root ∧ getNode root p = some lf ∧ lf.m_value = some x := by
  cases hroot : t.m_root with
  | none => simp [entry, hroot] at h
  | some root =>
    cases hg : getNode root p with
    | none => simp [entry, hroot, hg] at h
    | some lf =>
      simp only [entry, hroot, hg] at h
      exact ⟨root, lf, rfl, hg, h⟩

/-- The assignment `it->second = v` through an iterator to the entry of `q` replaces
the value stored for `q` and nothing else. -/
theorem assign_spec (t : Tree V) (hinv : InvTree t) (p : Ptr) (q : Key) (v0 v : V)
    (he : entry t (some p) = some (q, v0)) :
    ∃ t1, assign t (some p) v = .ok t1 ∧ InvTree t1 ∧ t1.m_size = t.m_size ∧
      entry t1 (some p) = some (q, v) ∧
      (∀ y, y ∈ stored t1 ↔ y = (q, v) ∨ (y ∈ stored t ∧ y.1 ≠ q)) := by
  obtain ⟨root, lf, hroot, hg, hv⟩ := entry_some he
  have hr := hinv root hroot
  obtain ⟨pre1, h1, h2⟩ := root_path hr hg
  have hleaf : lf.m_is_leaf = true := by
    cases h1 with
    | leaf pre v => rfl
    | inner pre k cs hc hi hs => simp at hv
  obtain ⟨w, hw⟩ := h1.leaf_inv hleaf
  have hpq : pre1 = q ∧ w = v0 := by
    rw [hw] at hv; simpa using hv
  obtain ⟨rfl, rfl⟩ := hpq
  obtain ⟨l1, l2, c1, c2, -⟩ := leaves_context hr.inv hg
  have hx : RootInv (setNode root p (Node.mk [] (some (pre1, v)) [] (pre1.length : Int) true)) := by
    refine hr.setNode hg ?_ (by rw [hw]; rfl) (by rw [hw]; rfl) (by simp)
    intro pre2 hp2 he2
    have : pre2 = pre1 := by
      rw [hw] at he2 h2
      simp at he2 h2
      rw [he2, h2]
    rw [this]; exact InvNode.leaf pre1 v
  refine ⟨⟨t.m_size, some (setNode root p (Node.mk [] (some (pre1, v)) [] (pre1.length : Int) true))⟩,
    ?_, ?_, rfl, ?_, ?_⟩
  · simp only [assign, hroot, hg, hw]
  · intro r hr2; simp at hr2; subst hr2; exact hx
  · have := getNode_setNode (Node.mk [] (some (pre1, v)) [] (pre1.length : Int) true) [] hg
    simp only [List.append_nil] at this
    simp [entry, this, getNode]
  · intro y
    have hsorted := hr.inv.leaves_sorted
    rw [c1, hw, leaves_leaf] at hsorted
    simp only [stored, hroot]
    rw [c2, c1, hw, leaves_leaf, leaves_leaf]
    simp only [List.mem_append, List.mem_singleton]
    have hl1 : ∀ z ∈ l1, z.1 ≠ pre1 := by
      intro z hz h0
      have := (List.pairwise_append.mp (List.pairwise_append.mp hsorted).1).2.2 z hz (pre1, w)
        (by simp)
      simp [h0, key_lt_irrefl] at this
    have hl2 : ∀ z ∈ l2, z.1 ≠ pre1 := by
      intro z hz h0
      have := (List.pairwise_append.mp hsorted).2.2 (pre1, w) (by simp) z hz
      simp [h0, key_lt_irrefl] at this
    constructor
    · rintro ((h | h) | h)
      · exact Or.inr ⟨Or.inl (Or.inl h), hl1 y h⟩
      · exact Or.inl h
      · exact Or.inr ⟨Or.inr h, hl2 y h⟩
    · rintro (h | ⟨(h | h) | h, hne⟩)
      · exact Or.inl (Or.inr h)
      · exact Or.inl (Or.inl h)
      · rw [h] at hne; exact absurd rfl hne
      · exact Or.inr h

/-- The statement `tree[k] = v` stores `v` for `k`, keeps every other entry, and grows
the size by one exactly when `k` was not stored. -/
theorem index_assign_spec [Inhabited V] (t : Tree V) (hinv : InvTree t) (k : Key) (v : V) :
    ∃ t1, index_assign t k v = .ok t1 ∧ InvTree t1 ∧
      (∀ y, y ∈ stored t1 ↔ y = (k, v) ∨ (y ∈ stored t ∧ y.1 ≠ k)) ∧
      ((∀ v0, (k, v0) ∉ stored t) → t1.m_size = t.m_size + 1) ∧
      ((∃ v0, (k, v0) ∈ stored t) → t1.m_size = t.m_size) := by
  obtain ⟨it, hfind, hcase⟩ := find_spec t hinv k
  rcases hcase with ⟨hit, hns⟩ | ⟨p, v0, hit, hent, hmem⟩
  · obtain ⟨t1, p, g1, g2, g3, g4, g5⟩ := insert_new t hinv k default hns
    obtain ⟨t2, a1, a2, a3, a4, a5⟩ := assign_spec t1 g2 p k default v g4
    refine ⟨t2, ?_, a2, ?_, ?_, ?_⟩
    · simp [index_assign, subscript, hfind, hit, g1, a1]
    · intro y
      rw [a5 y, g5 y]
      constructor
      · rintro (h | ⟨h | h, hne⟩)
        · exact Or.inl h
        · rw [h] at hne; exact absurd rfl hne
        · exact Or.inr ⟨h, hne⟩
      · rintro (h | ⟨h, hne⟩)
        · exact Or.inl h
        · exact Or.inr ⟨Or.inr h, hne⟩
    · intro _; rw [a3, g3]
    · rintro ⟨v0, hv0⟩; exact absurd hv0 (hns v0)
  · rw [hit] at hent hfind
    obtain ⟨t2, a1, a2, a3, a4, a5⟩ := assign_spec t hinv p k v0 v hent
    refine ⟨t2, ?_, a2, a5, ?_, ?_⟩
    · simp [index_assign, subscript, hfind, a1]
    · intro hns; exact absurd hmem (hns v0)
    · intro _; exact a3

theorem invTree_empty : InvTree (Tree.empty : Tree V) := by
  intro r hr; simp [Tree.empty] at hr

theorem assign_all_spec [Inhabited V] (ops : List (Key × V)) :
    ∀ t : Tree V, InvTree t → ∃ t1, assign_all ops t = .ok t1 ∧ InvTree t1 ∧
      ∀ k v, (k, v) ∈ stored t1 ↔
        (last_assigned ops k = some v ∨ (last_assigned ops k = none ∧ (k, v) ∈ stored t)) := by
  induction ops with
  | nil => intro t ht; exact ⟨t, rfl, ht, by simp [last_assigned]⟩
  | cons op rest ih =>
    obtain ⟨k0, v0⟩ := op
    intro t ht
    obtain ⟨t1, g1, g2, g3, -, -⟩ := index_assign_spec t ht k0 v0
    obtain ⟨t2, a1, a2, a3⟩ := ih t1 g2
    refine ⟨t2, by simp [assign_all, g1, a1], a2, ?_⟩
    intro k v
    rw [a3 k v, g3 (k, v)]
    simp only [last_assigned]
    cases hl : last_assigned rest k with
    | some w => simp
    | none =>
      by_cases hk : k0 = k
      · subst hk; simp; exact eq_comm
      · have hk2 : ¬ k = k0 := fun e => hk e.symm
        simp [hk, hk2]

theorem stored_sorted {t : Tree V} (hinv : InvTree t) :
    (stored t).Pairwise (fun a b => key_lt a.1 b.1 = true) := by
  cases hroot : t.m_root with
  | none => simp [stored, hroot]
  | some root => simp only [stored, hroot]; exact (hinv root hroot).inv.leaves_sorted

theorem keys_nodup {t : Tree V} (hinv : InvTree t) : (keys t).Nodup := by
  have h := stored_sorted hinv
  rw [keys, List.Nodup, List.pairwise_map]
  refine h.imp ?_
  intro a b hab e
  rw [e, key_lt_irrefl] at hab
  exact Bool.noConfusion hab

theorem mem_keys {t : Tree V} {k : Key} : k ∈ keys t ↔ ∃ v, (k, v) ∈ stored t := by
  simp [keys]

theorem length_keys (t : Tree V) : (keys t).length = (stored t).length := by
  simp [keys]

theorem length_stored_cons {t t1 : Tree V} (h : InvTree t) (h1 : InvTree t1) {k : Key}
    (hk : k ∉ keys t) (hm : ∀ x, x ∈ keys t1 ↔ x = k ∨ x ∈ keys t) :
    (stored t1).length = (stored t).length + 1 := by
  rw [← length_keys, ← length_keys]
  have hp : (keys t1).Perm (k :: keys t) := by
    rw [List.perm_ext_iff_of_nodup (keys_nodup h1) (List.nodup_cons.mpr ⟨hk, keys_nodup h⟩)]
    intro x; rw [hm x]; simp
  rw [hp.length_eq]; simp

theorem length_stored_same {t t1 : Tree V} (h : InvTree t) (h1 : InvTree t1)
    (hm : ∀ x, x ∈ keys t1 ↔ x ∈ keys t) : (stored t1).length = (stored t).length := by
  rw [← length_keys, ← length_keys]
  have hp : (keys t1).Perm (keys t) := by
    rw [List.perm_ext_iff_of_nodup (keys_nodup h1) (keys_nodup h)]
    exact hm
  exact hp.length_eq

theorem run_ops_spec [Inhabited V] (ops : List (Op V)) :
    ∀ (t : Tree V) (m : Key → Option V), InvTree t →
      (∀ k v, (k, v) ∈ stored t ↔ m k = some v) →
      ∃ t1, run_ops ops t = .ok t1 ∧ InvTree t1 ∧
        (∀ k v, (k, v) ∈ stored t1 ↔ ref_value ops m k = some v) ∧
        (t.m_size = (stored t).length → t1.m_size = (stored t1).length) := by
  induction ops with
  | nil => intro t m ht hm; exact ⟨t, rfl, ht, by simpa [ref_value] using hm, fun h => h⟩
  | cons op rest ih =>
    intro t m ht hm
    cases op with
    | insert val =>
      obtain ⟨k0, v0⟩ := val
      cases hmk : m k0 with
      | none =>
        have hns : ∀ v1, (k0, v1) ∉ stored t := by
          intro v1 h0; rw [hm k0 v1, hmk] at h0; exact Option.noConfusion h0
        obtain ⟨t1, p, g1, g2, g3, g4, g5⟩ := insert_new t ht k0 v0 hns
        obtain ⟨t2, a1, a2, a3, a4⟩ := ih t1
          (fun x => if x = k0 then (match m x with
            | some w => some w
            | none => some v0) else m x) g2 (by
            intro k v
            rw [g5 (k, v)]
            by_cases hk : k = k0
            · subst hk
              simp only [if_true, hmk]
              constructor
              · rintro (h | h)
                · rw [(Prod.mk.inj h).2]
                · exact absurd h (hns v)
              · intro h; left; rw [Option.some.inj h]
            · simp only [hk, if_false, ← hm k v]
              constructor
              · rintro (h | h)
                · exact absurd (Prod.mk.inj h).1 hk
                · exact h
              · intro h; exact Or.inr h)
        refine ⟨t2, by simp [run_ops, g1, a1], a2, by simpa [ref_value] using a3, ?_⟩
        intro hsz
        apply a4
        rw [g3, hsz]
        symm
        apply length_stored_cons ht g2 (k := k0)
        · rw [mem_keys]; rintro ⟨v1, h⟩; exact hns v1 h
        · intro x
          rw [mem_keys, mem_keys]
          constructor
          · rintro ⟨v, hv⟩
            rcases (g5 (x, v)).mp hv with h | h
            · exact Or.inl (Prod.mk.inj h).1
            · exact Or.inr ⟨v, h⟩
          · rintro (h | ⟨v, hv⟩)
            · exact ⟨v0, (g5 (x, v0)).mpr (Or.inl (by rw [h]))⟩
            · exact ⟨v, (g5 (x, v)).mpr (Or.inr hv)⟩
      | some w =>
        have hs : (k0, w) ∈ stored t := (hm k0 w).mpr hmk
        obtain ⟨p, g1, -, -⟩ := insert_old t ht k0 v0 w hs
        obtain ⟨t2, a1, a2, a3, a4⟩ := ih t
          (fun x => if x = k0 then (match m x with
            | some w => some w
            | none => some v0) else m x) ht (by
            intro k v
            rw [hm k v]
            by_cases hk : k = k0
            · subst hk; simp [hmk]
            · simp [hk])
        exact ⟨t2, by simp [run_ops, g1, a1], a2, by simpa [ref_value] using a3, a4⟩
    | assign k0 v0 =>
      obtain ⟨t1, g1, g2, g3, g4, g5⟩ := index_assign_spec t ht k0 v0
      obtain ⟨t2, a1, a2, a3, a4⟩ := ih t1 (fun x => if x = k0 then some v0 else m x) g2 (by
        intro k v
        rw [g3 (k, v)]
        by_cases hk : k = k0
        · subst hk
          simp only [if_true, ne_eq, not_true_eq_false, and_false, or_false]
          constructor
          · intro h; rw [(Prod.mk.inj h).2]
          · intro h; rw [Option.some.inj h]
        · simp only [hk, if_false, ← hm k v, ne_eq, not_false_eq_true, and_true]
          constructor
          · rintro (h | h)
            · exact absurd (Prod.mk.inj h).1 hk
            · exact h
          · intro h; exact Or.inr h)
      refine ⟨t2, by simp [run_ops, g1, a1], a2, by simpa [ref_value] using a3, ?_⟩
      intro hsz
      apply a4
      have hkeys : ∀ x, x ∈ keys t1 ↔ x = k0 ∨ x ∈ keys t := by
        intro x
        rw [mem_keys, mem_keys]
        constructor
        · rintro ⟨v, hv⟩
          rcases (g3 (x, v)).mp hv with h | h
          · exact Or.inl (Prod.mk.inj h).1
          · exact Or.inr ⟨v, h.1⟩
        · rintro (h | ⟨v, hv⟩)
          · exact ⟨v0, (g3 (x, v0)).mpr (Or.inl (by rw [h]))⟩
          · by_cases hx : x = k0
            · exact ⟨v0, (g3 (x, v0)).mpr (Or.inl (by rw [hx]))⟩
            · exact ⟨v, (g3 (x, v)).mpr (Or.inr ⟨hv, hx⟩)⟩
      by_cases hst : ∃ w, (k0, w) ∈ stored t
      · rw [g5 hst, hsz]
        symm
        apply length_stored_same ht g2
        intro x
        rw [hkeys x]
        constructor
        · rintro (h | h)
          · rw [h, mem_keys]; exact hst
          · exact h
        · intro h; exact Or.inr h
      · have hns : ∀ w, (k0, w) ∉ stored t := fun w h => hst ⟨w, h⟩
        rw [g4 hns, hsz]
        symm
        apply length_stored_cons ht g2 (k := k0) _ hkeys
        rw [mem_keys]; exact hst

theorem ref_value_ne_none (ops : List (Op V)) : ∀ (m : Key → Option V) (k : Key),
    ref_value ops m k ≠ none ↔ (m k ≠ none ∨ k ∈ ops.map Op.key) := by
  induction ops with
  | nil => intro m k; simp [ref_value]
  | cons op rest ih =>
    intro m k
    cases op with
    | insert val =>
      simp only [ref_value, List.map_cons, List.mem_cons, Op.key]
      rw [ih]
      by_cases hk : k = val.1
      · subst hk
        cases hm : m val.1 <;> simp
      · simp [hk]
    | assign k0 v0 =>
      simp only [ref_value, List.map_cons, List.mem_cons, Op.key]
      rw [ih]
      by_cases hk : k = k0
      · simp [hk]
      · simp [hk]

/-- C1: after any run of assignments `tree[k] = v` on a fresh tree, `find(k)` returns
an iterator whose entry is `(k, v)` for the last value `v` assigned to `k`, and
returns `end()` for every key that was never assigned. -/
theorem find_after_assignments [Inhabited V] (ops : List (Key × V)) :
    ∃ t, assign_all ops Tree.empty = .ok t ∧
      ∀ k, ∃ it, find t k = .ok it ∧
        (∀ v, last_assigned ops k = some v → entry t it = some (k, v)) ∧
        (last_assigned ops k = none → it = tree_end) := by
  obtain ⟨t, h1, h2, h3⟩ := assign_all_spec ops (Tree.empty : Tree V) invTree_empty
  refine ⟨t, h1, ?_⟩
  intro k
  obtain ⟨it, hfind, hcase⟩ := find_spec t h2 k
  refine ⟨it, hfind, ?_, ?_⟩
  · intro v hv
    have hmem : (k, v) ∈ stored t := (h3 k v).mpr (Or.inl hv)
    rcases hcase with ⟨-, hns⟩ | ⟨p, v0, -, hent, hmem0⟩
    · exact absurd hmem (hns v)
    · rw [hent, stored_unique h2 hmem0 hmem]
  · intro hnone
    rcases hcase with ⟨hit, -⟩ | ⟨p, v0, -, -, hmem0⟩
    · exact hit
    · rcases (h3 k v0).mp hmem0 with h | ⟨-, h⟩
      · rw [hnone] at h; exact Option.noConfusion h
      · simp [stored, Tree.empty] at h

/-- C6 (failing inputs): with the single key "a" stored, `erase("a")` ends in a failed
assertion, and so does `erase("brother")` with "bro" and "brother" stored. -/
theorem erase_only_child_leaf_asserts :
    erase_after_assignments [("a".toList, (1 : Int))] "a".toList = .error .assertion ∧
    erase_after_assignments [("bro".toList, (1 : Int)), ("brother".toList, 2)]
      "brother".toList = .error .assertion := by
  constructor <;> decide!

/-- C7 (failing input): after the eleven test assignments `size()` is 11, and it is
still 11 after `erase("bro")` returned true. -/
theorem erase_keeps_size :
    erase_after_assignments test_assignments "bro".toList = .ok (11, 11, true) := by
  decide!

/-- C8 (failing input): on a freshly constructed tree `erase(k)` dereferences the null
root. -/
theorem erase_fresh_faults (k : Key) :
    erase (Tree.empty : Tree V) k = .error .null_deref := by
  simp [erase, Tree.empty]

/-! ### The leaves collected by `get_leafs` -/

@[simp]
theorem get_leafs_loop_nil (here : Ptr) :
    get_leafs_loop ([] : List (Key × Node V)) here = [] := by
  simp [get_leafs_loop]

@[simp]
theorem get_leafs_loop_cons (e : Key × Node V) (rest : List (Key × Node V)) (here : Ptr) :
    get_leafs_loop (e :: rest) here = get_leafs e.2 (here ++ [e.1]) ++ get_leafs_loop rest here := by
  cases e; simp [get_leafs_loop]

theorem get_leafs_mk (k : Key) (v : Option (Key × V)) (cs : List (Key × Node V)) (d : Int)
    (lf : Bool) (here : Ptr) :
    get_leafs (Node.mk k v cs d lf) here = if lf then [here] else get_leafs_loop cs here := by
  simp [get_leafs]

theorem entry_eq_value_at (s : Nat) (root : Node V) (p : Ptr) :
    entry ⟨s, some root⟩ (some p) = value_at root p := by
  cases h : getNode root p <;> simp [entry, value_at, h]

/-- The pointers collected by `get_leafs` refer, in order, to the entries below the
node. -/
theorem get_leafs_values {n : Node V} {pre : Key} (h : InvNode n pre) :
    ∀ (root : Node V) (here : Ptr), getNode root here = some n →
      (get_leafs n here).map (value_at root) = (leaves n).map some := by
  induction h with
  | leaf pre v =>
    intro root here hg
    simp [get_leafs_mk, leaves, value_at, hg]
  | inner pre k cs hc hi hs ih =>
    intro root here hg
    rw [get_leafs_mk, leaves_mk_inner]
    try simp only [Bool.false_eq_true, if_false]
    have key : ∀ cs1 : List (Key × Node V), (∀ e ∈ cs1, e ∈ cs) →
        (get_leafs_loop cs1 here).map (value_at root) = (leaves_loop cs1).map some := by
      intro cs1
      induction cs1 with
      | nil => intro _; simp
      | cons e rest ih2 =>
        intro hsub
        have he : e ∈ cs := hsub e (by simp)
        have hfind : map_find (Node.mk k none cs (pre.length : Int) false).m_children e.1
            = some e.2 := map_find_of_mem hs he
        have hge : getNode root (here ++ [e.1]) = some e.2 := by
          rw [getNode_append, hg]
          show getNode (Node.mk k none cs (pre.length : Int) false) [e.1] = some e.2
          rw [getNode_cons_of_find _ hfind]; rfl
        rw [get_leafs_loop_cons, leaves_loop_cons, List.map_append, List.map_append,
          ih e he root (here ++ [e.1]) hge, ih2 (fun x hx => hsub x (by simp [hx]))]
    exact key cs (fun e he => he)

theorem filter_context {α : Type} (P : α → Bool) (l1 X l2 : List α)
    (hout : ∀ y ∈ l1 ++ l2, P y = false) (hin : ∀ y ∈ X, P y = true) :
    (l1 ++ X ++ l2).filter P = X := by
  rw [List.filter_append, List.filter_append]
  have h1 : l1.filter P = [] := by
    rw [List.filter_eq_nil_iff]
    intro y hy; simp [hout y (by simp [hy])]
  have h2 : l2.filter P = [] := by
    rw [List.filter_eq_nil_iff]
    intro y hy; simp [hout y (by simp [hy])]
  have h3 : X.filter P = X := by
    rw [List.filter_eq_self]
    exact hin
  rw [h1, h2, h3]; simp

/-- A stored key that continues the path of an inner node with the symbol `a` is
stored below the child of that node whose fragment starts with `a`. -/
theorem below_child {root par : Node V} (hr : RootInv root) {p0 : Ptr}
    (hg : getNode root p0 = some par) (hl : par.m_is_leaf = false) {y : Key × V}
    (hy : y ∈ leaves root) {a : Char} {r : Key} (hp : (p0.flatten ++ a :: r) <+: y.1) :
    ∃ e ∈ par.m_children, e.1.head? = some a ∧ y ∈ leaves e.2 ∧
      (p0.flatten ++ e.1) <+: y.1 := by
  have hp0 : p0.flatten <+: y.1 :=
    List.IsPrefix.trans (List.prefix_append _ _) hp
  obtain ⟨e, he, hye, hpre, hnil⟩ := below_path hr hg hl hy hp0
  refine ⟨e, he, ?_, hye, hpre⟩
  cases hk : e.1 with
  | nil =>
    have := hnil hk
    rw [this] at hp
    have hlen := hp.length_le
    simp at hlen
  | cons x e1 =>
    rw [hk] at hpre
    rcases List.prefix_or_prefix_of_prefix hpre hp with h | h
    · rw [List.prefix_append_right_inj] at h
      obtain ⟨t, ht⟩ := h
      simp at ht
      simp [ht.1]
    · rw [List.prefix_append_right_inj] at h
      obtain ⟨t, ht⟩ := h
      simp at ht
      simp [ht.1]

/-- Below the node at a pointer exactly the stored keys that start with its path
are stored. -/
theorem filter_path {root node : Node V} (hr : RootInv root) {p : Ptr}
    (hg : getNode root p = some node) (hl : node.m_is_leaf = false) (P : Key × V → Bool)
    (hin : ∀ y ∈ leaves node, P y = true)
    (hout : ∀ y ∈ leaves root, P y = true → p.flatten <+: y.1) :
    (leaves root).filter P = leaves node := by
  obtain ⟨l1, l2, e1, -, e3⟩ := leaves_context hr.inv hg
  rw [e1]
  apply filter_context P l1 (leaves node) l2 _ hin
  intro y hy
  have hno := e3 hl y hy
  rw [hr.key] at hno
  simp only [List.nil_append] at hno
  cases hP : P y with
  | false => rfl
  | true =>
    have : y ∈ leaves root := by
      rw [e1]
      simp only [List.mem_append] at hy ⊢
      tauto
    exact absurd (hout y this hP) hno

theorem parent_ptr_concat (p0 : Ptr) (f : Key) : parent_ptr (p0 ++ [f]) = some p0 := by
  cases h : p0 ++ [f] with
  | nil => simp at h
  | cons x xs =>
    have h1 : parent_ptr (x :: xs) = some (x :: xs).dropLast := rfl
    rw [h1, ← h]; simp

/-! ### `prefix_match` -/

theorem substr_rest (pre rest : Key) :
    radix_substr (pre ++ rest) (pre.length : Int)
      (radix_length (pre ++ rest) - (pre.length : Int)) = .ok rest := by
  have hnum : radix_length (pre ++ rest) - (pre.length : Int) = (rest.length : Int) := by
    simp [radix_length]
  rw [hnum, radix_substr_split]; simp

theorem substr_take0 (k : Key) (n : Nat) : radix_substr k 0 (n : Int) = .ok (k.take n) := by
  have := radix_substr_ok k 0 n (by omega)
  simpa using this

theorem map_entry_get_leafs {root node : Node V} {pre1 : Key} (s : Nat) (p : Ptr)
    (hg : getNode root p = some node) (hi : InvNode node pre1) :
    ((get_leafs node p).map some).map (entry ⟨s, some root⟩) = (leaves node).map some := by
  rw [List.map_map]
  have : (entry ⟨s, some root⟩ ∘ some) = value_at root := by
    funext x; exact entry_eq_value_at s root x
  rw [this]
  exact get_leafs_values hi root p hg

/-- The collecting step of `prefix_match` at the inner node `node` with pointer `p`,
`rem` being the part of the key after the fragments of the ancestors of `node`. -/
theorem prefix_match_tail {root node : Node V} (hr : RootInv root) (s : Nat) {p : Ptr}
    {pre1 q rem : Key} (hg : getNode root p = some node) (hl : node.m_is_leaf = false)
    (hi : InvNode node pre1) (hq : q = pre1 ++ rem)
    (hyes : rem <+: node.m_key → ∀ y ∈ leaves root, q <+: y.1 → p.flatten <+: y.1)
    (hno : ¬ rem <+: node.m_key → ∀ y ∈ leaves root, ¬ q <+: y.1)
    (hpq : rem <+: node.m_key → ∀ y ∈ leaves node, q <+: y.1) :
    ∃ out : List Iter,
      (match radix_substr q node.m_depth (radix_length q - node.m_depth) with
        | .error e => .error e
        | .ok key_sub =>
          match radix_substr node.m_key 0 (radix_length q - node.m_depth) with
          | .error e => .error e
          | .ok node_key_sub =>
            if key_sub ≠ node_key_sub then .ok []
            else .ok ((get_leafs node p).map some)) = (.ok out : Except Fault (List Iter)) ∧
      out.map (entry ⟨s, some root⟩)
        = ((leaves root).filter (fun e => q.isPrefixOf e.1)).map some := by
  have h1 : radix_substr q node.m_depth (radix_length q - node.m_depth) = .ok rem := by
    rw [hi.depth_eq, hq]; exact substr_rest pre1 rem
  have hnum : radix_length q - node.m_depth = (rem.length : Int) := by
    rw [hi.depth_eq, hq]; simp [radix_length]
  have h2 : radix_substr node.m_key 0 (radix_length q - node.m_depth)
      = .ok (node.m_key.take rem.length) := by
    rw [hnum]; exact substr_take0 _ _
  rw [h1, h2]
  by_cases hc : rem <+: node.m_key
  · have hc2 : ¬ (rem ≠ node.m_key.take rem.length) := by
      rw [not_not]; exact ((take_eq_iff_leading rem node.m_key).mpr hc).symm
    refine ⟨(get_leafs node p).map some, by simp only [if_neg hc2], ?_⟩
    rw [map_entry_get_leafs s p hg hi]
    congr 1
    symm
    apply filter_path hr hg hl
    · intro y hy
      simpa using hpq hc y hy
    · intro y hy hP
      exact hyes hc y hy (by simpa using hP)
  · have hc2 : rem ≠ node.m_key.take rem.length := fun h =>
      hc ((take_eq_iff_leading rem node.m_key).mp h.symm)
    refine ⟨[], by simp only [if_pos hc2], ?_⟩
    have : (leaves root).filter (fun e => q.isPrefixOf e.1) = [] := by
      rw [List.filter_eq_nil_iff]
      intro y hy
      simpa using hno hc y hy
    rw [this]; rfl

/-- The specification of `prefix_match`: the iterators left in `vec` are those of the
stored entries whose key starts with the query, in the order of the stored entries. -/
theorem prefix_match_spec (t : Tree V) (hinv : InvTree t) (q : Key) :
    ∃ out, prefix_match t q = .ok out ∧
      out.map (entry t) = ((stored t).filter (fun e => q.isPrefixOf e.1)).map some := by
  obtain ⟨s, mroot⟩ := t
  cases mroot with
  | none => exact ⟨[], by simp [prefix_match], by simp [stored]⟩
  | some root =>
    have hr := hinv root rfl
    obtain ⟨p, hp, hland⟩ := descent_root hr q
    simp only [prefix_match, hp, stored]
    rcases hland with ⟨p0, par, lf, e1, e2, e3, e4, e5, e6⟩ |
      ⟨node, rest1, e1, e2, e3, e4, e5⟩ | ⟨p0, f, par, node, a, r, e1, e2, e3, e4, e5, e6, e7, e8⟩
    · obtain ⟨v, hv, hg, hmem⟩ := land_leaf hr e2 e5 e6
      obtain ⟨pre1, h1, h2⟩ := root_path hr e2
      rw [e4] at h2
      have hq2 : q = pre1 ++ par.m_key := h2.symm
      obtain ⟨out, t1, t4⟩ := prefix_match_tail hr s e2 e3 h1 hq2
        (by intro _ y _ hy; rw [e4]; exact hy)
        (by intro h; exact absurd (List.prefix_refl _) h)
        (by
          intro _ y hy
          have := (h1.leaves_below y hy).1
          rw [h2] at this; exact this)
      subst e1
      simp only [hg, e6, if_true, parent_ptr_concat, e2]
      exact ⟨out, t1, t4⟩
    · obtain ⟨pre1, h1, h2⟩ := root_path hr e1
      have hq : q = pre1 ++ (node.m_key ++ rest1) := by
        rw [e3, ← h2, List.append_assoc]
      have hiff : (node.m_key ++ rest1) <+: node.m_key ↔ rest1 = [] := by
        constructor
        · intro h
          have := h.length_le
          rw [List.length_append] at this
          exact List.length_eq_zero.mp (by omega)
        · intro h; rw [h]; simp
      obtain ⟨out, t1, t4⟩ := prefix_match_tail hr s e1 e2 h1 hq
        (by
          intro _ y _ hy
          exact List.IsPrefix.trans (by rw [e3]; exact List.prefix_append _ _) hy)
        (by
          intro hc y hy hqy
          have hne : rest1 ≠ [] := fun h => hc (hiff.mpr h)
          obtain ⟨a, r, har⟩ : ∃ a r, rest1 = a :: r := by
            cases rest1 with
            | nil => exact absurd rfl hne
            | cons a r => exact ⟨a, r, rfl⟩
          rw [e3, har] at hqy
          obtain ⟨e, he, hhead, -, -⟩ := below_child hr e1 e2 hy hqy
          exact e5 a r har e he hhead)
        (by
          intro hc y hy
          have := (h1.leaves_below y hy).1
          rw [h2] at this
          rw [e3, hiff.mp hc]; simpa using this)
      simp only [e1, e2, Bool.false_eq_true, if_false]
      exact ⟨out, t1, t4⟩
    · have hg : getNode root p = some node := by
        rw [e1, getNode_append, e2]; simp [getNode, e4]
      obtain ⟨pre0, h1, h2⟩ := root_path hr e2
      obtain ⟨hk, -, -, hinode⟩ := h1.child e4
      obtain ⟨-, -, -, hs⟩ := h1.inner_inv e3
      have hq : q = (pre0 ++ par.m_key) ++ a :: r := by rw [h2, e6]
      have hpf : p.flatten = p0.flatten ++ f := by rw [e1]; simp
      have hsame : ∀ y ∈ leaves root, q <+: y.1 → (p0.flatten ++ f) <+: y.1 := by
        intro y hy hqy
        rw [e6] at hqy
        obtain ⟨e, he, hhead, -, hpre⟩ := below_child hr e2 e3 hy hqy
        have : e = (f, node) := same_head hs he (map_find_mem e4) (by rw [hhead, e7])
          (by intro h0; rw [h0] at hhead; simp at hhead)
        rw [this] at hpre; exact hpre
      obtain ⟨out, t1, t4⟩ := prefix_match_tail hr s hg e5 hinode hq
        (by
          intro _ y hy hqy
          rw [hpf]; exact hsame y hy hqy)
        (by
          intro hc y hy hqy
          have h3 := hsame y hy hqy
          rw [e6] at hqy
          rcases List.prefix_or_prefix_of_prefix h3 hqy with h | h
          · rw [List.prefix_append_right_inj] at h; exact e8 h
          · rw [List.prefix_append_right_inj, ← hk] at h; exact hc h)
        (by
          intro hc y hy
          have := (hinode.leaves_below y hy).1
          rw [h2, hk] at this
          rw [hk] at hc
          refine List.IsPrefix.trans ?_ this
          rw [e6, List.prefix_append_right_inj]; exact hc)
      simp only [hg, e5, Bool.false_eq_true, if_false]
      exact ⟨out, t1, t4⟩

/-! ### `greedy_match` -/

theorem lcp_of_leading {q k : Key} (h : q <+: k) : lcp k q = q.length := by
  rw [lcp_comm]; exact (lcp_eq_length_iff q k).mpr h

theorem lcp_ge_leading {P q k : Key} (hP : P <+: q) (h : P.length ≤ lcp k q) : P <+: k := by
  have h1 := lcp_take k q
  have h2 : k.take P.length = q.take P.length := by
    have := congrArg (List.take P.length) h1
    rw [List.take_take, List.take_take, min_eq_left h] at this
    exact this
  have h3 : q.take P.length = P := (take_eq_iff_leading P q).mpr hP
  rw [h3] at h2
  exact (take_eq_iff_leading P k).mp h2

theorem lcp_append_of_lt : ∀ (f g s : Key), lcp f g < f.length → lcp (f ++ s) g = lcp f g
  | [], g, s, h => by simp at h
  | a :: f, [], s, _ => by simp
  | a :: f, b :: g, s, h => by
    rw [List.cons_append, lcp_cons, lcp_cons]
    rw [lcp_cons] at h
    by_cases hab : a = b
    · simp only [hab, if_true] at h ⊢
      rw [lcp_append_of_lt f g s (by simpa using h)]
    · simp [hab]

theorem leaves_ne_nil {n : Node V} {pre : Key} (h : InvNode n pre)
    (hne : n.m_is_leaf = false → n.m_children ≠ []) : leaves n ≠ [] := by
  induction h with
  | leaf pre v => simp [leaves]
  | inner pre k cs hc hi hs ih =>
    have hcs : cs ≠ [] := hne rfl
    cases cs with
    | nil => exact absurd rfl hcs
    | cons e rest =>
      rw [leaves_mk_inner, leaves_loop_cons]
      intro h0
      have := (List.append_eq_nil.mp h0).1
      exact ih e (by simp) (hc e (by simp)).2.2 this

theorem mem_node_of_path {root node : Node V} (hr : RootInv root) {p : Ptr}
    (hg : getNode root p = some node) (hl : node.m_is_leaf = false) {y : Key × V}
    (hy : y ∈ leaves root) (hp : p.flatten <+: y.1) : y ∈ leaves node := by
  obtain ⟨l1, l2, e1, -, e3⟩ := leaves_context hr.inv hg
  rw [e1] at hy
  simp only [List.mem_append] at hy
  have hno := e3 hl y
  rw [hr.key] at hno
  simp only [List.nil_append, List.mem_append] at hno
  rcases hy with (hy | hy) | hy
  · exact absurd hp (hno (Or.inl hy))
  · exact hy
  · exact absurd hp (hno (Or.inr hy))

/-- An inner node that is not the root has children. -/
theorem children_ne_nil_of_ptr {root node : Node V} (hr : RootInv root) {p : Ptr}
    (hg : getNode root p = some node) (hl : node.m_is_leaf = false) (hp : p ≠ []) :
    node.m_children ≠ [] := by
  rcases List.eq_nil_or_concat p with h | ⟨p1, f, h⟩
  · exact absurd h hp
  · rw [List.concat_eq_append] at h
    subst h
    rw [getNode_append] at hg
    cases hpar : getNode root p1 with
    | none => simp [hpar] at hg
    | some par =>
      rw [hpar] at hg
      simp only [Option.some_bind, getNode] at hg
      cases hf : map_find par.m_children f with
      | none => simp [hf] at hg
      | some c =>
        simp only [hf, Option.some.injEq] at hg
        subst hg
        obtain ⟨pre1, h1, -⟩ := root_path hr hpar
        exact (h1.child hf).2.2.1 hl

theorem greedy_core {root node : Node V} (hr : RootInv root) {p : Ptr} (q : Key) (M : Nat)
    (hg : getNode root p = some node)
    (hin : ∀ y ∈ leaves node, lcp y.1 q = M)
    (hout : ∀ z ∈ leaves root, M ≤ lcp z.1 q → z ∈ leaves node)
    (hne : leaves node = [] → leaves root = []) :
    ∀ y, y ∈ leaves node ↔ (y ∈ leaves root ∧ ∀ z ∈ leaves root, lcp z.1 q ≤ lcp y.1 q) := by
  intro y
  constructor
  · intro hy
    refine ⟨mem_root_of_mem_node hr hg hy, ?_⟩
    intro z hz
    rw [hin y hy]
    by_contra hlt
    have hz2 := hout z hz (by omega)
    have := hin z hz2
    omega
  · rintro ⟨hy, hmax⟩
    by_cases hl : leaves node = []
    · rw [hne hl] at hy
      simp at hy
    · obtain ⟨w, hw⟩ := List.exists_mem_of_ne_nil _ hl
      have h1 := hin w hw
      have h2 := hmax w (mem_root_of_mem_node hr hg hw)
      exact hout y hy (by omega)

/-- The specification of `greedy_match`: the iterators left in `vec` are those of the
stored entries whose key shares with the query a leading run that no stored key
exceeds, in ascending key order. -/
theorem greedy_match_spec (t : Tree V) (hinv : InvTree t) (q : Key) :
    ∃ (out : List Iter) (es : List (Key × V)), greedy_match t q = .ok out ∧
      out.map (entry t) = es.map some ∧
      es.Pairwise (fun a b => key_lt a.1 b.1 = true) ∧
      ∀ y, y ∈ es ↔ (y ∈ stored t ∧ ∀ z ∈ stored t, lcp z.1 q ≤ lcp y.1 q) := by
  obtain ⟨s, mroot⟩ := t
  cases mroot with
  | none => exact ⟨[], [], by simp [greedy_match], by simp, by simp, by simp [stored]⟩
  | some root =>
    have hr := hinv root rfl
    obtain ⟨p, hp, hland⟩ := descent_root hr q
    simp only [greedy_match, hp, stored]
    rcases hland with ⟨p0, par, lf, e1, e2, e3, e4, e5, e6⟩ |
      ⟨node, rest1, e1, e2, e3, e4, e5⟩ | ⟨p0, f, par, node, a, r, e1, e2, e3, e4, e5, e6, e7, e8⟩
    · obtain ⟨v, hv, hg, hmem⟩ := land_leaf hr e2 e5 e6
      obtain ⟨pre1, h1, h2⟩ := root_path hr e2
      rw [e4] at h2 hmem
      subst e1
      simp only [hg, e6, if_true, parent_ptr_concat, e2]
      refine ⟨_, leaves par, rfl, map_entry_get_leafs s p0 e2 h1, h1.leaves_sorted, ?_⟩
      apply greedy_core hr q q.length e2
      · intro y hy
        have := (h1.leaves_below y hy).1
        rw [h2] at this
        exact lcp_of_leading this
      · intro z hz hM
        apply mem_node_of_path hr e2 e3 hz
        rw [e4]
        exact lcp_ge_leading (List.prefix_refl q) hM
      · intro h0
        have hlf : (q, v) ∈ leaves par := by
          rw [leaves_inner par e3]
          apply mem_leaves_loop.mpr
          refine ⟨([], lf), map_find_mem e5, ?_⟩
          rw [hv, e4]; simp [leaves]
        rw [h0] at hlf
        simp at hlf
    · obtain ⟨pre1, h1, h2⟩ := root_path hr e1
      simp only [e1, e2, Bool.false_eq_true, if_false]
      refine ⟨_, leaves node, rfl, map_entry_get_leafs s p e1 h1, h1.leaves_sorted, ?_⟩
      apply greedy_core hr q p.flatten.length e1
      · intro y hy
        obtain ⟨e, he, -, hpre, hnil⟩ := mem_child h1 e2 hy
        rw [h2] at hpre hnil
        obtain ⟨s1, hs1⟩ := hpre
        rw [← hs1, e3, List.append_assoc, lcp_append_left]
        have : lcp (e.1 ++ s1) rest1 = 0 := by
          cases rest1 with
          | nil => simp
          | cons a r =>
            cases hk : e.1 with
            | nil =>
              have hy1 := hnil hk
              rw [← hs1, hk] at hy1
              simp at hy1
              rw [hy1]; simp
            | cons x e1 =>
              have hxa : ¬ x = a := by
                intro h0
                exact e5 a r rfl e he (by simp [hk, h0])
              simp [lcp_cons, hxa]
        rw [this]; simp
      · intro z hz hM
        apply mem_node_of_path hr e1 e2 hz
        exact lcp_ge_leading (by rw [e3]; exact List.prefix_append _ _) hM
      · intro h0
        by_cases hpn : p = []
        · subst hpn
          simp only [getNode, Option.some.injEq] at e1
          rw [e1]; exact h0
        · exact absurd h0 (leaves_ne_nil h1 (fun _ => children_ne_nil_of_ptr hr e1 e2 hpn))
    · have hg : getNode root p = some node := by
        rw [e1, getNode_append, e2]; simp [getNode, e4]
      obtain ⟨pre0, h1, h2⟩ := root_path hr e2
      obtain ⟨hk, -, hcne, hinode⟩ := h1.child e4
      obtain ⟨-, -, -, hs⟩ := h1.inner_inv e3
      simp only [hg, e5, Bool.false_eq_true, if_false]
      refine ⟨_, leaves node, rfl, map_entry_get_leafs s p hg hinode, hinode.leaves_sorted, ?_⟩
      have hcpos : 0 < lcp f (a :: r) := lcp_pos_of_head e7 (by simp)
      have hclt : lcp f (a :: r) < f.length := by
        have g1 := lcp_le_left f (a :: r)
        have g2 : lcp f (a :: r) ≠ f.length := fun h0 => e8 ((lcp_eq_length_iff _ _).mp h0)
        omega
      apply greedy_core hr q (p0.flatten.length + lcp f (a :: r)) hg
      · intro y hy
        have := (hinode.leaves_below y hy).1
        rw [h2, hk] at this
        obtain ⟨s1, hs1⟩ := this
        rw [← hs1, e6, List.append_assoc, lcp_append_left, lcp_append_of_lt f (a :: r) s1 hclt]
      · intro z hz hM
        have hpa : (p0.flatten ++ a :: []) <+: z.1 := by
          apply lcp_ge_leading (q := q)
          · rw [e6, List.prefix_append_right_inj]
            exact List.prefix_cons_inj a |>.mpr (List.nil_prefix)
          · rw [List.length_append, List.length_singleton]; omega
        obtain ⟨e, he, hhead, hze, -⟩ := below_child hr e2 e3 hz hpa
        have : e = (f, node) := same_head hs he (map_find_mem e4) (by rw [hhead, e7])
          (by intro h0; rw [h0] at hhead; simp at hhead)
        rw [this] at hze; exact hze
      · intro h0
        exact absurd h0 (leaves_ne_nil hinode hcne)

/-! ### `longest_match` -/

theorem leading_split {z P R : Key} (h : z <+: P ++ R) :
    z <+: P ∨ ∃ x u, z = P ++ x :: u ∧ (x :: u) <+: R := by
  rcases List.prefix_or_prefix_of_prefix h (List.prefix_append P R) with h1 | h1
  · exact Or.inl h1
  · obtain ⟨w, hw⟩ := h1
    subst hw
    rw [List.prefix_append_right_inj] at h
    cases w with
    | nil => left; simp
    | cons x u => exact Or.inr ⟨x, u, rfl, h⟩

theorem head_of_leading {x a : Char} {u r : Key} (h : (x :: u) <+: a :: r) : x = a := by
  obtain ⟨t, ht⟩ := h
  simp at ht
  exact ht.1

/-- A stored key that is a leading part of the path of an inner node without a leaf
child is a leading part of the path of the parent. -/
theorem stored_above {root par node : Node V} (hr : RootInv root) {p1 : Ptr} {f : Key}
    (hpar : getNode root p1 = some par) (hf : map_find par.m_children f = some node)
    (hl : node.m_is_leaf = false) (hno : map_find node.m_children [] = none)
    {z : Key × V} (hz : z ∈ leaves root) (hzp : z.1 <+: (p1 ++ [f]).flatten) :
    z.1 <+: p1.flatten := by
  have hflat : (p1 ++ [f]).flatten = p1.flatten ++ f := by simp
  rw [hflat] at hzp
  rcases leading_split hzp with h | ⟨x, u, hzu, hu⟩
  · exact h
  · exfalso
    obtain ⟨pre1, h1, h2⟩ := root_path hr hpar
    have hpl : par.m_is_leaf = false := h1.not_leaf_of_find hf
    obtain ⟨-, -, -, hs⟩ := h1.inner_inv hpl
    obtain ⟨hk, -, -, hinode⟩ := h1.child hf
    obtain ⟨e, he, hhead, hze, hpre⟩ := below_child hr hpar hpl hz (a := x) (r := u)
      (by rw [hzu])
    have hfx : f.head? = some x := by
      cases f with
      | nil => simp at hu
      | cons y f1 => simp [head_of_leading hu]
    have hsame : e = (f, node) := same_head hs he (map_find_mem hf) (by rw [hhead, hfx])
      (by intro h0; rw [h0] at hhead; simp at hhead)
    rw [hsame] at hze hpre
    simp only at hze hpre
    have hzeq : z.1 = p1.flatten ++ f :=
      hzp.eq_of_length (le_antisymm hzp.length_le hpre.length_le)
    obtain ⟨e2, he2, -, hpre2, -⟩ := mem_child hinode hl hze
    rw [h2, hk, hzeq] at hpre2
    have hlen := hpre2.length_le
    rw [List.length_append] at hlen
    have he2nil : e2.1 = [] := List.length_eq_zero.mp (by omega)
    exact map_find_none.mp hno e2 he2 he2nil

/-- The loop of `longest_match` started at an inner node whose path is a leading part
of the key returns the longest stored key that is a leading part of that path. -/
theorem longest_match_loop_spec {root : Node V} (hr : RootInv root) (s : Nat) (q : Key) :
    ∀ (P : Ptr) (N : Node V), getNode root P = some N → N.m_is_leaf = false →
      P.flatten <+: q →
      ∃ it, longest_match_loop root q [] P.reverse = .ok it ∧
        ((it = none ∧ ∀ z ∈ leaves root, ¬ z.1 <+: P.flatten) ∨
         (∃ y, entry ⟨s, some root⟩ it = some y ∧ y ∈ leaves root ∧ y.1 <+: P.flatten ∧
            ∀ z ∈ leaves root, z.1 <+: P.flatten → z.1.length ≤ y.1.length)) := by
  intro P
  induction P using List.reverseRecOn with
  | nil =>
    intro N hg hl hq
    simp only [getNode, Option.some.injEq] at hg
    subst hg
    simp only [List.reverse_nil, longest_match_loop, longest_match_body, getNode]
    cases hfind : map_find root.m_children [] with
    | none =>
      refine ⟨none, by simp, Or.inl ⟨rfl, ?_⟩⟩
      intro z hz hzp
      simp only [List.flatten_nil, List.prefix_nil] at hzp
      obtain ⟨e, he, -, hpre, -⟩ := below_path hr (p := []) rfl hl hz (by simp)
      rw [hzp] at hpre
      simp only [List.flatten_nil, List.nil_append, List.prefix_nil] at hpre
      exact map_find_none.mp hfind e he hpre
    | some c =>
      have hcl : c.m_is_leaf = true := by
        obtain ⟨-, hc, -, -⟩ := hr.inv.inner_inv hl
        exact (hc _ (map_find_mem hfind)).2.1.mpr rfl
      obtain ⟨v, hv, hg2, hmem⟩ := land_leaf hr (show getNode root [] = some root from rfl)
        hfind hcl
      have hsub : radix_substr q root.m_depth (radix_length root.m_key) = .ok root.m_key := by
        rw [hr.inv.depth_eq, hr.key]
        simpa [radix_length] using radix_substr_nul q
      refine ⟨some ([] ++ [[]]), by simp [hcl, hsub], Or.inr ⟨([], v), ?_, ?_, by simp, ?_⟩⟩
      · simp only [entry]
        rw [hg2, hv]; simp
      · simpa using hmem
      · intro z _ hzp
        simp only [List.flatten_nil, List.prefix_nil] at hzp
        simp [hzp]
  | append_singleton P1 f ih =>
    intro N hg hl hq
    have hg0 := hg
    rw [getNode_append] at hg
    cases hpar : getNode root P1 with
    | none => simp [hpar] at hg
    | some par =>
      rw [hpar] at hg
      simp only [Option.some_bind, getNode] at hg
      cases hf : map_find par.m_children f with
      | none => simp [hf] at hg
      | some c =>
        simp only [hf, Option.some.injEq] at hg
        subst hg
        obtain ⟨pre0, hp1, hp2⟩ := root_path hr hpar
        have hpl : par.m_is_leaf = false := hp1.not_leaf_of_find hf
        obtain ⟨pre1, h1, h2⟩ := root_path hr hg0
        have hrev : (P1 ++ [f]).reverse = f :: P1.reverse := by simp
        have hrev2 : (f :: P1.reverse).reverse = P1 ++ [f] := by simp
        simp only [hrev, longest_match_loop, hrev2, longest_match_body, hg0]
        cases hfind : map_find c.m_children [] with
        | none =>
          have hq1 : P1.flatten <+: q :=
            List.IsPrefix.trans (by simp) hq
          obtain ⟨it, g1, g2⟩ := ih par hpar hpl hq1
          refine ⟨it, by simpa using g1, ?_⟩
          rcases g2 with ⟨hit, hnone⟩ | ⟨y, hy1, hy2, hy3, hy4⟩
          · refine Or.inl ⟨hit, ?_⟩
            intro z hz hzp
            exact hnone z hz (stored_above hr hpar hf hl hfind hz hzp)
          · refine Or.inr ⟨y, hy1, hy2, List.IsPrefix.trans hy3 (by simp), ?_⟩
            intro z hz hzp
            exact hy4 z hz (stored_above hr hpar hf hl hfind hz hzp)
        | some lf =>
          have hcl : lf.m_is_leaf = true := by
            obtain ⟨-, hc, -, -⟩ := h1.inner_inv hl
            exact (hc _ (map_find_mem hfind)).2.1.mpr rfl
          obtain ⟨v, hv, hg2, hmem⟩ := land_leaf hr hg0 hfind hcl
          have hsub : radix_substr q c.m_depth (radix_length c.m_key) = .ok c.m_key := by
            obtain ⟨rest, hrest⟩ := hq
            rw [h1.depth_eq, ← hrest, ← h2, List.append_assoc]
            simp only [radix_length]
            rw [radix_substr_split]; simp
          refine ⟨some (P1 ++ [f] ++ [[]]), by simp [hcl, hsub],
            Or.inr ⟨((P1 ++ [f]).flatten, v), ?_, hmem, List.prefix_refl _, ?_⟩⟩
          · simp only [entry]
            rw [hg2, hv]; simp
          · intro z _ hzp
            exact hzp.length_le

/-- The specification of `longest_match`: it returns the end iterator when no stored
key is a leading part of the query, and otherwise an iterator to the entry of the
longest stored key that is. -/
theorem longest_match_spec (t : Tree V) (hinv : InvTree t) (q : Key) :
    ∃ it, longest_match t q = .ok it ∧
      ((it = none ∧ ∀ z ∈ stored t, ¬ z.1 <+: q) ∨
       (∃ y, entry t it = some y ∧ y ∈ stored t ∧ y.1 <+: q ∧
          ∀ z ∈ stored t, z.1 <+: q → z.1.length ≤ y.1.length)) := by
  obtain ⟨s, mroot⟩ := t
  cases mroot with
  | none => exact ⟨none, by simp [longest_match], Or.inl ⟨rfl, by simp [stored]⟩⟩
  | some root =>
    have hr := hinv root rfl
    obtain ⟨p, hp, hland⟩ := descent_root hr q
    simp only [longest_match, hp, stored, radix_substr_nul]
    -- the result of the loop for a path whose stored leading parts are those of the key
    have lift : ∀ (P : Ptr) (N : Node V), getNode root P = some N → N.m_is_leaf = false →
        P.flatten <+: q → (∀ z ∈ leaves root, z.1 <+: q → z.1 <+: P.flatten) →
        ∃ it, longest_match_loop root q [] P.reverse = .ok it ∧
          ((it = none ∧ ∀ z ∈ leaves root, ¬ z.1 <+: q) ∨
           (∃ y, entry ⟨s, some root⟩ it = some y ∧ y ∈ leaves root ∧ y.1 <+: q ∧
              ∀ z ∈ leaves root, z.1 <+: q → z.1.length ≤ y.1.length)) := by
      intro P N hg hl hPq hall
      obtain ⟨it, g1, g2⟩ := longest_match_loop_spec hr s q P N hg hl hPq
      refine ⟨it, g1, ?_⟩
      rcases g2 with ⟨hit, hnone⟩ | ⟨y, hy1, hy2, hy3, hy4⟩
      · exact Or.inl ⟨hit, fun z hz hzq => hnone z hz (hall z hz hzq)⟩
      · exact Or.inr ⟨y, hy1, hy2, List.IsPrefix.trans hy3 hPq,
          fun z hz hzq => hy4 z hz (hall z hz hzq)⟩
    rcases hland with ⟨p0, par, lf, e1, e2, e3, e4, e5, e6⟩ |
      ⟨node, rest1, e1, e2, e3, e4, e5⟩ | ⟨p0, f, par, node, a, r, e1, e2, e3, e4, e5, e6, e7, e8⟩
    · obtain ⟨v, hv, hg, hmem⟩ := land_leaf hr e2 e5 e6
      rw [e4] at hv hmem
      rw [← e1] at hg
      refine ⟨some p, by simp [hg, e6], Or.inr ⟨(q, v), ?_, hmem, List.prefix_refl _, ?_⟩⟩
      · simp [entry, hg, hv]
      · intro z _ hzq; exact hzq.length_le
    · obtain ⟨pre1, h1, h2⟩ := root_path hr e1
      have hsub : radix_substr q node.m_depth (radix_length node.m_key) = .ok node.m_key := by
        rw [h1.depth_eq, e3, ← h2, List.append_assoc]
        simp only [radix_length]
        rw [radix_substr_split]; simp
      obtain ⟨it, g1, g2⟩ := lift p node e1 e2 (by rw [e3]; simp) (by
        intro z hz hzq
        rw [e3] at hzq
        rcases leading_split hzq with h | ⟨x, u, hzu, hu⟩
        · exact h
        · exfalso
          cases rest1 with
          | nil => simp at hu
          | cons a r =>
            have hxa := head_of_leading hu
            obtain ⟨e, he, hhead, -, -⟩ := below_child hr e1 e2 hz (a := x) (r := u)
              (by rw [hzu])
            exact e5 a r rfl e he (by rw [hhead, hxa]))
      exact ⟨it, by simp [e1, e2, hsub, g1], g2⟩
    · subst e1
      have hg : getNode root (p0 ++ [f]) = some node := by
        rw [getNode_append, e2]; simp [getNode, e4]
      obtain ⟨pre0, h1, h2⟩ := root_path hr e2
      obtain ⟨hk, -, -, hinode⟩ := h1.child e4
      obtain ⟨-, -, -, hs⟩ := h1.inner_inv e3
      have hsub : radix_substr q node.m_depth (radix_length node.m_key)
          = .ok ((a :: r).take f.length) := by
        rw [hinode.depth_eq, h2, e6, hk]
        simp only [radix_length]
        rw [radix_substr_split]
      have hne : ¬ (node.m_key = (a :: r).take f.length) := by
        rw [hk]
        intro h0
        exact e8 ((take_eq_iff_leading f (a :: r)).mp h0.symm)
      have hsub2 : radix_substr q par.m_depth (radix_length par.m_key) = .ok par.m_key := by
        rw [h1.depth_eq, e6, ← h2, List.append_assoc]
        simp only [radix_length]
        rw [radix_substr_split]; simp
      obtain ⟨it, g1, g2⟩ := lift p0 par e2 e3 (by rw [e6]; simp) (by
        intro z hz hzq
        rw [e6] at hzq
        rcases leading_split hzq with h | ⟨x, u, hzu, hu⟩
        · exact h
        · exfalso
          have hxa := head_of_leading hu
          obtain ⟨e, he, hhead, -, hpre⟩ := below_child hr e2 e3 hz (a := x) (r := u)
            (by rw [hzu])
          have hsame : e = (f, node) := same_head hs he (map_find_mem e4)
            (by rw [hhead, e7, hxa])
            (by intro h0; rw [h0] at hhead; simp at hhead)
          rw [hsame] at hpre
          have := List.IsPrefix.trans hpre hzq
          rw [List.prefix_append_right_inj] at this
          exact e8 this)
      refine ⟨it, ?_, g2⟩
      simp only [hg, e5, hsub, parent_ptr_concat, e2, hsub2]
      rw [hk] at hne
      simp [hne, hk, g1]

/-! ### Iteration -/

theorem print_tree_loop_end (t : Tree V) (fuel : Nat) :
    print_tree_loop t fuel none = .ok (some []) := by
  cases fuel <;> simp [print_tree_loop]

theorem map_after_append {α : Type} (l1 l2 : List (Key × α)) (f : Key) (c : α)
    (h : ∀ x ∈ l1, x.1 ≠ f) : map_after (l1 ++ (f, c) :: l2) f = some l2 := by
  induction l1 with
  | nil => simp [map_after]
  | cons e rest ih =>
    obtain ⟨k, y⟩ := e
    have hk : k ≠ f := h (k, y) (by simp)
    simp only [List.cons_append, map_after, hk, if_false]
    exact ih (fun x hx => h x (by simp [hx]))

theorem getNode_child {root n : Node V} {here : Ptr} {f : Key} {c : Node V}
    (hg : getNode root here = some n) (hf : map_find n.m_children f = some c) :
    getNode root (here ++ [f]) = some c := by
  rw [getNode_append, hg]
  simp [getNode, hf]

/-- The step of `get_next_leaf` from the last child of a node goes on from the node. -/
theorem next_of_last_child {root n : Node V} {here : Ptr} {f : Key} {c : Node V}
    {l1 : List (Key × Node V)} (hg : getNode root here = some n)
    (hcs : n.m_children = l1 ++ [(f, c)]) (hd : ∀ x ∈ l1, x.1 ≠ f)
    (hf : map_find n.m_children f = some c) (hk : c.m_key = f) :
    get_next_leaf root (here ++ [f]).reverse = get_next_leaf root here.reverse := by
  have hrev : (here ++ [f]).reverse = f :: here.reverse := by simp
  have hc := getNode_child hg hf
  rw [hrev, get_next_leaf]
  simp only [List.reverse_reverse]
  have hrev2 : (f :: here.reverse).reverse = here ++ [f] := by simp
  rw [hrev2, hg, hc]
  simp only [hk, hcs, map_after_append l1 [] f c hd]

/-- The step of `get_next_leaf` from a child with a next sibling goes to the first
leaf below that sibling. -/
theorem next_of_child {root n : Node V} {here : Ptr} {f g : Key} {c c2 : Node V}
    {l1 l2 : List (Key × Node V)} {q : Ptr} (hg : getNode root here = some n)
    (hcs : n.m_children = l1 ++ (f, c) :: (g, c2) :: l2) (hd : ∀ x ∈ l1, x.1 ≠ f)
    (hf : map_find n.m_children f = some c) (hk : c.m_key = f)
    (hq : get_first_leaf c2 = .ok q) :
    get_next_leaf root (here ++ [f]).reverse = .ok (some (here ++ g :: q)) := by
  have hrev : (here ++ [f]).reverse = f :: here.reverse := by simp
  have hc := getNode_child hg hf
  rw [hrev, get_next_leaf]
  simp only [List.reverse_reverse]
  have hrev2 : (f :: here.reverse).reverse = here ++ [f] := by simp
  rw [hrev2, hg, hc]
  simp only [hk, hcs, map_after_append l1 ((g, c2) :: l2) f c hd, hq]

theorem pairwise_append_ne {l1 l2 : List (Key × Node V)} {e : Key × Node V}
    (hs : (l1 ++ e :: l2).Pairwise (fun a b => frag_lt a.1 b.1)) :
    ∀ x ∈ l1, x.1 ≠ e.1 := by
  intro x hx
  rw [List.pairwise_append] at hs
  exact frag_lt_ne (hs.2.2 x hx e (by simp))

/-- The pointers `get_leafs` collects below a node form a chain of `get_next_leaf`
steps that starts at the first leaf below the node and leaves the node's subtree after
the last one. -/
theorem leaf_chain {root n : Node V} {pre : Key} (h : InvNode n pre)
    (hne : n.m_is_leaf = false → n.m_children ≠ []) :
    ∀ (here : Ptr), getNode root here = some n →
      ∃ p0 xl, get_first_leaf n = .ok p0 ∧ begin_node n = .ok p0 ∧
        (get_leafs n here).head? = some (here ++ p0) ∧
        (get_leafs n here).getLast? = some xl ∧
        get_next_leaf root xl.reverse = get_next_leaf root here.reverse ∧
        (get_leafs n here).Chain' (fun x y => get_next_leaf root x.reverse = .ok (some y)) := by
  induction h with
  | leaf pre v =>
    intro here hg
    exact ⟨[], here, by simp [get_first_leaf], by simp [begin_node],
      by simp [get_leafs_mk], by simp [get_leafs_mk], rfl, by simp [get_leafs_mk]⟩
  | inner pre k cs hc hi hs ih =>
    intro here hg
    have hcs : cs ≠ [] := hne rfl
    have key : ∀ (cs1 l1 : List (Key × Node V)), cs = l1 ++ cs1 → cs1 ≠ [] →
        ∃ e rest p0 xl, cs1 = e :: rest ∧ get_first_leaf e.2 = .ok p0 ∧
          begin_node e.2 = .ok p0 ∧
          (get_leafs_loop cs1 here).head? = some (here ++ e.1 :: p0) ∧
          (get_leafs_loop cs1 here).getLast? = some xl ∧
          get_next_leaf root xl.reverse = get_next_leaf root here.reverse ∧
          (get_leafs_loop cs1 here).Chain'
            (fun x y => get_next_leaf root x.reverse = .ok (some y)) := by
      intro cs1
      induction cs1 with
      | nil => intro l1 _ h0; exact absurd rfl h0
      | cons e rest ihl =>
        intro l1 hsplit _
        have hmem : e ∈ cs := by rw [hsplit]; simp
        have hf : map_find cs e.1 = some e.2 := map_find_of_mem hs hmem
        have hge : getNode root (here ++ [e.1]) = some e.2 :=
          getNode_child hg (by simpa using hf)
        have hd : ∀ x ∈ l1, x.1 ≠ e.1 := pairwise_append_ne (hsplit ▸ hs)
        obtain ⟨p0, xl, a1, a2, a3, a4, a5, a6⟩ :=
          ih e hmem (hc e hmem).2.2 (here ++ [e.1]) hge
        have hhead : (get_leafs_loop (e :: rest) here).head? = some (here ++ e.1 :: p0) := by
          rw [get_leafs_loop_cons, List.head?_append_of_ne_nil _ (by
            intro h0; rw [h0] at a3; simp at a3), a3]
          simp
        cases rest with
        | nil =>
          refine ⟨e, [], p0, xl, rfl, a1, a2, hhead, ?_, ?_, ?_⟩
          · rw [get_leafs_loop_cons, get_leafs_loop_nil, List.append_nil]; exact a4
          · rw [a5]
            exact next_of_last_child hg (by simpa using hsplit) hd (by simpa using hf)
              (hc e hmem).1
          · rw [get_leafs_loop_cons, get_leafs_loop_nil, List.append_nil]; exact a6
        | cons e2 rest2 =>
          obtain ⟨e0, rest0, q0, xl2, b0, b1, b2, b3, b4, b5, b6⟩ :=
            ihl (l1 ++ [e]) (by rw [hsplit]; simp) (by simp)
          simp only [List.cons.injEq] at b0
          obtain ⟨b01, b02⟩ := b0
          subst b01
          have hne2 : get_leafs_loop (e2 :: rest2) here ≠ [] := by
            intro h0; rw [h0] at b3; simp at b3
          refine ⟨e, e2 :: rest2, p0, xl2, rfl, a1, a2, hhead, ?_, b5, ?_⟩
          · rw [get_leafs_loop_cons, List.getLast?_append_of_ne_nil _ hne2]; exact b4
          · rw [get_leafs_loop_cons]
            refine List.Chain'.append a6 b6 ?_
            intro x hx y hy
            rw [a4] at hx
            rw [b3] at hy
            simp only [Option.mem_def, Option.some.injEq] at hx hy
            subst hx; subst hy
            rw [a5]
            have hcs2 : (Node.mk k none cs (pre.length : Int) false).m_children
                = l1 ++ (e.1, e.2) :: (e2.1, e2.2) :: rest2 := by simpa using hsplit
            exact next_of_child hg hcs2 hd
              (by simpa using hf) (hc e hmem).1 b1
    obtain ⟨e, rest, p0, xl, c0, c1, c2, c3, c4, c5, c6⟩ := key cs [] rfl hcs
    subst c0
    obtain ⟨f, c⟩ := e
    refine ⟨f :: p0, xl, ?_, ?_, ?_, ?_, c5, ?_⟩
    · simp only at c1; simp [get_first_leaf, c1]
    · simp only at c2; simp [begin_node, c2]
    · rw [get_leafs_mk]; simpa using c3
    · rw [get_leafs_mk]; simpa using c4
    · rw [get_leafs_mk]; simpa using c6

/-- The walk along a chain of `get_next_leaf` steps that ends with the end iterator
prints the entries of the pointers of the chain. -/
theorem print_tree_loop_chain (s : Nat) (root : Node V) :
    ∀ (L : List Ptr) (es : List (Key × V)) (x : Ptr),
      (x :: L).Chain' (fun a b => get_next_leaf root a.reverse = .ok (some b)) →
      (∀ xl, (x :: L).getLast? = some xl → get_next_leaf root xl.reverse = .ok none) →
      (x :: L).map (value_at root) = es.map some →
      ∀ fuel, (x :: L).length ≤ fuel →
        print_tree_loop ⟨s, some root⟩ fuel (some x) = .ok (some es) := by
  intro L
  induction L with
  | nil =>
    intro es x _ hlast hval fuel hfuel
    cases es with
    | nil => simp at hval
    | cons e es1 =>
      simp only [List.map_cons, List.map_nil, List.cons.injEq] at hval
      obtain ⟨hv, hes⟩ := hval
      have hes1 : es1 = [] := by simpa using hes.symm
      subst hes1
      cases fuel with
      | zero => simp at hfuel
      | succ k =>
        have hn := hlast x (by simp)
        simp only [print_tree_loop, entry_eq_value_at, hv, iter_next, hn,
          print_tree_loop_end]
  | cons y L1 ih =>
    intro es x hch hlast hval fuel hfuel
    cases es with
    | nil => simp at hval
    | cons e es1 =>
      rw [List.map_cons, List.map_cons (f := some), List.cons.injEq] at hval
      obtain ⟨hv, hes⟩ := hval
      rw [List.chain'_cons] at hch
      cases fuel with
      | zero => simp at hfuel
      | succ k =>
        have hrec := ih es1 y hch.2 (by
          intro xl hxl
          exact hlast xl (by rw [List.getLast?_cons_cons]; exact hxl)) hes k (by
            simp only [List.length_cons] at hfuel ⊢; omega)
        simp only [print_tree_loop, entry_eq_value_at, hv, iter_next, hch.1, hrec]

/-- The specification of the walk from `begin()` to `end()`: it prints the stored
entries in their order. -/
theorem print_tree_spec (t : Tree V) (hinv : InvTree t)
    (hfull : ∀ root, t.m_root = some root → root.m_children ≠ []) :
    ∀ fuel, (stored t).length ≤ fuel → print_tree t fuel = .ok (some (stored t)) := by
  obtain ⟨s, mroot⟩ := t
  cases mroot with
  | none =>
    intro fuel _
    simp [print_tree, tree_begin, stored, print_tree_loop_end]
  | some root =>
    intro fuel hfuel
    have hr := hinv root rfl
    obtain ⟨p0, xl, a1, a2, a3, a4, a5, a6⟩ :=
      leaf_chain hr.inv (fun _ => hfull root rfl) []
        (show getNode root [] = some root from rfl)
    have hval := get_leafs_values hr.inv root [] rfl
    simp only [print_tree, tree_begin, a2, stored]
    cases hL : get_leafs root [] with
    | nil => rw [hL] at a3; simp at a3
    | cons x L =>
      rw [hL] at a3 a4 a6 hval
      simp only [List.head?_cons, Option.some.injEq, List.nil_append] at a3
      subst a3
      have hlen : (x :: L).length = (leaves root).length := by
        have := congrArg List.length hval
        simpa using this
      refine print_tree_loop_chain s root L (leaves root) x a6 ?_ hval fuel (by
        rw [hlen]; simpa [stored] using hfuel)
      intro xl2 hxl2
      rw [a4] at hxl2
      simp only [Option.some.injEq] at hxl2
      subst hxl2
      rw [a5]; simp [get_next_leaf]

/-- The tree built by a run of `insert` calls and `tree[k] = v` statements on a fresh
tree: the invariant holds, the stored entries are those of the reference container,
`m_size` counts them, and an existing root has children. -/
theorem run_ops_fresh [Inhabited V] (ops : List (Op V)) :
    ∃ t : Tree V, run_ops ops Tree.empty = .ok t ∧ InvTree t ∧
      (∀ k v, (k, v) ∈ stored t ↔ ref_value ops (fun _ => none) k = some v) ∧
      t.m_size = (stored t).length ∧
      (stored t).length = ((ops.map Op.key).dedup).length ∧
      (∀ root, t.m_root = some root → root.m_children ≠ []) := by
  obtain ⟨t, h1, h2, h3, h4⟩ := run_ops_spec ops (Tree.empty : Tree V) (fun _ => none)
    invTree_empty (by simp [stored, Tree.empty])
  have hmem : ∀ x, (∃ v, (x, v) ∈ stored t) ↔ x ∈ ops.map Op.key := by
    intro x
    have := ref_value_ne_none ops (fun _ => none) x
    simp only [ne_eq, not_true_eq_false, false_or] at this
    rw [← this]
    constructor
    · rintro ⟨w, hw⟩ h0
      rw [(h3 x w).mp hw] at h0
      exact Option.noConfusion h0
    · intro h0
      cases hv : ref_value ops (fun _ => none) x with
      | none => exact absurd hv h0
      | some w => exact ⟨w, (h3 x w).mpr hv⟩
  refine ⟨t, h1, h2, h3, h4 (by simp [stored, Tree.empty]), ?_, ?_⟩
  · rw [← length_keys]
    apply List.Perm.length_eq
    rw [List.perm_ext_iff_of_nodup (keys_nodup h2) (List.nodup_dedup _)]
    intro x
    rw [List.mem_dedup, mem_keys]
    exact hmem x
  · intro root hroot hnil
    have hr := h2 root hroot
    have hst : stored t = [] := by
      simp only [stored, hroot]
      have hlf := hr.inner
      cases hr.inv with
      | leaf pre v => simp [Node.m_is_leaf] at hlf
      | inner pre k cs hc hi hs =>
        have : cs = [] := by simpa using hnil
        subst this
        rw [leaves_mk_inner, leaves_loop_nil]
    cases ops with
    | nil =>
      simp only [run_ops, Except.ok.injEq] at h1
      rw [← h1] at hroot
      simp [Tree.empty] at hroot
    | cons op rest =>
      obtain ⟨v, hv⟩ := (hmem op.key).mpr (by simp)
      rw [hst] at hv
      simp at hv

/-- C2: on the tree built by any run of `insert` calls and `tree[k] = v` statements,
the walk from `begin()` with `++` until `end()` terminates and visits a list of entries
that is strictly ascending in the key order, holds exactly the entries of the container
(each key with its value), and has as many entries as the run has distinct keys. -/
theorem print_tree_ascending [Inhabited V] (ops : List (Op V)) :
    ∃ (t : Tree V) (es : List (Key × V)), run_ops ops Tree.empty = .ok t ∧
      (∀ extra : Nat, print_tree t (es.length + extra) = .ok (some es)) ∧
      es.Pairwise (fun a b => key_lt a.1 b.1 = true) ∧
      (∀ k v, (k, v) ∈ es ↔ ref_value ops (fun _ => none) k = some v) ∧
      es.length = ((ops.map Op.key).dedup).length := by
  obtain ⟨t, h1, h2, h3, -, h5, h6⟩ := run_ops_fresh (V := V) ops
  exact ⟨t, stored t, h1, fun extra => print_tree_spec t h2 h6 _ (Nat.le_add_right _ _),
    stored_sorted h2, h3, h5⟩

/-- C3: on the tree built by any run of `insert` calls and `tree[k] = v` statements,
`longest_match(q)` returns `end()` exactly when no stored key is a leading part of `q`,
and otherwise an iterator to the entry of a stored key that is a leading part of `q`
and at least as long as every stored key that is one, which is the entry of `q` when
`q` is stored. With the eleven test keys,
`longest_match("binder")` is the entry of "bind", `longest_match("bracelet")` the entry
of "brace", and `longest_match("apple")` is `end()`. -/
theorem longest_match_longest [Inhabited V] (ops : List (Op V)) (q : Key) :
    (∃ (t : Tree V) (it : Iter), run_ops ops Tree.empty = .ok t ∧
      longest_match t q = .ok it ∧
      (it = tree_end ↔ ∀ k, ref_value ops (fun _ => none) k ≠ none → ¬ k <+: q) ∧
      (it ≠ tree_end → ∃ k v, entry t it = some (k, v) ∧
        ref_value ops (fun _ => none) k = some v ∧ k <+: q ∧
        ∀ k2, ref_value ops (fun _ => none) k2 ≠ none → k2 <+: q → k2.length ≤ k.length) ∧
      (∀ v, ref_value ops (fun _ => none) q = some v → entry t it = some (q, v))) ∧
    longest_match_after_assignments test_assignments "binder".toList
      = .ok (false, some ("bind".toList, 6)) ∧
    longest_match_after_assignments test_assignments "bracelet".toList
      = .ok (false, some ("brace".toList, 8)) ∧
    longest_match_after_assignments test_assignments "apple".toList = .ok (true, none) := by
  refine ⟨?_, by decide!, by decide!, by decide!⟩
  obtain ⟨t, h1, h2, h3, -, -, -⟩ := run_ops_fresh (V := V) ops
  obtain ⟨it, g1, g2⟩ := longest_match_spec t h2 q
  have hst : ∀ k, ref_value ops (fun _ => none) k ≠ none → ∃ v, (k, v) ∈ stored t := by
    intro k hk
    cases hv : ref_value ops (fun _ => none) k with
    | none => exact absurd hv hk
    | some w => exact ⟨w, (h3 k w).mpr hv⟩
  refine ⟨t, it, h1, g1, ?_, ?_, ?_⟩
  · rcases g2 with ⟨hit, hnone⟩ | ⟨y, hy1, hy2, hy3, -⟩
    · refine ⟨fun _ k hk hkq => ?_, fun _ => hit⟩
      obtain ⟨v, hv⟩ := hst k hk
      exact hnone (k, v) hv hkq
    · constructor
      · intro hit
        rw [hit] at hy1
        simp [entry, tree_end] at hy1
      · intro hall
        obtain ⟨k, v⟩ := y
        exact absurd hy3 (hall k (by rw [(h3 k v).mp hy2]; simp))
  · intro hne
    rcases g2 with ⟨hit, -⟩ | ⟨y, hy1, hy2, hy3, hy4⟩
    · exact absurd hit hne
    · obtain ⟨k, v⟩ := y
      refine ⟨k, v, hy1, (h3 k v).mp hy2, hy3, ?_⟩
      intro k2 hk2 hk2q
      obtain ⟨v2, hv2⟩ := hst k2 hk2
      exact hy4 (k2, v2) hv2 hk2q
  · intro v hv
    have hq : (q, v) ∈ stored t := (h3 q v).mpr hv
    rcases g2 with ⟨-, hnone⟩ | ⟨y, hy1, hy2, hy3, hy4⟩
    · exact absurd (List.prefix_refl q) (hnone (q, v) hq)
    · obtain ⟨k, w⟩ := y
      have hlen := hy4 (q, v) hq (List.prefix_refl q)
      have hk : k = q := hy3.eq_of_length (le_antisymm hy3.length_le hlen)
      subst hk
      have hw := (h3 k w).mp hy2
      rw [hv] at hw
      rw [hy1, Option.some.inj hw]

/-- C4: on the tree built by any run of `insert` calls and `tree[k] = v` statements,
`prefix_match(q, vec)` leaves in `vec` iterators whose entries are, in strictly
ascending key order, exactly the stored entries whose key has `q` as a leading part.
For the five keys apache, afford, available, affair, avenger, `prefix_match("aff")`
gives affair, afford, `prefix_match("a")` gives all five and `prefix_match("xyz")`
gives nothing. -/
theorem prefix_match_exact [Inhabited V] (ops : List (Op V)) (q : Key) :
    (∃ (t : Tree V) (out : List Iter) (es : List (Key × V)),
      run_ops ops Tree.empty = .ok t ∧ prefix_match t q = .ok out ∧
      out.map (entry t) = es.map some ∧
      es.Pairwise (fun a b => key_lt a.1 b.1 = true) ∧
      ∀ k v, (k, v) ∈ es ↔ (ref_value ops (fun _ => none) k = some v ∧ q <+: k)) ∧
    prefix_match_after_assignments five_assignments "aff".toList
      = .ok [some ("affair".toList, 3), some ("afford".toList, 1)] ∧
    prefix_match_after_assignments five_assignments "a".toList
      = .ok [some ("affair".toList, 3), some ("afford".toList, 1),
          some ("apache".toList, 0), some ("available".toList, 2),
          some ("avenger".toList, 4)] ∧
    prefix_match_after_assignments five_assignments "xyz".toList = .ok [] := by
  refine ⟨?_, by decide!, by decide!, by decide!⟩
  obtain ⟨t, h1, h2, h3, -, -, -⟩ := run_ops_fresh (V := V) ops
  obtain ⟨out, g1, g2⟩ := prefix_match_spec t h2 q
  refine ⟨t, out, _, h1, g1, g2, (stored_sorted h2).filter _, ?_⟩
  intro k v
  rw [List.mem_filter, h3 k v]
  simp

/-- C5: on the tree built by any run of `insert` calls and `tree[k] = v` statements,
`greedy_match(q, vec)` leaves in `vec` iterators whose entries are, in strictly
ascending key order, exactly the stored entries whose key shares with `q` a leading
run as long as the longest one any stored key shares with `q`. For the five keys
apache, afford, available, affair, avenger, `greedy_match("avoid")` gives available,
avenger. -/
theorem greedy_match_exact [Inhabited V] (ops : List (Op V)) (q : Key) :
    (∃ (t : Tree V) (out : List Iter) (es : List (Key × V)),
      run_ops ops Tree.empty = .ok t ∧ greedy_match t q = .ok out ∧
      out.map (entry t) = es.map some ∧
      es.Pairwise (fun a b => key_lt a.1 b.1 = true) ∧
      ∀ k v, (k, v) ∈ es ↔ (ref_value ops (fun _ => none) k = some v ∧
        ∀ k2, ref_value ops (fun _ => none) k2 ≠ none → lcp k2 q ≤ lcp k q)) ∧
    greedy_match_after_assignments five_assignments "avoid".toList
      = .ok [some ("available".toList, 2), some ("avenger".toList, 4)] := by
  refine ⟨?_, by decide!⟩
  obtain ⟨t, h1, h2, h3, -, -, -⟩ := run_ops_fresh (V := V) ops
  obtain ⟨out, es, g1, g2, g3, g4⟩ := greedy_match_spec t h2 q
  refine ⟨t, out, es, h1, g1, g2, g3, ?_⟩
  intro k v
  rw [g4 (k, v), h3 k v]
  constructor
  · rintro ⟨hk, hall⟩
    refine ⟨hk, fun k2 hk2 => ?_⟩
    cases hv : ref_value ops (fun _ => none) k2 with
    | none => exact absurd hv hk2
    | some w => exact hall (k2, w) ((h3 k2 w).mpr hv)
  · rintro ⟨hk, hall⟩
    refine ⟨hk, fun z hz => ?_⟩
    obtain ⟨k2, w⟩ := z
    exact hall k2 (by rw [(h3 k2 w).mp hz]; simp)

/-! ### `erase` keeps the invariant -/

theorem setNode_key_leaf {p : Ptr} : ∀ {n node x : Node V}, getNode n p = some node →
    x.m_key = node.m_key → x.m_is_leaf = node.m_is_leaf →
    (setNode n p x).m_key = n.m_key ∧ (setNode n p x).m_is_leaf = n.m_is_leaf := by
  cases p with
  | nil =>
    intro n node x hg h1 h2
    simp [getNode] at hg
    subst hg
    simp only [setNode]
    exact ⟨h1, h2⟩
  | cons f p =>
    intro n node x hg h1 h2
    simp only [getNode] at hg
    cases hf : map_find n.m_children f with
    | none => simp [hf] at hg
    | some c =>
      rw [setNode_cons p x hf]
      obtain ⟨e1, e2, -, -, -⟩ := n.set_children_fields (map_replace n.m_children f (setNode c p x))
      exact ⟨e1, e2⟩

/-- Replacing the node at a pointer keeps the invariant; the new node may be without
children when it is the root. -/
theorem setNode_inv_top {p : Ptr} {n node x : Node V} {pre : Key} (h : InvNode n pre)
    (hg : getNode n p = some node)
    (hx : ∀ pre1, InvNode node pre1 → pre1 ++ node.m_key = pre ++ n.m_key ++ p.flatten →
      InvNode x pre1)
    (h1 : x.m_key = node.m_key) (h2 : x.m_is_leaf = node.m_is_leaf)
    (h3 : p ≠ [] → x.m_is_leaf = false → x.m_children ≠ []) :
    InvNode (setNode n p x) pre := by
  cases p with
  | nil =>
    simp [getNode] at hg
    subst hg
    simpa [setNode] using hx pre h (by simp)
  | cons f p1 => exact setNode_inv h hg hx h1 h2 (h3 (by simp))

theorem InvNode.erase_child {par c : Node V} {pre1 f : Key} (h : InvNode par pre1)
    (hl : par.m_is_leaf = false) (hf : map_find par.m_children f = some c) :
    InvNode (par.set_children (map_erase par.m_children f)) pre1 := by
  obtain ⟨-, hc, hi, hs⟩ := h.inner_inv hl
  obtain ⟨l1, l2, hcs, -, -, he, -⟩ := map_find_split hf
  rw [h.set_children_eq hl, he]
  rw [hcs] at hc hi hs
  refine InvNode.inner pre1 par.m_key _ ?_ ?_ ?_
  · intro e he
    rcases List.mem_append.mp he with he | he
    · exact hc e (by simp [he])
    · exact hc e (by simp [he])
  · intro e he
    rcases List.mem_append.mp he with he | he
    · exact hi e (by simp [he])
    · exact hi e (by simp [he])
  · exact hs.sublist (by simp)

/-- A call of `erase(radix_tree_node*)` on a leaf that returns leaves a tree with the
invariant: the leaf is taken out of the children map of its parent and nothing else
changes. -/
theorem erase_node_ok {root par lf r : Node V} (hr : RootInv root) {p0 : Ptr}
    (hg : getNode root p0 = some par) (hpl : par.m_is_leaf = false)
    (hf : map_find par.m_children [] = some lf) (hl : lf.m_is_leaf = true)
    (h : erase_node root ([] :: p0.reverse) = .ok r) :
    r = setNode root p0 (par.set_children (map_erase par.m_children [])) ∧ RootInv r := by
  obtain ⟨pre1, hp1, hp2⟩ := root_path hr hg
  obtain ⟨-, hc, -, -⟩ := hp1.inner_inv hpl
  have hk : lf.m_key = [] := (hc _ (map_find_mem hf)).1
  have hglf : getNode root (p0 ++ [[]]) = some lf := getNode_child hg hf
  have hrev : ([] :: p0.reverse).reverse = p0 ++ [[]] := by simp
  obtain ⟨f1, f2, f3, -, -⟩ := par.set_children_fields (map_erase par.m_children [])
  have hinv1 : RootInv (setNode root p0 (par.set_children (map_erase par.m_children []))) →
      r = setNode root p0 (par.set_children (map_erase par.m_children [])) →
      r = setNode root p0 (par.set_children (map_erase par.m_children [])) ∧ RootInv r := by
    intro a b; exact ⟨b, b ▸ a⟩
  have hroot1 : (p0 ≠ [] → map_erase par.m_children [] ≠ []) →
      RootInv (setNode root p0 (par.set_children (map_erase par.m_children []))) := by
    intro hne
    obtain ⟨g1, g2⟩ := setNode_key_leaf (x := par.set_children (map_erase par.m_children []))
      hg f1 f2
    refine ⟨setNode_inv_top hr.inv hg ?_ f1 f2 ?_, by rw [g1, hr.key], by rw [g2, hr.inner]⟩
    · intro pre2 hp _
      exact hp.erase_child hpl hf
    · intro hp _
      rw [f3]; exact hne hp
  have hg1 : getNode (setNode root p0 (par.set_children (map_erase par.m_children []))) p0
      = some (par.set_children (map_erase par.m_children [])) := by
    have := getNode_setNode (par.set_children (map_erase par.m_children [])) [] hg
    simpa [getNode] using this
  simp only [erase_node, hrev, hglf, hl, List.reverse_reverse, hg, hk] at h
  simp only [ne_eq, not_true_eq_false, if_false, f3] at h
  by_cases hc1 : p0.reverse = [] ∨ (map_erase par.m_children []).length > 1
  · rw [if_pos hc1] at h
    refine hinv1 (hroot1 ?_) (Except.ok.inj h).symm
    intro hp
    rcases hc1 with h0 | h0
    · exact absurd (by simpa using h0) hp
    · intro h1; rw [h1] at h0; simp at h0
  · rw [if_neg hc1] at h
    have hp0 : p0.reverse ≠ [] := fun h0 => hc1 (Or.inl h0)
    by_cases hc2 : (map_erase par.m_children []).length = 0
    · rw [if_pos hc2] at h
      exfalso
      cases hrp : p0.reverse with
      | nil => exact hp0 hrp
      | cons g2 rp =>
        rw [hrp] at h
        have hrev2 : (g2 :: rp).reverse = p0 := by rw [← hrp]; simp
        simp only [erase_node, hrev2, hg1, f2, hpl] at h
        simp at h
    · rw [if_neg hc2] at h
      cases hcs : map_erase par.m_children [] with
      | nil => rw [hcs] at hc2; simp at hc2
      | cons e rest =>
        obtain ⟨g, c⟩ := e
        rw [hcs] at h
        simp only at h
        by_cases hcl : c.m_is_leaf = false
        · have hgc : getNode (setNode root p0 (par.set_children ((g, c) :: rest)))
              (p0 ++ [g]) = some c := by
            rw [hcs] at hg1
            refine getNode_child hg1 ?_
            rw [(par.set_children_fields _).2.2.1]
            simp [map_find]
          have hrev3 : (g :: p0.reverse).reverse = p0 ++ [g] := by simp
          simp only [hcl, ne_eq, not_true_eq_false, if_false, merge_node, hrev3, hgc,
            Bool.not_false, if_true] at h
          rw [hcs] at hroot1 hinv1
          exact hinv1 (hroot1 (fun _ => by simp)) (Except.ok.inj h).symm
        · simp [hcl] at h

/-- A call of `erase(key)` that returns leaves a tree with the invariant and the same
`m_size`. -/
theorem erase_inv {t t1 : Tree V} (hinv : InvTree t) {k : Key} {b : Bool}
    (h : erase t k = .ok (t1, b)) : InvTree t1 ∧ t1.m_size = t.m_size := by
  obtain ⟨s, mroot⟩ := t
  cases mroot with
  | none => simp [erase] at h
  | some root =>
    have hr := hinv root rfl
    obtain ⟨p, hp, hland⟩ := descent_root hr k
    simp only [erase, hp] at h
    rcases hland with ⟨p0, par, lf, e1, e2, e3, e4, e5, e6⟩ |
      ⟨node, rest1, e1, e2, e3, e4, e5⟩ | ⟨p0, f, par, node, a, r, e1, e2, e3, e4, e5, e6, e7, e8⟩
    · subst e1
      have hglf : getNode root (p0 ++ [[]]) = some lf := getNode_child e2 e5
      have hrev : (p0 ++ [[]]).reverse = [] :: p0.reverse := by simp
      simp only [hglf, e6, hrev] at h
      cases he : erase_node root ([] :: p0.reverse) with
      | error err => simp [he] at h
      | ok r =>
        obtain ⟨-, hr1⟩ := erase_node_ok hr e2 e3 e5 e6 he
        simp only [he, Bool.not_true, Bool.false_eq_true, if_false, Except.ok.injEq,
          Prod.mk.injEq] at h
        obtain ⟨ht, -⟩ := h
        subst ht
        refine ⟨?_, rfl⟩
        intro root2 hroot2
        simp only [Option.some.injEq] at hroot2
        subst hroot2
        exact hr1
    · simp only [e1, e2] at h
      simp only [Bool.not_false, if_true, Except.ok.injEq, Prod.mk.injEq] at h
      obtain ⟨ht, -⟩ := h
      subst ht
      exact ⟨hinv, rfl⟩
    · subst e1
      have hg : getNode root (p0 ++ [f]) = some node := getNode_child e2 e4
      simp only [hg, e5] at h
      simp only [Bool.not_false, if_true, Except.ok.injEq, Prod.mk.injEq] at h
      obtain ⟨ht, -⟩ := h
      subst ht
      exact ⟨hinv, rfl⟩

theorem insert_inv {t t1 : Tree V} (hinv : InvTree t) {val : Key × V} {it : Iter} {b : Bool}
    (h : insert t val = .ok (t1, it, b)) : InvTree t1 := by
  obtain ⟨k, v⟩ := val
  obtain ⟨it0, -, hcase⟩ := find_spec t hinv k
  rcases hcase with ⟨-, hns⟩ | ⟨p, v0, -, -, hmem⟩
  · obtain ⟨t2, p, g1, g2, -⟩ := insert_new t hinv k v hns
    rw [g1] at h
    simp only [Except.ok.injEq, Prod.mk.injEq] at h
    rw [← h.1]; exact g2
  · obtain ⟨p1, g1, -⟩ := insert_old t hinv k v v0 hmem
    rw [g1] at h
    simp only [Except.ok.injEq, Prod.mk.injEq] at h
    rw [← h.1]; exact hinv

/-- The invariant holds after every run of calls that returns. -/
theorem run_calls_inv [Inhabited V] (calls : List (Call V)) :
    ∀ (t t1 : Tree V), InvTree t → run_calls calls t = .ok t1 → InvTree t1 := by
  induction calls with
  | nil =>
    intro t t1 ht h
    simp only [run_calls, Except.ok.injEq] at h
    rw [← h]; exact ht
  | cons c rest ih =>
    intro t t1 ht h
    cases c with
    | insert val =>
      simp only [run_calls] at h
      cases hi : insert t val with
      | error e => simp [hi] at h
      | ok r =>
        obtain ⟨t2, it, b⟩ := r
        simp only [hi] at h
        exact ih t2 t1 (insert_inv ht hi) h
    | assign k v =>
      simp only [run_calls] at h
      obtain ⟨t2, g1, g2, -⟩ := index_assign_spec t ht k v
      simp only [g1] at h
      exact ih t2 t1 g2 h
    | erase k =>
      simp only [run_calls] at h
      cases he : erase t k with
      | error e => simp [he] at h
      | ok r =>
        obtain ⟨t2, b⟩ := r
        simp only [he] at h
        exact ih t2 t1 (erase_inv ht he).1 h
    | clear =>
      simp only [run_calls] at h
      refine ih (clear t) t1 ?_ h
      intro root hroot
      simp [clear] at hroot

/-- C9: on the tree left by any run of `insert`, `tree[k] = v`, `erase` and `clear`
calls on a fresh tree, for a key `k` that `find` does not find, `insert((k, v))`
returns the flag true with an iterator whose entry is `(k, v)` and grows `size()` by
one; and after any run of `insert` calls and `tree[k] = v` statements on a fresh tree
`size()` is the number of distinct keys of the run. -/
theorem insert_absent_key [Inhabited V] (calls : List (Call V)) (t : Tree V) (k : Key)
    (v : V) (ops : List (Op V)) (hrun : run_calls calls Tree.empty = .ok t)
    (hfind : find t k = .ok tree_end) :
    (∃ t1 it, insert t (k, v) = .ok (t1, it, true) ∧ entry t1 it = some (k, v) ∧
      size t1 = size t + 1) ∧
    (∃ t2, run_ops ops Tree.empty = .ok t2 ∧ size t2 = ((ops.map Op.key).dedup).length) := by
  constructor
  · have h2 : InvTree t := run_calls_inv calls Tree.empty t invTree_empty hrun
    have hns : ∀ v1, (k, v1) ∉ stored t := by
      obtain ⟨it, hf, hcase⟩ := find_spec t h2 k
      rw [hfind] at hf
      have hit : it = none := (Except.ok.inj hf).symm
      rcases hcase with ⟨-, hns⟩ | ⟨p, v0, hp, -, -⟩
      · exact hns
      · rw [hit] at hp; exact Option.noConfusion hp
    obtain ⟨t1, p, g1, -, g3, g4, -⟩ := insert_new t h2 k v hns
    exact ⟨t1, some p, g1, g4, g3⟩
  · obtain ⟨t2, h1, -, -, h4, h5, -⟩ := run_ops_fresh (V := V) ops
    exact ⟨t2, h1, by rw [size, h4, h5]⟩

/-- C9 at the tree left by `tree["bro"] = 1; tree["brother"] = 2; erase("bro")` and
the key "bro". -/
theorem insert_absent_key_witness :
    run_calls bro_calls Tree.empty = .ok erased_bro ∧
    find erased_bro "bro".toList = .ok tree_end ∧
    (∃ t1 it, insert erased_bro ("bro".toList, (5 : Int)) = .ok (t1, it, true) ∧
      entry t1 it = some ("bro".toList, 5) ∧ size t1 = size erased_bro + 1) ∧
    (∃ t2, run_ops a_ops Tree.empty = .ok t2 ∧
      size t2 = ((a_ops.map Op.key).dedup).length) :=
  ⟨by decide!, by decide!,
    insert_absent_key bro_calls erased_bro "bro".toList 5 a_ops (by decide!) (by decide!)⟩

/-- C10: on the tree left by any run of `insert`, `tree[k] = v`, `erase` and `clear`
calls on a fresh tree, when `find(k)` returns an iterator whose entry is `(k, v)`,
`insert((k, v2))` returns that iterator with the flag false and leaves the tree as it
was. -/
theorem insert_stored_key [Inhabited V] (calls : List (Call V)) (t : Tree V) (k : Key)
    (v v2 : V) (it : Iter) (hrun : run_calls calls Tree.empty = .ok t)
    (hfind : find t k = .ok it) (hent : entry t it = some (k, v)) :
    insert t (k, v2) = .ok (t, it, false) := by
  have h2 : InvTree t := run_calls_inv calls Tree.empty t invTree_empty hrun
  obtain ⟨it1, hf, hcase⟩ := find_spec t h2 k
  rw [hfind] at hf
  have hit : it1 = it := (Except.ok.inj hf).symm
  rcases hcase with ⟨hnone, -⟩ | ⟨p, v0, hp, -, hmem⟩
  · rw [← hit, hnone] at hent
    simp [entry] at hent
  · obtain ⟨p1, g1, -, g3⟩ := insert_old t h2 k v2 v0 hmem
    rw [hfind] at g3
    rw [g1, Except.ok.inj g3]

/-- C10 at the tree left by `tree["bro"] = 1; tree["brother"] = 2; erase("bro")` and
the key "brother". -/
theorem insert_stored_key_witness :
    run_calls bro_calls Tree.empty = .ok erased_bro ∧
    find erased_bro "brother".toList = .ok (some ["bro".toList, "ther".toList, []]) ∧
    entry erased_bro (some ["bro".toList, "ther".toList, []]) = some ("brother".toList, 2) ∧
    insert erased_bro ("brother".toList, 9)
      = .ok (erased_bro, some ["bro".toList, "ther".toList, []], false) :=
  ⟨by decide!, by decide!, by decide!,
    insert_stored_key bro_calls erased_bro "brother".toList 2 9
      (some ["bro".toList, "ther".toList, []]) (by decide!) (by decide!) (by decide!)⟩

/-! ### The nodes of a tree and their ancestors -/

theorem nodes_below_eq (anc : List (Node V)) (n : Node V) :
    nodes_below anc n = (anc, n) :: nodes_below_loop (anc ++ [n]) n.m_children := by
  cases n; simp [nodes_below]

theorem mem_nodes_below_loop (anc : List (Node V)) (cs : List (Key × Node V))
    (x : List (Node V) × Node V) :
    x ∈ nodes_below_loop anc cs ↔ ∃ e ∈ cs, x ∈ nodes_below anc e.2 := by
  induction cs with
  | nil => simp [nodes_below_loop]
  | cons e rest ih =>
    obtain ⟨f, c⟩ := e
    simp [nodes_below_loop, ih]

theorem join_fragments_nil : join_fragments ([] : List (Node V)) = [] := rfl

theorem join_fragments_append (a : List (Node V)) (n : Node V) :
    join_fragments (a ++ [n]) = join_fragments a ++ n.m_key := by
  induction a with
  | nil => simp [join_fragments, radix_join]
  | cons x rest ih =>
    simp only [join_fragments, List.cons_append, List.map_cons, List.foldr_cons] at ih ⊢
    rw [ih]
    simp [radix_join]

theorem join_fragments_length (a : List (Node V)) :
    ((join_fragments a).length : Int) = (a.map (fun n => radix_length n.m_key)).sum := by
  induction a with
  | nil => simp [join_fragments]
  | cons x rest ih =>
    simp only [join_fragments, List.map_cons, List.foldr_cons, List.sum_cons] at ih ⊢
    rw [← ih]
    simp [radix_join, radix_length]

theorem AncOk.nil : AncOk ([] : List (Node V)) := by
  intro a0 p a1 h
  simp at h

theorem AncOk.snoc {anc : List (Node V)} {n : Node V} (h : AncOk anc)
    (hd : n.m_depth = ((join_fragments anc).length : Int)) (hl : n.m_is_leaf = false) :
    AncOk (anc ++ [n]) := by
  intro a0 p a1 heq
  rcases List.eq_nil_or_concat a1 with h1 | ⟨a2, q, h1⟩
  · subst h1
    obtain ⟨ha, hp⟩ := List.append_inj' heq (by simp)
    have hp : n = p := by simpa using hp
    subst hp; subst ha
    exact ⟨hd, hl⟩
  · rw [List.concat_eq_append] at h1
    subst h1
    have heq2 : anc ++ [n] = (a0 ++ p :: a2) ++ [q] := by simpa using heq
    obtain ⟨ha, -⟩ := List.append_inj' heq2 (by simp)
    exact h a0 p a2 ha

/-- Every node below a node with the invariant has the invariant below the joined
fragments of its ancestors. -/
theorem nodes_below_inv {n : Node V} {pre : Key} (h : InvNode n pre) :
    ∀ anc : List (Node V), AncOk anc → join_fragments anc = pre →
      (anc ≠ [] → n.m_is_leaf = false → n.m_children ≠ []) →
      ∀ a c, (a, c) ∈ nodes_below anc n →
        AncOk a ∧ InvNode c (join_fragments a) ∧
        (a ≠ [] → c.m_is_leaf = false → c.m_children ≠ []) := by
  induction h with
  | leaf pre v =>
    intro anc hanc hj hne a c hmem
    simp only [nodes_below, nodes_below_loop, List.mem_singleton, Prod.mk.injEq] at hmem
    obtain ⟨ha, hc⟩ := hmem
    subst ha; subst hc
    exact ⟨hanc, hj ▸ InvNode.leaf pre v, by simp⟩
  | inner pre k cs hc hi hs ih =>
    intro anc hanc hj hne a c hmem
    rw [nodes_below_eq, List.mem_cons] at hmem
    rcases hmem with hmem | hmem
    · simp only [Prod.mk.injEq] at hmem
      obtain ⟨ha, hc0⟩ := hmem
      subst ha; subst hc0
      exact ⟨hanc, hj ▸ InvNode.inner pre k cs hc hi hs, hne⟩
    · rw [mem_nodes_below_loop] at hmem
      obtain ⟨e, he, hx⟩ := hmem
      simp only [Node.m_children_mk] at he
      refine ih e he _ (AncOk.snoc (n := Node.mk k none cs (pre.length : Int) false) hanc ?_ rfl)
        ?_ (fun _ => (hc e he).2.2) a c hx
      · rw [hj]; rfl
      · rw [join_fragments_append, hj]; rfl

theorem all_nodes_inv {t : Tree V} (hinv : InvTree t) :
    ∀ a c, (a, c) ∈ all_nodes t →
      AncOk a ∧ InvNode c (join_fragments a) ∧
      (a ≠ [] → c.m_is_leaf = false → c.m_children ≠ []) := by
  intro a c hmem
  cases hroot : t.m_root with
  | none => simp [all_nodes, hroot] at hmem
  | some root =>
    simp only [all_nodes, hroot] at hmem
    exact nodes_below_inv (hinv root hroot).inv [] AncOk.nil rfl (by simp) a c hmem

/-- C11 (failing input): with the five keys apache, afford, available, affair, avenger
stored, `prefix_match("xyz", vec)` leaves `vec` empty and `greedy_match("xyz", vec)`
leaves the iterators of all five entries in it. -/
theorem greedy_match_unrelated_gives_all :
    prefix_match_after_assignments five_assignments "xyz".toList = .ok [] ∧
    greedy_match_after_assignments five_assignments "xyz".toList
      = .ok [some ("affair".toList, 3), some ("afford".toList, 1),
          some ("apache".toList, 0), some ("available".toList, 2),
          some ("avenger".toList, 4)] := by
  constructor <;> decide!

/-- C13 (failing input): after `bro`, `brace`, `brother`, `blind`, `binary`, `bind` are
stored in that order and `erase("bro")` returned, `find` still finds "brace" and
"brother" and does not find "bro", while the inner node with the fragment "o" on the
path to "brother" is still there, with the inner node "ther" as its only child. -/
theorem erase_does_not_merge :
    after_calls merge_calls (fun t => find t "brace".toList)
      = .ok (.ok (some ["b".toList, "r".toList, "ace".toList, []])) ∧
    after_calls merge_calls
        (fun t => entry t (some ["b".toList, "r".toList, "ace".toList, []]))
      = .ok (some ("brace".toList, 1)) ∧
    after_calls merge_calls (fun t => find t "brother".toList)
      = .ok (.ok (some ["b".toList, "r".toList, "o".toList, "ther".toList, []])) ∧
    after_calls merge_calls
        (fun t => entry t (some ["b".toList, "r".toList, "o".toList, "ther".toList, []]))
      = .ok (some ("brother".toList, 2)) ∧
    after_calls merge_calls (fun t => find t "bro".toList) = .ok (.ok tree_end) ∧
    after_calls merge_calls (fun t => node_shape t ["b".toList, "r".toList, "o".toList])
      = .ok (some (("o".toList, false), [("ther".toList, false)])) := by
  refine ⟨?_, ?_, ?_, ?_, ?_, ?_⟩ <;> decide!

/-- C14 (failing input): on a fresh tree and after `clear()`, `begin()` is `end()`; after
`tree[""] = 1; erase("")` the root is left without children and `begin()` dereferences
the `end()` of its empty children map. -/
theorem begin_on_childless_root :
    tree_begin (Tree.empty : Tree Int) = .ok tree_end ∧
    tree_begin (clear a_tree) = .ok tree_end ∧
    after_calls nul_calls (fun t => node_shape t []) = .ok (some (([], false), [])) ∧
    after_calls nul_calls tree_begin = .ok (.error .end_deref) := by
  refine ⟨?_, ?_, ?_, ?_⟩ <;> decide!

/-- C15: after `clear()` on any tree, the tree is the freshly constructed one: `size()`
is 0, `empty()` is true, `find` and `longest_match` return `end()` for every key,
`prefix_match` and `greedy_match` leave the vector empty, and `insert((k, v))` returns
the flag true with an iterator to `(k, v)` and makes `size()` 1. -/
theorem clear_gives_fresh_tree (t : Tree V) (k : Key) (v : V) :
    clear t = Tree.empty ∧ size (clear t) = 0 ∧ empty (clear t) = true ∧
    find (clear t) k = .ok tree_end ∧ longest_match (clear t) k = .ok tree_end ∧
    prefix_match (clear t) k = .ok [] ∧ greedy_match (clear t) k = .ok [] ∧
    ∃ t1 it, insert (clear t) (k, v) = .ok (t1, it, true) ∧ entry t1 it = some (k, v) ∧
      size t1 = 1 := by
  refine ⟨rfl, rfl, rfl, rfl, rfl, rfl, rfl, ?_⟩
  obtain ⟨t1, p, g1, -, g3, g4, -⟩ := insert_new (clear t) (by
    intro root hroot; simp [clear] at hroot) k v (by simp [stored, clear])
  exact ⟨t1, some p, g1, g4, by rw [size, g3]; rfl⟩

/-- C17 (counterexample): in the tree left by `insert(("a", 1))` the child of the root
with the fragment "a" has depth 0, which is not the depth of the root plus the length
of the fragment of the child. -/
theorem depth_child_fragment_fails :
    ∃ (t : Tree Int) (anc : List (Node Int)) (p c : Node Int),
      run_ops [Op.insert ("a".toList, 1)] Tree.empty = .ok t ∧
      (anc ++ [p], c) ∈ all_nodes t ∧ c.m_depth ≠ p.m_depth + radix_length c.m_key :=
  ⟨a_tree, [], a_root, a_inner, by decide!, by decide!, by decide!⟩

/-- C17 (amended): on the tree built by any run of `insert` calls and `tree[k] = v`
statements, the depth of every node with a parent is the depth of the parent plus the
length of the fragment of the parent. -/
theorem depth_parent_fragment [Inhabited V] (ops : List (Op V)) :
    ∃ t : Tree V, run_ops ops Tree.empty = .ok t ∧
      ∀ anc p c, (anc ++ [p], c) ∈ all_nodes t →
        c.m_depth = p.m_depth + radix_length p.m_key := by
  obtain ⟨t, h1, h2, -⟩ := run_ops_fresh (V := V) ops
  refine ⟨t, h1, ?_⟩
  intro anc p c hmem
  obtain ⟨ha, hc, -⟩ := all_nodes_inv h2 _ _ hmem
  rw [hc.depth_eq, join_fragments_append, (ha anc p [] rfl).1]
  simp [radix_length]

/-- C18: on the tree built by any run of `insert` calls and `tree[k] = v` statements,
the depth of every node is the sum of the lengths of the fragments of its proper
ancestors; the root has depth 0 and the depth of a leaf is the length of the key of
its entry. -/
theorem depth_sums_ancestors [Inhabited V] (ops : List (Op V)) :
    ∃ t : Tree V, run_ops ops Tree.empty = .ok t ∧
      ∀ anc c, (anc, c) ∈ all_nodes t →
        c.m_depth = (anc.map (fun a => radix_length a.m_key)).sum ∧
        (anc = [] → c.m_depth = 0) ∧
        (c.m_is_leaf = true → ∃ k v, c.m_value = some (k, v) ∧ c.m_depth = radix_length k) := by
  obtain ⟨t, h1, h2, -⟩ := run_ops_fresh (V := V) ops
  refine ⟨t, h1, ?_⟩
  intro anc c hmem
  obtain ⟨-, hc, -⟩ := all_nodes_inv h2 _ _ hmem
  refine ⟨?_, ?_, ?_⟩
  · rw [hc.depth_eq, join_fragments_length]
  · intro h0
    rw [hc.depth_eq, h0, join_fragments_nil]; rfl
  · intro hl
    obtain ⟨v, hv⟩ := hc.leaf_inv hl
    exact ⟨join_fragments anc, v, by rw [hv]; rfl, by rw [hv]; rfl⟩

/-- C19: on the tree built by any run of `insert` calls and `tree[k] = v` statements,
every leaf has an empty fragment, no children and an entry whose key is the joined
fragments of the nodes from the root to the leaf, and every other node has no entry. -/
theorem leaf_key_joins_fragments [Inhabited V] (ops : List (Op V)) :
    ∃ t : Tree V, run_ops ops Tree.empty = .ok t ∧
      ∀ anc c, (anc, c) ∈ all_nodes t →
        (c.m_is_leaf = true → c.m_key = [] ∧ c.m_children = [] ∧
          ∃ v, c.m_value = some (join_fragments (anc ++ [c]), v)) ∧
        (c.m_is_leaf = false → c.m_value = none) := by
  obtain ⟨t, h1, h2, -⟩ := run_ops_fresh (V := V) ops
  refine ⟨t, h1, ?_⟩
  intro anc c hmem
  obtain ⟨-, hc, -⟩ := all_nodes_inv h2 _ _ hmem
  constructor
  · intro hl
    obtain ⟨v, hv⟩ := hc.leaf_inv hl
    refine ⟨by rw [hv]; rfl, by rw [hv]; rfl, v, ?_⟩
    rw [join_fragments_append]
    rw [hv]
    simp
  · intro hl
    have := (hc.inner_inv hl).1
    rw [this]; rfl

/-- C20: on the tree built by any run of `insert` calls and `tree[k] = v` statements,
a child of a node is a leaf when its fragment is empty and an inner node otherwise,
no two children of a node have an empty fragment, and no two children of a node have
non-empty fragments with the same first symbol. -/
theorem sibling_fragments_distinct [Inhabited V] (ops : List (Op V)) :
    ∃ t : Tree V, run_ops ops Tree.empty = .ok t ∧
      ∀ anc n, (anc, n) ∈ all_nodes t →
        (∀ e ∈ n.m_children, (e.2.m_key = [] → e.2.m_is_leaf = true) ∧
          (e.2.m_key ≠ [] → e.2.m_is_leaf = false)) ∧
        n.m_children.Pairwise (fun a b =>
          ¬ (a.2.m_key = [] ∧ b.2.m_key = []) ∧
          (a.2.m_key ≠ [] → b.2.m_key ≠ [] → a.2.m_key.head? ≠ b.2.m_key.head?)) := by
  obtain ⟨t, h1, h2, -⟩ := run_ops_fresh (V := V) ops
  refine ⟨t, h1, ?_⟩
  intro anc n hmem
  obtain ⟨-, hn, -⟩ := all_nodes_inv h2 _ _ hmem
  cases hl : n.m_is_leaf with
  | true =>
    obtain ⟨v, hv⟩ := hn.leaf_inv hl
    rw [hv]; simp
  | false =>
    obtain ⟨-, hc, -, hs⟩ := hn.inner_inv hl
    constructor
    · intro e he
      obtain ⟨e1, e2, -⟩ := hc e he
      rw [e1]
      constructor
      · exact e2.mpr
      · intro hne
        cases h0 : e.2.m_is_leaf with
        | false => rfl
        | true => exact absurd (e2.mp h0) hne
    · have hkey : ∀ e ∈ n.m_children, e.2.m_key = e.1 := fun e he => (hc e he).1
      refine (List.Pairwise.and_mem.mp hs).imp ?_
      rintro a b ⟨ha, hb, hab⟩
      rw [hkey a ha, hkey b hb]
      constructor
      · rintro ⟨h1, h2⟩
        rw [h1, h2] at hab
        simp [frag_lt] at hab
      · intro hane _
        rcases frag_lt_head hab with h0 | h0
        · exact h0
        · exact absurd h0 hane

/-! ### Inner nodes with a single child -/

theorem Lone.children {n : Node V} (h : Lone n) :
    (∀ e ∈ n.m_children, lone_ok e.2) ∧ (∀ e ∈ n.m_children, Lone e.2) := by
  cases h with
  | mk n h1 h2 => exact ⟨h1, h2⟩

theorem Lone.of_no_children {n : Node V} (h : n.m_children = []) : Lone n :=
  Lone.mk n (by simp [h]) (by simp [h])

theorem mem_map_set_self {α : Type} (cs : List (Key × α)) (k : Key) (c : α) :
    (k, c) ∈ map_set cs k c := by
  induction cs with
  | nil => simp [map_set]
  | cons e rest ih =>
    obtain ⟨k1, c1⟩ := e
    simp only [map_set]
    split_ifs <;> simp [ih]

theorem mem_map_set_of_ne {α : Type} {cs : List (Key × α)} {k : Key} (c : α)
    {e : Key × α} (he : e ∈ cs) (hne : e.1 ≠ k) : e ∈ map_set cs k c := by
  induction cs with
  | nil => simp at he
  | cons e1 rest ih =>
    obtain ⟨k1, c1⟩ := e1
    simp only [map_set]
    rcases List.mem_cons.mp he with h | h
    · subst h
      simp only at hne
      simp only [hne, if_false]
      split_ifs <;> simp
    · split_ifs
      · simp [h]
      · simp [h]
      · simp [ih h]

theorem mem_of_mem_map_set {α : Type} {cs : List (Key × α)} {k : Key} {c : α}
    {e : Key × α} (he : e ∈ map_set cs k c) : e = (k, c) ∨ e ∈ cs := by
  induction cs with
  | nil => simp [map_set] at he; exact Or.inl he
  | cons e1 rest ih =>
    obtain ⟨k1, c1⟩ := e1
    simp only [map_set] at he
    split_ifs at he
    · rcases List.mem_cons.mp he with h | h
      · exact Or.inl h
      · exact Or.inr (by simp [h])
    · rcases List.mem_cons.mp he with h | h
      · exact Or.inl h
      · exact Or.inr h
    · rcases List.mem_cons.mp he with h | h
      · exact Or.inr (by simp [h])
      · rcases ih h with h0 | h0
        · exact Or.inl h0
        · exact Or.inr (by simp [h0])

theorem Lone.set_children_map_set {n x : Node V} (h : Lone n) (g : Key)
    (hx1 : lone_ok x) (hx2 : Lone x) (cs : List (Key × Node V))
    (hcs : ∀ e ∈ cs, e ∈ n.m_children) :
    Lone (n.set_children (map_set cs g x)) := by
  obtain ⟨h1, h2⟩ := h.children
  refine Lone.mk _ ?_ ?_
  · intro e he
    rw [(n.set_children_fields _).2.2.1] at he
    rcases mem_of_mem_map_set he with h0 | h0
    · rw [h0]; exact hx1
    · exact h1 e (hcs e h0)
  · intro e he
    rw [(n.set_children_fields _).2.2.1] at he
    rcases mem_of_mem_map_set he with h0 | h0
    · rw [h0]; exact hx2
    · exact h2 e (hcs e h0)

theorem lone_ok_map_set_leaf (n : Node V) (cs : List (Key × Node V)) (g : Key) {x : Node V}
    (hx : x.m_is_leaf = true) : lone_ok (n.set_children (map_set cs g x)) := by
  intro _ e he
  rw [(n.set_children_fields _).2.2.1] at he
  have := mem_map_set_self cs g x
  rw [he, List.mem_singleton] at this
  rw [← this]; exact hx

theorem lone_ok_map_set_two (n : Node V) {cs : List (Key × Node V)} {g : Key} (x : Node V)
    {e1 : Key × Node V} (h1 : e1 ∈ cs) (hne : e1.1 ≠ g) :
    lone_ok (n.set_children (map_set cs g x)) := by
  intro _ e he
  rw [(n.set_children_fields _).2.2.1] at he
  have a1 := mem_map_set_self cs g x
  have a2 := mem_map_set_of_ne x h1 hne
  rw [he, List.mem_singleton] at a1 a2
  rw [a2, ← a1] at hne
  exact absurd rfl hne

/-- The node at a pointer below a node with the property has it, and is not an inner
node with a single inner child unless the pointer is empty. -/
theorem lone_getNode {p : Ptr} : ∀ {n node : Node V}, Lone n → getNode n p = some node →
    Lone node ∧ (p ≠ [] → lone_ok node) := by
  induction p using List.reverseRecOn with
  | nil =>
    intro n node h hg
    simp only [getNode, Option.some.injEq] at hg
    subst hg
    exact ⟨h, fun h0 => absurd rfl h0⟩
  | append_singleton p1 f ih =>
    intro n node h hg
    rw [getNode_append] at hg
    cases hpar : getNode n p1 with
    | none => simp [hpar] at hg
    | some par =>
      rw [hpar] at hg
      simp only [Option.some_bind, getNode] at hg
      cases hf : map_find par.m_children f with
      | none => simp [hf] at hg
      | some c =>
        simp only [hf, Option.some.injEq] at hg
        subst hg
        obtain ⟨h1, h2⟩ := (ih h hpar).1.children
        exact ⟨h2 _ (map_find_mem hf), fun _ => h1 _ (map_find_mem hf)⟩

/-- Replacing the node at a pointer by a node with the same leaf flag keeps the
property. -/
theorem lone_setNode {p : Ptr} : ∀ {n node x : Node V}, Lone n → getNode n p = some node →
    x.m_key = node.m_key → x.m_is_leaf = node.m_is_leaf → Lone x → (p ≠ [] → lone_ok x) →
    Lone (setNode n p x) := by
  induction p with
  | nil =>
    intro n node x _ _ _ _ hx _
    simpa [setNode] using hx
  | cons f p ih =>
    intro n node x h hg hk hl hx hx1
    simp only [getNode] at hg
    cases hf : map_find n.m_children f with
    | none => simp [hf] at hg
    | some c =>
      simp only [hf] at hg
      rw [setNode_cons p x hf]
      obtain ⟨h1, h2⟩ := h.children
      obtain ⟨l1, l2, hcs, -, hr, -, -⟩ := map_find_split hf
      have hc1 := h1 _ (map_find_mem hf)
      have hc2 := h2 _ (map_find_mem hf)
      obtain ⟨g1, g2⟩ := setNode_key_leaf hg hk hl
      have hnew1 : lone_ok (setNode c p x) := by
        cases p with
        | nil => simpa [setNode] using hx1 (by simp)
        | cons f2 p2 =>
          simp only [getNode] at hg
          cases hf2 : map_find c.m_children f2 with
          | none => simp [hf2] at hg
          | some c2 =>
            simp only [hf2] at hg
            rw [setNode_cons p2 x hf2]
            obtain ⟨m1, m2, hcs2, -, hr2, -, -⟩ := map_find_split hf2
            obtain ⟨k1, k2⟩ := setNode_key_leaf hg hk hl
            intro hlf e he
            rw [(c.set_children_fields _).2.2.1, hr2] at he
            rw [(c.set_children_fields _).2.1] at hlf
            cases m1 with
            | nil =>
              cases m2 with
              | nil =>
                simp only [List.nil_append, List.cons.injEq, and_true] at he
                rw [← he]
                simp only
                rw [k2]
                exact hc1 hlf (f2, c2) (by rw [hcs2]; rfl)
              | cons y m3 => simp at he
            | cons y m3 =>
              have := congrArg List.length he
              simp at this
      have hnew2 : Lone (setNode c p x) := ih hc2 hg hk hl hx (fun _ => hx1 (by simp))
      refine Lone.mk _ ?_ ?_
      · intro e he
        rw [(n.set_children_fields _).2.2.1, hr] at he
        rcases List.mem_append.mp he with he | he
        · exact h1 e (by rw [hcs]; simp [he])
        · rcases List.mem_cons.mp he with he | he
          · rw [he]; exact hnew1
          · exact h1 e (by rw [hcs]; simp [he])
      · intro e he
        rw [(n.set_children_fields _).2.2.1, hr] at he
        rcases List.mem_append.mp he with he | he
        · exact h2 e (by rw [hcs]; simp [he])
        · rcases List.mem_cons.mp he with he | he
          · rw [he]; exact hnew2
          · exact h2 e (by rw [hcs]; simp [he])

/-! ### The nodes built by `add_leaf`, `add_child` and `add_root` -/

theorem add_leaf_shape {par par1 : Node V} {val : Key × V} {rel : Ptr}
    (h : add_leaf par val = .ok (par1, rel)) :
    par1 = par.set_children (map_set par.m_children []
      (.mk [] (some val) [] (radix_length val.1) true)) ∧ rel = [[]] := by
  simp only [add_leaf, radix_substr_nul] at h
  split_ifs at h
  simp only [Except.ok.injEq, Prod.mk.injEq] at h
  exact ⟨h.1.symm, h.2.symm⟩

/-- The node returned by `add_child` is the parent with one entry of its children map
set: to a new leaf under the empty fragment, or to a new inner node whose only child
is a new leaf. -/
theorem add_child_shape {node node1 : Node V} {val : Key × V} {rel : Ptr}
    (h : add_child node val = .ok (node1, rel)) :
    ∃ g x, node1 = node.set_children (map_set node.m_children g x) ∧
      ((g = [] ∧ x.m_is_leaf = true ∧ x.m_children = [] ∧ rel = [[]]) ∨
       (x.m_is_leaf = false ∧ rel = [g, []] ∧
        ∃ lf : Node V, x.m_children = [([], lf)] ∧ lf.m_is_leaf = true ∧ lf.m_children = [])) := by
  simp only [add_child] at h
  cases hs : radix_substr val.1 node.m_depth (radix_length node.m_key) with
  | error e => simp [hs] at h
  | ok s =>
    simp only [hs] at h
    split_ifs at h with h1 h2
    · cases hk : radix_substr val.1 (node.m_depth + radix_length node.m_key)
          (radix_length val.1 - (node.m_depth + radix_length node.m_key)) with
      | error e => simp [hk] at h
      | ok key =>
        simp only [hk] at h
        cases hl : add_leaf (Node.mk key none [] (node.m_depth + radix_length node.m_key) false)
            val with
        | error e => simp [hl] at h
        | ok r =>
          obtain ⟨mid, q⟩ := r
          simp only [hl, Except.ok.injEq, Prod.mk.injEq] at h
          obtain ⟨g1, g2⟩ := add_leaf_shape hl
          refine ⟨key, mid, h.1.symm, Or.inr ⟨by rw [g1]; rfl, by rw [← h.2, g2], ?_⟩⟩
          exact ⟨.mk [] (some val) [] (radix_length val.1) true, by rw [g1]; rfl, rfl, rfl⟩
    · obtain ⟨g1, g2⟩ := add_leaf_shape h
      exact ⟨[], _, g1, Or.inl ⟨rfl, rfl, rfl, g2⟩⟩

/-- The node returned by `add_root` is the parent with the entry of `node` erased and
the entry of the common run set to the node `add_child` returns for the node of the
common run, whose only child is `node` with its fragment shortened. -/
theorem add_root_shape {parent node par1 : Node V} {val : Key × V} {rel : Ptr}
    (h : add_root parent node val = .ok (par1, rel)) :
    ∃ (key node_key : Key) (cnt : Int) (p1 : Node V) (q1 : Ptr),
      0 < cnt ∧ cnt < radix_length node.m_key ∧
      radix_substr node.m_key 0 cnt = .ok key ∧
      radix_substr node.m_key cnt (radix_length node.m_key - cnt) = .ok node_key ∧
      add_child (.mk key none
          [(node_key, .mk node_key node.m_value node.m_children (node.m_depth + cnt)
            node.m_is_leaf)] node.m_depth false) val = .ok (p1, q1) ∧
      par1 = parent.set_children (map_set (map_erase parent.m_children node.m_key) key p1) ∧
      rel = key :: q1 := by
  simp only [add_root] at h
  split_ifs at h with h1 h2 h3
  cases hk : radix_substr node.m_key 0
      (add_root_count node.m_key val.1 node.m_depth (radix_length node.m_key)
        (radix_length val.1 - node.m_depth) (radix_length node.m_key).toNat 0) with
  | error e => simp [hk] at h
  | ok key =>
    simp only [hk] at h
    cases hn : radix_substr node.m_key
        (add_root_count node.m_key val.1 node.m_depth (radix_length node.m_key)
          (radix_length val.1 - node.m_depth) (radix_length node.m_key).toNat 0)
        (radix_length node.m_key -
          add_root_count node.m_key val.1 node.m_depth (radix_length node.m_key)
            (radix_length val.1 - node.m_depth) (radix_length node.m_key).toNat 0) with
    | error e => simp [hn] at h
    | ok node_key =>
      simp only [hn, map_set] at h
      cases hc : add_child (Node.mk key none
          [(node_key, Node.mk node_key node.m_value node.m_children
            (node.m_depth + add_root_count node.m_key val.1 node.m_depth
              (radix_length node.m_key) (radix_length val.1 - node.m_depth)
              (radix_length node.m_key).toNat 0) node.m_is_leaf)] node.m_depth false) val with
      | error e => simp [hc] at h
      | ok r =>
        obtain ⟨p1, q1⟩ := r
        simp only [hc, Except.ok.injEq, Prod.mk.injEq] at h
        refine ⟨key, node_key, _, p1, q1, ?_, ?_, hk, hn, hc, h.1.symm, h.2.symm⟩
        · simpa using h2
        · have := h3
          simp only [gt_iff_lt, not_not, not_lt] at this
          omega

/-- The two pieces `add_root` cuts a fragment into. -/
theorem substr_cut {f key node_key : Key} {c : Int} (h0 : 0 < c) (h1 : c < radix_length f)
    (h2 : radix_substr f 0 c = .ok key)
    (h3 : radix_substr f c (radix_length f - c) = .ok node_key) :
    key ++ node_key = f ∧ key ≠ [] ∧ node_key ≠ [] := by
  simp only [radix_length] at h1 h3
  obtain ⟨n, hn⟩ : ∃ n : Nat, c = (n : Int) := ⟨c.toNat, by omega⟩
  subst hn
  have hlen : n < f.length := by omega
  have e2 := radix_substr_ok f 0 n (by omega)
  simp only [Nat.cast_zero, List.drop_zero] at e2
  rw [e2] at h2
  have hnum : (f.length : Int) - (n : Int) = ((f.length - n : Nat) : Int) := by omega
  rw [hnum, radix_substr_ok f n _ (by omega)] at h3
  have hk : key = f.take n := (Except.ok.inj h2).symm
  have hnk : node_key = f.drop n := by
    rw [← Except.ok.inj h3]
    apply List.take_of_length_le
    simp
  subst hk; subst hnk
  refine ⟨List.take_append_drop n f, ?_, ?_⟩
  · intro h
    have := congrArg List.length h
    rw [List.length_take, List.length_nil] at this
    omega
  · intro h
    have := congrArg List.length h
    rw [List.length_drop, List.length_nil] at this
    omega

theorem mem_of_mem_map_erase {α : Type} {cs : List (Key × α)} {k : Key} {e : Key × α}
    (he : e ∈ map_erase cs k) : e ∈ cs := by
  induction cs with
  | nil => simp [map_erase] at he
  | cons e1 rest ih =>
    obtain ⟨k1, c1⟩ := e1
    simp only [map_erase] at he
    split_ifs at he
    · simp [he]
    · rcases List.mem_cons.mp he with h | h
      · simp [h]
      · simp [ih h]

/-! ### `insert` makes no inner node with a single inner child -/

/-- The key of an entry found at a pointer below a node is the joined fragments of the
path to it. -/
theorem rel_flatten {n lf : Node V} {pre : Key} (h : InvNode n pre) {rel : Ptr} {q : Key}
    {v : V} (hg : getNode n rel = some lf) (hv : lf.m_value = some (q, v)) :
    q = pre ++ n.m_key ++ rel.flatten := by
  obtain ⟨pre2, h1, h2⟩ := getNode_inv h hg
  cases h1 with
  | leaf pre3 w =>
    simp only [Node.m_value_mk, Option.some.injEq, Prod.mk.injEq] at hv
    simp only [Node.m_key_mk, List.append_nil] at h2
    rw [← hv.1, h2]
  | inner pre3 k cs hc hi hs => simp at hv

theorem lone_ok_of_leaf {x : Node V} (h : x.m_is_leaf = true) : lone_ok x := by
  intro h0; rw [h] at h0; exact Bool.noConfusion h0

/-- The node `add_child` sets in the children map is not an inner node with a single
inner child, and neither is any node below it. -/
theorem lone_of_new {x : Node V}
    (h : (x.m_is_leaf = true ∧ x.m_children = []) ∨
      (∃ lf : Node V, x.m_children = [([], lf)] ∧ lf.m_is_leaf = true ∧ lf.m_children = [])) :
    lone_ok x ∧ Lone x := by
  rcases h with ⟨h1, h2⟩ | ⟨lf, h1, h2, h3⟩
  · exact ⟨lone_ok_of_leaf h1, Lone.of_no_children h2⟩
  · constructor
    · intro _ e he
      rw [h1] at he
      simp only [List.cons.injEq, and_true] at he
      rw [← he]; exact h2
    · refine Lone.mk x ?_ ?_
      · intro e he
        rw [h1, List.mem_singleton] at he
        rw [he]; exact lone_ok_of_leaf h2
      · intro e he
        rw [h1, List.mem_singleton] at he
        rw [he]; exact Lone.of_no_children h3

theorem insert_unfold (s : Nat) (mroot : Option (Node V)) (root : Node V)
    (hroot : (match mroot with
      | some r => r
      | none => Node.mk [] none [] 0 false) = root)
    (q : Key) (v : V) {p : Ptr} (hp : get_longest_prefix_node q root 0 = .ok p) :
    insert ⟨s, mroot⟩ (q, v) =
      match getNode root p with
      | none => .error .null_deref
      | some node =>
        if node.m_is_leaf then .ok (⟨s, some root⟩, some p, false)
        else
          match radix_substr q node.m_depth (radix_length node.m_key) with
          | .error e => .error e
          | .ok s1 =>
            if p = [] ∨ decide (node.m_key = s1) = true then
              match add_child node (q, v) with
              | .error e => .error e
              | .ok (node1, q1) =>
                .ok (⟨s + 1, some (setNode root p node1)⟩, some (p ++ q1), true)
            else
              match getNode root p.dropLast with
              | none => .error .null_deref
              | some parent =>
                match add_root parent node (q, v) with
                | .error e => .error e
                | .ok (parent1, q1) =>
                  .ok (⟨s + 1, some (setNode root p.dropLast parent1)⟩,
                       some (p.dropLast ++ q1), true) := by
  cases mroot with
  | none => simp only at hroot; subst hroot; simp only [insert, radix_substr_nul, hp]
  | some r => simp only at hroot; subst hroot; simp only [insert, radix_substr_nul, hp]

/-- The root left by `insert` with a key that is not stored. -/
theorem insert_lone_core (s : Nat) (mroot : Option (Node V)) (root : Node V)
    (hroot : (match mroot with
      | some r => r
      | none => Node.mk [] none [] 0 false) = root)
    (hr : RootInv root) (hlone : Lone root) (q : Key) (v : V)
    (hns : ∀ v1, (q, v1) ∉ leaves root) {t1 : Tree V} {it : Iter} {b : Bool}
    (h : insert ⟨s, mroot⟩ (q, v) = .ok (t1, it, b)) : LoneTree t1 := by
  obtain ⟨p, hp, hland⟩ := descent_root hr q
  rw [insert_unfold s mroot root hroot q v hp] at h
  rcases hland with ⟨p0, par, lf, e1, e2, e3, e4, e5, e6⟩ |
    ⟨node, rest1, e1, e2, e3, e4, e5⟩ | ⟨p0, f, par, node, a, r, e1, e2, e3, e4, e5, e6, e7, e8⟩
  · obtain ⟨v1, -, -, hmem⟩ := land_leaf hr e2 e5 e6
    rw [e4] at hmem
    exact absurd hmem (hns v1)
  · obtain ⟨pre1, h1, h2⟩ := root_path hr e1
    have hq : q = pre1 ++ node.m_key ++ rest1 := by rw [h2, e3]
    have hsub : radix_substr q node.m_depth (radix_length node.m_key) = .ok node.m_key := by
      rw [h1.depth_eq, hq, List.append_assoc]
      simp only [radix_length]
      rw [radix_substr_split]; simp
    obtain ⟨node1, rel, g1, g2, g3, g4, g5, g6, lf, g7, g8⟩ :=
      add_child_spec h1 e2 q rest1 v hq e4 e5
    have ht1 : t1 = ⟨s + 1, some (setNode root p node1)⟩ := by
      simp [e1, e2, hsub, g1] at h
      exact h.1.symm
    obtain ⟨g, x, s1, s2⟩ := add_child_shape g1
    obtain ⟨hn1, hn2⟩ := lone_getNode hlone e1
    have hx : lone_ok x ∧ Lone x := by
      apply lone_of_new
      rcases s2 with ⟨-, a1, a2, -⟩ | ⟨-, -, lf2, a1, a2, a3⟩
      · exact Or.inl ⟨a1, a2⟩
      · exact Or.inr ⟨lf2, a1, a2, a3⟩
    have hlone1 : Lone node1 := by
      rw [s1]
      exact hn1.set_children_map_set g hx.1 hx.2 _ (fun e he => he)
    have hok1 : p ≠ [] → lone_ok node1 := by
      intro hpne
      rw [s1]
      rcases s2 with ⟨-, a1, -, -⟩ | ⟨a1, a2, -⟩
      · exact lone_ok_map_set_leaf node _ g a1
      · have hgq : q = pre1 ++ node1.m_key ++ rel.flatten := rel_flatten g2 g7 g8
        rw [g3, a2, hq] at hgq
        have hg : g = rest1 := by simpa using hgq.symm
        have hgne : g ≠ [] := by
          intro h0
          obtain ⟨-, hc1, -, -⟩ := g2.inner_inv g4
          have hmem : (g, x) ∈ node1.m_children := by
            rw [s1, (node.set_children_fields _).2.2.1]
            exact mem_map_set_self _ _ _
          have := ((hc1 _ hmem).2.1).mpr h0
          simp only at this
          rw [a1] at this
          exact Bool.noConfusion this
        obtain ⟨e0, he0⟩ := List.exists_mem_of_ne_nil _ (children_ne_nil_of_ptr hr e1 e2 hpne)
        cases hrest : rest1 with
        | nil => rw [hg, hrest] at hgne; exact absurd rfl hgne
        | cons a r =>
          refine lone_ok_map_set_two node x he0 ?_
          intro h0
          apply e5 a r hrest e0 he0
          rw [h0, hg, hrest]; rfl
    rw [ht1]
    intro root2 hroot2
    simp only [Option.some.injEq] at hroot2
    rw [← hroot2]
    exact lone_setNode hlone e1 g3 (by rw [g4, e2]) hlone1 hok1
  · have hg : getNode root p = some node := by
      rw [e1, getNode_append, e2]; simp [getNode, e4]
    obtain ⟨pre0, h1, h2⟩ := root_path hr e2
    obtain ⟨hk, -, -, hinode⟩ := h1.child e4
    obtain ⟨-, -, -, hs⟩ := h1.inner_inv e3
    have hq : q = pre0 ++ par.m_key ++ a :: r := by rw [h2, e6]
    have hsub : radix_substr q node.m_depth (radix_length node.m_key)
        = .ok ((a :: r).take f.length) := by
      rw [hinode.depth_eq, hq, hk]
      simp only [radix_length]
      rw [radix_substr_split]
    have hne : ¬ (node.m_key = (a :: r).take f.length) := by
      rw [hk]
      intro h0
      exact e8 ((take_eq_iff_leading f (a :: r)).mp h0.symm)
    have hpne : ¬ (p = []) := by rw [e1]; simp
    have hdrop : p.dropLast = p0 := by rw [e1]; simp
    obtain ⟨par1, rel, g1, g2, g3, g4, g5, g6, lf, g7, g8⟩ :=
      add_root_spec h1 e3 e4 e5 q a r v hq e7 e8
    have ht1 : t1 = ⟨s + 1, some (setNode root p0 par1)⟩ := by
      simp [hg, e5, hsub, hne, hpne, hdrop, e2, g1] at h
      exact h.1.symm
    obtain ⟨key, node_key, cnt, p1, q1, b1, b2, b3, b4, b5, b6, b7⟩ := add_root_shape g1
    rw [hk] at b2 b3 b4
    obtain ⟨c1, c2, c3⟩ := substr_cut b1 b2 b3 b4
    obtain ⟨g, x, s1, s2⟩ := add_child_shape b5
    obtain ⟨hn1, hn2⟩ := lone_getNode hlone e2
    obtain ⟨hch1, hch2⟩ := hn1.children
    have hx : lone_ok x ∧ Lone x := by
      apply lone_of_new
      rcases s2 with ⟨-, a1, a2, -⟩ | ⟨-, -, lf2, a1, a2, a3⟩
      · exact Or.inl ⟨a1, a2⟩
      · exact Or.inr ⟨lf2, a1, a2, a3⟩
    -- the shortened node
    have hnode1 : lone_ok (Node.mk node_key node.m_value node.m_children (node.m_depth + cnt)
        node.m_is_leaf) ∧ Lone (Node.mk node_key node.m_value node.m_children
          (node.m_depth + cnt) node.m_is_leaf) := by
      have a1 := hch1 _ (map_find_mem e4)
      obtain ⟨a2, a3⟩ := (hch2 _ (map_find_mem e4)).children
      exact ⟨fun h0 e he => a1 h0 e he, Lone.mk _ a2 a3⟩
    -- the node of the common run
    have hlp1 : Lone p1 := by
      rw [s1]
      refine Lone.set_children_map_set (Lone.mk _ ?_ ?_) g hx.1 hx.2 _ (fun e he => he)
      · intro e he
        simp only [Node.m_children_mk, List.mem_singleton] at he
        rw [he]; exact hnode1.1
      · intro e he
        simp only [Node.m_children_mk, List.mem_singleton] at he
        rw [he]; exact hnode1.2
    have hgq : q = pre0 ++ par1.m_key ++ rel.flatten := rel_flatten g2 g7 g8
    have hokp1 : lone_ok p1 := by
      rw [s1]
      rcases s2 with ⟨-, a1, -, -⟩ | ⟨a1, a2, -⟩
      · exact lone_ok_map_set_leaf _ _ g a1
      · refine lone_ok_map_set_two _ x (List.mem_singleton.mpr rfl) ?_
        intro h0
        simp only at h0
        rw [g3, b7, a2, hq, ← h0] at hgq
        have : a :: r = key ++ node_key := by simpa using hgq
        rw [c1] at this
        exact e8 (by rw [this])
    have hlone1 : Lone par1 := by
      rw [b6]
      exact hn1.set_children_map_set key hokp1 hlp1 _ (fun e he => mem_of_mem_map_erase he)
    have hok1 : p0 ≠ [] → lone_ok par1 := by
      intro hp0
      rw [b6, hk]
      obtain ⟨l1, l2, hcs, -, -, herase, -⟩ := map_find_split e4
      have hl12 : l1 ++ l2 ≠ [] := by
        intro h0
        obtain ⟨h01, h02⟩ := List.append_eq_nil.mp h0
        rw [h01, h02] at hcs
        have := hn2 hp0 e3 (f, node) (by rw [hcs]; rfl)
        simp only at this
        rw [e5] at this
        exact Bool.noConfusion this
      obtain ⟨e0, he0⟩ := List.exists_mem_of_ne_nil _ hl12
      rw [herase]
      refine lone_ok_map_set_two par p1 he0 ?_
      have hfne : f ≠ [] := by intro h0; rw [h0] at e7; simp at e7
      have hhead : f.head? = key.head? := by
        rw [← c1]
        cases key with
        | nil => exact absurd rfl c2
        | cons y k1 => rfl
      rw [hcs, List.pairwise_append, List.pairwise_cons] at hs
      rcases List.mem_append.mp he0 with h0 | h0
      · exact frag_lt_ne ((frag_lt_same_head hhead hfne e0.1).1 (hs.2.2 e0 h0 (f, node) (by simp)))
      · exact (frag_lt_ne ((frag_lt_same_head hhead hfne e0.1).2 (hs.2.1.1 e0 h0))).symm
    rw [ht1]
    intro root2 hroot2
    simp only [Option.some.injEq] at hroot2
    rw [← hroot2]
    exact lone_setNode hlone e2 g3 (by rw [g4, e3]) hlone1 hok1

theorem loneTree_empty : LoneTree (Tree.empty : Tree V) := by
  intro root hroot
  simp [Tree.empty] at hroot

theorem insert_lone {t t1 : Tree V} (hinv : InvTree t) (hlone : LoneTree t) {val : Key × V}
    {it : Iter} {b : Bool} (h : insert t val = .ok (t1, it, b)) : LoneTree t1 := by
  obtain ⟨k, v⟩ := val
  obtain ⟨it0, -, hcase⟩ := find_spec t hinv k
  rcases hcase with ⟨-, hns⟩ | ⟨p, v0, -, -, hmem⟩
  · obtain ⟨s, mroot⟩ := t
    cases mroot with
    | none =>
      exact insert_lone_core s none _ rfl rootInv_fresh (Lone.of_no_children rfl) k v
        (by simp [leaves]) h
    | some root =>
      exact insert_lone_core s (some root) root rfl (hinv root rfl) (hlone root rfl) k v
        (by simpa [stored] using hns) h
  · obtain ⟨p1, g1, -⟩ := insert_old t hinv k v v0 hmem
    rw [g1] at h
    simp only [Except.ok.injEq, Prod.mk.injEq] at h
    rw [← h.1]; exact hlone

theorem assign_lone {t t1 : Tree V} (hlone : LoneTree t) {it : Iter} {v : V}
    (h : assign t it v = .ok t1) : LoneTree t1 := by
  obtain ⟨s, mroot⟩ := t
  cases mroot with
  | none => simp [assign] at h
  | some root =>
    cases it with
    | none => simp [assign] at h
    | some p =>
      simp only [assign] at h
      cases hg : getNode root p with
      | none => simp [hg] at h
      | some node =>
        obtain ⟨k, val, cs, d, lf⟩ := node
        cases val with
        | none => simp [hg] at h
        | some kv =>
          obtain ⟨key, v0⟩ := kv
          simp only [hg, Except.ok.injEq] at h
          rw [← h]
          intro root2 hroot2
          simp only [Option.some.injEq] at hroot2
          rw [← hroot2]
          obtain ⟨a1, a2⟩ := lone_getNode (hlone root rfl) hg
          obtain ⟨a3, a4⟩ := a1.children
          exact lone_setNode (hlone root rfl) hg rfl rfl (Lone.mk _ a3 a4)
            (fun hp h0 e he => a2 hp h0 e he)

theorem index_assign_lone [Inhabited V] {t t1 : Tree V} (hinv : InvTree t)
    (hlone : LoneTree t) {k : Key} {v : V} (h : index_assign t k v = .ok t1) :
    LoneTree t1 := by
  simp only [index_assign, subscript] at h
  cases hf : find t k with
  | error e => simp [hf] at h
  | ok it =>
    cases it with
    | some p =>
      simp only [hf] at h
      exact assign_lone hlone h
    | none =>
      simp only [hf] at h
      cases hi : insert t (k, default) with
      | error e => simp [hi] at h
      | ok r =>
        obtain ⟨t2, it2, b⟩ := r
        simp only [hi] at h
        have h2 := insert_lone hinv hlone hi
        cases b with
        | false => simp at h
        | true =>
          simp only [if_true] at h
          exact assign_lone h2 h

/-- A run of `insert` calls and `tree[k] = v` statements makes no inner node with a
single inner child. -/
theorem run_ops_lone [Inhabited V] (ops : List (Op V)) :
    ∀ (t t1 : Tree V), InvTree t → LoneTree t → run_ops ops t = .ok t1 → LoneTree t1 := by
  induction ops with
  | nil =>
    intro t t1 _ hl h
    simp only [run_ops, Except.ok.injEq] at h
    rw [← h]; exact hl
  | cons op rest ih =>
    intro t t1 ht hl h
    cases op with
    | insert val =>
      simp only [run_ops] at h
      cases hi : insert t val with
      | error e => simp [hi] at h
      | ok r =>
        obtain ⟨t2, it, b⟩ := r
        simp only [hi] at h
        exact ih t2 t1 (insert_inv ht hi) (insert_lone ht hl hi) h
    | assign k v =>
      simp only [run_ops] at h
      obtain ⟨t2, g1, g2, -⟩ := index_assign_spec t ht k v
      simp only [g1] at h
      exact ih t2 t1 g2 (index_assign_lone ht hl g1) h

theorem nodes_below_lone {n : Node V} (h : Lone n) :
    ∀ anc : List (Node V), (anc ≠ [] → lone_ok n) →
      ∀ a c, (a, c) ∈ nodes_below anc n → a ≠ [] → lone_ok c := by
  induction h with
  | mk n h1 h2 ih =>
    intro anc hn a c hmem ha
    rw [nodes_below_eq, List.mem_cons] at hmem
    rcases hmem with hmem | hmem
    · simp only [Prod.mk.injEq] at hmem
      rw [hmem.2]
      exact hn (hmem.1 ▸ ha)
    · rw [mem_nodes_below_loop] at hmem
      obtain ⟨e, he, hx⟩ := hmem
      exact ih e he _ (fun _ => h1 e he) a c hx ha

/-- C16 (counterexample): in the tree left by `insert(("a", 1))` on a fresh tree, the
inner node with the fragment "a" is not the root and has exactly one child. -/
theorem single_child_after_insert :
    ∃ (t : Tree Int) (anc : List (Node Int)) (c : Node Int),
      run_calls [Call.insert ("a".toList, 1)] Tree.empty = .ok t ∧
      (anc, c) ∈ all_nodes t ∧ anc ≠ [] ∧ c.m_is_leaf = false ∧ c.m_children.length = 1 :=
  ⟨a_tree, [a_root], a_inner, by decide!, by decide!, by decide!, by decide!, by decide!⟩

/-- C16 (amended): on the tree built by any run of `insert` calls and `tree[k] = v`
statements, every inner node other than the root has a child, and one with exactly
one child has a leaf with the empty fragment as that child. -/
theorem single_child_is_leaf [Inhabited V] (ops : List (Op V)) :
    ∃ t : Tree V, run_ops ops Tree.empty = .ok t ∧
      ∀ anc c, (anc, c) ∈ all_nodes t → anc ≠ [] → c.m_is_leaf = false →
        c.m_children ≠ [] ∧
        ∀ e, c.m_children = [e] → e.2.m_is_leaf = true ∧ e.2.m_key = [] := by
  obtain ⟨t, h1, h2, -⟩ := run_ops_fresh (V := V) ops
  have hl := run_ops_lone ops Tree.empty t invTree_empty loneTree_empty h1
  refine ⟨t, h1, ?_⟩
  intro anc c hmem hanc hc
  obtain ⟨-, hinv, hne⟩ := all_nodes_inv h2 _ _ hmem
  refine ⟨hne hanc hc, ?_⟩
  intro e he
  have hok : lone_ok c := by
    cases hroot : t.m_root with
    | none => simp [all_nodes, hroot] at hmem
    | some root =>
      simp only [all_nodes, hroot] at hmem
      exact nodes_below_lone (hl root hroot) [] (fun h0 => absurd rfl h0) anc c hmem hanc
  have hleaf := hok hc e he
  obtain ⟨-, hcs, -, -⟩ := hinv.inner_inv hc
  obtain ⟨e1, e2, -⟩ := hcs e (by rw [he]; simp)
  exact ⟨hleaf, by rw [e1]; exact e2.mp hleaf⟩

/-- C12: with the routes `0.0.0.0/0`, `10.0.0.0/8`, `172.16.0.0/16` and `172.16.1.0/24`
stored with distinct values, `longest_match` of `172.16.1.5/32` returns the entry of
`172.16.1.0/24`, and `longest_match` of `172.20.0.1/32` and of `9.9.9.9/32` return the
entry of `0.0.0.0/0`. -/
theorem longest_match_routes :
    Route.lookup_route test_routes (Route.ipv4 172 16 1 5)
      = .ok (false, some (⟨Route.ipv4 172 16 1 0, 24⟩, Route.ipv4 192 168 0 255)) ∧
    Route.lookup_route test_routes (Route.ipv4 172 20 0 1)
      = .ok (false, some (⟨0, 0⟩, Route.ipv4 192 168 0 1)) ∧
    Route.lookup_route test_routes (Route.ipv4 9 9 9 9)
      = .ok (false, some (⟨0, 0⟩, Route.ipv4 192 168 0 1)) := by
  refine ⟨?_, ?_, ?_⟩ <;> decide!

/-! ### The assertions of `add_root`, and the two collecting queries -/

/-- A call of `add_root` that returns has passed its two assertions on the length of
the common run. -/
theorem add_root_bounds {parent node : Node V} {val : Key × V} {r : Node V × Ptr}
    (h : add_root parent node val = .ok r) :
    0 < add_root_count node.m_key val.1 node.m_depth (radix_length node.m_key)
        (radix_length val.1 - node.m_depth) (radix_length node.m_key).toNat 0 ∧
    add_root_count node.m_key val.1 node.m_depth (radix_length node.m_key)
        (radix_length val.1 - node.m_depth) (radix_length node.m_key).toNat 0
      < radix_length node.m_key := by
  simp only [add_root] at h
  split_ifs at h with h1 h2 h3
  constructor
  · simpa using h2
  · have := h3
    simp only [gt_iff_lt, not_not, not_lt] at this
    omega

theorem insert_returns {t : Tree V} (hinv : InvTree t) (val : Key × V) :
    ∃ r, insert t val = .ok r := by
  obtain ⟨k, v⟩ := val
  obtain ⟨it0, -, hcase⟩ := find_spec t hinv k
  rcases hcase with ⟨-, hns⟩ | ⟨p, v0, -, -, hmem⟩
  · obtain ⟨t2, p, g1, -⟩ := insert_new t hinv k v hns
    exact ⟨_, g1⟩
  · obtain ⟨p1, g1, -⟩ := insert_old t hinv k v v0 hmem
    exact ⟨_, g1⟩

/-- The edge split: when the descent for a key ends on an inner node other than the
root whose fragment is not the slice of the key at its depth, `add_root` on that node
returns. -/
theorem edge_split_returns {root node : Node V} (hr : RootInv root) (q : Key) (v : V)
    {p : Ptr} {s : Key} (hp : get_longest_prefix_node q root 0 = .ok p)
    (hg : getNode root p = some node) (hl : node.m_is_leaf = false)
    (hs : radix_substr q node.m_depth (radix_length node.m_key) = .ok s)
    (hsplit : ¬ (p = [] ∨ node.m_key = s)) :
    ∃ parent r, getNode root p.dropLast = some parent ∧ add_root parent node (q, v) = .ok r := by
  obtain ⟨p1, hp1, hland⟩ := descent_root hr q
  rw [hp] at hp1
  have hpp : p1 = p := (Except.ok.inj hp1).symm
  subst hpp
  rcases hland with ⟨p0, par, lf, e1, e2, e3, e4, e5, e6⟩ |
    ⟨node1, rest1, e1, e2, e3, e4, e5⟩ | ⟨p0, f, par, node1, a, r, e1, e2, e3, e4, e5, e6, e7, e8⟩
  · exfalso
    have hglf : getNode root (p0 ++ [[]]) = some lf := getNode_child e2 e5
    rw [e1, hglf] at hg
    rw [← Option.some.inj hg, e6] at hl
    exact Bool.noConfusion hl
  · exfalso
    rw [e1] at hg
    have hn : node1 = node := Option.some.inj hg
    subst hn
    obtain ⟨pre1, h1, h2⟩ := root_path hr e1
    have hsub : radix_substr q node1.m_depth (radix_length node1.m_key) = .ok node1.m_key := by
      rw [h1.depth_eq, e3, ← h2, List.append_assoc]
      simp only [radix_length]
      rw [radix_substr_split]; simp
    rw [hsub] at hs
    exact hsplit (Or.inr (Except.ok.inj hs))
  · have hg1 : getNode root p1 = some node1 := by
      rw [e1]; exact getNode_child e2 e4
    rw [hg1] at hg
    have hn : node1 = node := Option.some.inj hg
    subst hn
    obtain ⟨pre0, h1, h2⟩ := root_path hr e2
    have hq : q = pre0 ++ par.m_key ++ a :: r := by rw [h2, e6]
    obtain ⟨par1, rel, g1, -⟩ := add_root_spec h1 e3 e4 e5 q a r v hq e7 e8
    refine ⟨par, _, ?_, g1⟩
    rw [e1]; simpa using e2

/-- Every node with the invariant that is a leaf or has children has a leaf among the
nodes below it. -/
theorem exists_leaf_below {n : Node V} {pre : Key} (h : InvNode n pre)
    (hne : n.m_is_leaf = false → n.m_children ≠ []) :
    ∀ anc : List (Node V), ∃ a l, (a, l) ∈ nodes_below anc n ∧ l.m_is_leaf = true := by
  induction h with
  | leaf pre v =>
    intro anc
    exact ⟨anc, Node.mk [] (some (pre, v)) [] (pre.length : Int) true,
      by rw [nodes_below_eq]; simp, rfl⟩
  | inner pre k cs hc hi hs ih =>
    intro anc
    obtain ⟨e, he⟩ := List.exists_mem_of_ne_nil _ (hne rfl)
    simp only [Node.m_children_mk] at he
    obtain ⟨a, l, hmem, hl⟩ := ih e he (hc e he).2.2
      (anc ++ [Node.mk k none cs (pre.length : Int) false])
    refine ⟨a, l, ?_, hl⟩
    rw [nodes_below_eq, List.mem_cons, mem_nodes_below_loop]
    exact Or.inr ⟨e, he, hmem⟩

/-- Both `prefix_match` and `greedy_match` collect the leaves of the same node, and
`prefix_match` may reject the node as a whole. -/
theorem prefix_match_cases (t : Tree V) (q : Key) :
    prefix_match t q = .ok [] ∨ prefix_match t q = greedy_match t q ∨
      ∃ e, prefix_match t q = .error e := by
  simp only [prefix_match, greedy_match]
  cases t.m_root with
  | none => exact Or.inl rfl
  | some root =>
    simp only
    cases get_longest_prefix_node q root 0 with
    | error e => exact Or.inr (Or.inl rfl)
    | ok p0 =>
      simp only
      cases getNode root p0 with
      | none => exact Or.inr (Or.inl rfl)
      | some node0 =>
        simp only
        cases (if node0.m_is_leaf = true then parent_ptr p0 else some p0) with
        | none => exact Or.inr (Or.inl rfl)
        | some p =>
          simp only
          cases getNode root p with
          | none => exact Or.inr (Or.inl rfl)
          | some node =>
            simp only
            cases radix_substr q node.m_depth (radix_length q - node.m_depth) with
            | error e => exact Or.inr (Or.inr ⟨e, rfl⟩)
            | ok key_sub =>
              simp only
              cases radix_substr node.m_key 0 (radix_length q - node.m_depth) with
              | error e => exact Or.inr (Or.inr ⟨e, rfl⟩)
              | ok node_key_sub =>
                simp only
                split_ifs
                · exact Or.inl rfl
                · exact Or.inr (Or.inl rfl)

/-- The edge split is reached: with "bro" stored, the descent for "brace" ends on the
inner node "bro", whose fragment is not the slice "bra" of the key, and the counted
common run is 2. -/
theorem edge_split_reached :
    run_ops [Op.assign "bro".toList 1] Tree.empty = .ok ⟨1, some bro_root⟩ ∧
    get_longest_prefix_node "brace".toList bro_root 0 = .ok ["bro".toList] ∧
    getNode bro_root ["bro".toList] = some bro_inner ∧
    bro_inner.m_is_leaf = false ∧
    radix_substr "brace".toList bro_inner.m_depth (radix_length bro_inner.m_key)
      = .ok "bra".toList ∧
    ¬ (["bro".toList] = ([] : Ptr) ∨ bro_inner.m_key = "bra".toList) ∧
    add_root_count bro_inner.m_key "brace".toList bro_inner.m_depth
      (radix_length bro_inner.m_key) (radix_length "brace".toList - bro_inner.m_depth)
      (radix_length bro_inner.m_key).toNat 0 = 2 := by
  refine ⟨?_, ?_, ?_, ?_, ?_, ?_, ?_⟩ <;> decide!

/-- C22: on the tree built by any run of `insert` calls and `tree[k] = v` statements,
`insert(val)` returns, so none of its assertions fails; and when the descent ends on an
inner node other than the root whose fragment is not the slice of the key at its depth
(the edge split), the counted common run is at least 1 and shorter than the fragment
of that node, and `add_root` returns, so the assertions of `add_root`, `add_child` and
`add_leaf` hold. -/
theorem edge_split_assertions_hold [Inhabited V] (ops : List (Op V)) (val : Key × V) :
    ∃ t : Tree V, run_ops ops Tree.empty = .ok t ∧
      (∃ r, insert t val = .ok r) ∧
      ∀ (root node : Node V) (p : Ptr) (s : Key), t.m_root = some root →
        get_longest_prefix_node val.1 root 0 = .ok p → getNode root p = some node →
        node.m_is_leaf = false →
        radix_substr val.1 node.m_depth (radix_length node.m_key) = .ok s →
        ¬ (p = [] ∨ node.m_key = s) →
        (1 ≤ add_root_count node.m_key val.1 node.m_depth (radix_length node.m_key)
            (radix_length val.1 - node.m_depth) (radix_length node.m_key).toNat 0 ∧
         add_root_count node.m_key val.1 node.m_depth (radix_length node.m_key)
            (radix_length val.1 - node.m_depth) (radix_length node.m_key).toNat 0
           < radix_length node.m_key) ∧
        ∃ parent r, getNode root p.dropLast = some parent ∧
          add_root parent node val = .ok r := by
  obtain ⟨t, h1, h2, -⟩ := run_ops_fresh (V := V) ops
  refine ⟨t, h1, insert_returns h2 val, ?_⟩
  intro root node p s hroot hp hg hl hs hsplit
  obtain ⟨k, v⟩ := val
  obtain ⟨parent, r, g1, g2⟩ := edge_split_returns (h2 root hroot) k v hp hg hl hs hsplit
  obtain ⟨b1, b2⟩ := add_root_bounds g2
  exact ⟨⟨by omega, b2⟩, parent, r, g1, g2⟩

/-- C23 (counterexample): in the tree left by `insert(("a", 1))` on a fresh tree the
root is an inner node with exactly one child, and that child, the inner node with the
fragment "a", is not a leaf. -/
theorem root_single_child_inner :
    ∃ (t : Tree Int) (c : Node Int) (e : Key × Node Int),
      run_ops [Op.insert ("a".toList, 1)] Tree.empty = .ok t ∧
      ([], c) ∈ all_nodes t ∧ c.m_is_leaf = false ∧ c.m_children = [e] ∧
      e.2.m_is_leaf = false :=
  ⟨a_tree, a_root, ("a".toList, a_inner), by decide!, by decide!, by decide!, by decide!,
    by decide!⟩

/-- C23 (amended): on the tree built by any run of `insert` calls and `tree[k] = v`
statements, every inner node other than the root has a leaf with the empty fragment
among its children or has at least two children, has a leaf as its child when it has
exactly one child, and has a leaf among the nodes below it. -/
theorem inner_node_leaf_or_two [Inhabited V] (ops : List (Op V)) :
    ∃ t : Tree V, run_ops ops Tree.empty = .ok t ∧
      ∀ anc c, (anc, c) ∈ all_nodes t → anc ≠ [] → c.m_is_leaf = false →
        ((∃ e ∈ c.m_children, e.2.m_key = [] ∧ e.2.m_is_leaf = true) ∨
          2 ≤ c.m_children.length) ∧
        (∀ e, c.m_children = [e] → e.2.m_is_leaf = true) ∧
        (∃ a l, (a, l) ∈ nodes_below anc c ∧ l.m_is_leaf = true) := by
  obtain ⟨t, h1, h2, -⟩ := run_ops_fresh (V := V) ops
  have hl := run_ops_lone ops Tree.empty t invTree_empty loneTree_empty h1
  refine ⟨t, h1, ?_⟩
  intro anc c hmem hanc hc
  obtain ⟨-, hinv, hne⟩ := all_nodes_inv h2 _ _ hmem
  have hok : lone_ok c := by
    cases hroot : t.m_root with
    | none => simp [all_nodes, hroot] at hmem
    | some root =>
      simp only [all_nodes, hroot] at hmem
      exact nodes_below_lone (hl root hroot) [] (fun h0 => absurd rfl h0) anc c hmem hanc
  obtain ⟨-, hcs, -, -⟩ := hinv.inner_inv hc
  refine ⟨?_, hok hc, exists_leaf_below hinv (fun _ => hne hanc hc) anc⟩
  cases hch : c.m_children with
  | nil => exact absurd hch (hne hanc hc)
  | cons e rest =>
    cases rest with
    | nil =>
      left
      have hleaf := hok hc e hch
      obtain ⟨e1, e2, -⟩ := hcs e (by rw [hch]; simp)
      exact ⟨e, by simp, by rw [e1]; exact e2.mp hleaf, hleaf⟩
    | cons e2 rest2 => right; simp

/-- C24: for every tree and every query, `prefix_match` leaves the vector empty, or
leaves in it what `greedy_match` leaves in it, or ends in a fault of `substr`; on the
tree left by a run of `insert`, `tree[k] = v`, `erase` and `clear` calls it returns,
and its result is empty or is the result of `greedy_match`. -/
theorem prefix_match_empty_or_greedy [Inhabited V] (calls : List (Call V)) (t : Tree V)
    (q : Key) :
    (prefix_match t q = .ok [] ∨ prefix_match t q = greedy_match t q ∨
      ∃ e, prefix_match t q = .error e) ∧
    (run_calls calls Tree.empty = .ok t →
      ∃ out, prefix_match t q = .ok out ∧ (out = [] ∨ greedy_match t q = .ok out)) := by
  refine ⟨prefix_match_cases t q, ?_⟩
  intro hrun
  have hinv : InvTree t := run_calls_inv calls Tree.empty t invTree_empty hrun
  obtain ⟨out, hout, -⟩ := prefix_match_spec t hinv q
  refine ⟨out, hout, ?_⟩
  rcases prefix_match_cases t q with h | h | ⟨e, h⟩
  · rw [hout] at h
    exact Or.inl (Except.ok.inj h)
  · rw [hout] at h
    exact Or.inr h.symm
  · rw [hout] at h
    exact Except.noConfusion h

/-! ## The parent references -/

/-! ## The parent references -/

theorem map_set_sorted {α : Type} {cs : List (Key × α)} (k : Key) (c : α)
    (h : cs.Pairwise (fun x y => key_lt x.1 y.1 = true)) :
    (map_set cs k c).Pairwise (fun x y => key_lt x.1 y.1 = true) := by
  induction cs with
  | nil => simp [map_set]
  | cons e rest ih =>
    obtain ⟨k1, c1⟩ := e
    rw [List.pairwise_cons] at h
    simp only [map_set]
    split_ifs with h1 h2
    · subst h1
      rw [List.pairwise_cons]
      exact ⟨h.1, h.2⟩
    · rw [List.pairwise_cons, List.pairwise_cons]
      refine ⟨?_, h.1, h.2⟩
      intro y hy
      rcases List.mem_cons.mp hy with hy | hy
      · rw [hy]; exact h2
      · exact key_lt_trans _ _ _ h2 (h.1 y hy)
    · rw [List.pairwise_cons]
      refine ⟨?_, ih h.2⟩
      intro y hy
      rcases mem_of_mem_map_set hy with hy | hy
      · rw [hy]
        rcases key_lt_total k1 k with h0 | h0 | h0
        · exact h0
        · exact absurd h0 h1
        · exact absurd h0 h2
      · exact h.1 y hy

theorem map_erase_sublist {α : Type} (cs : List (Key × α)) (k : Key) :
    (map_erase cs k).Sublist cs := by
  induction cs with
  | nil => simp [map_erase]
  | cons e rest ih =>
    obtain ⟨k1, c1⟩ := e
    simp only [map_erase]
    split_ifs
    · exact List.sublist_cons_self _ _
    · exact ih.cons₂ _

theorem map_erase_sorted {α : Type} {cs : List (Key × α)} (k : Key)
    (h : cs.Pairwise (fun x y => key_lt x.1 y.1 = true)) :
    (map_erase cs k).Pairwise (fun x y => key_lt x.1 y.1 = true) :=
  h.sublist (map_erase_sublist cs k)

/-- After `m.erase(k)` no entry of a sorted map has the key `k`. -/
theorem map_erase_key_ne {α : Type} {cs : List (Key × α)} {k : Key}
    (h : cs.Pairwise (fun x y => key_lt x.1 y.1 = true)) {e : Key × α}
    (he : e ∈ map_erase cs k) : e.1 ≠ k := by
  induction cs with
  | nil => simp [map_erase] at he
  | cons e1 rest ih =>
    obtain ⟨k1, c1⟩ := e1
    rw [List.pairwise_cons] at h
    simp only [map_erase] at he
    split_ifs at he with h1
    · subst h1
      intro h0
      have := h.1 e he
      rw [h0, key_lt_irrefl] at this
      exact Bool.noConfusion this
    · rcases List.mem_cons.mp he with h0 | h0
      · rw [h0]; exact h1
      · exact ih h.2 h0

namespace Linked

variable {V : Type}

theorem cells_get_del (cs : List (Nat × Node V)) (a b : Nat) :
    cells_get (cells_del cs a) b = if a = b then none else cells_get cs b := by
  induction cs with
  | nil => simp [cells_del, cells_get]
  | cons e rest ih =>
    obtain ⟨c, n⟩ := e
    by_cases hca : c = a
    · subst hca
      simp only [cells_del, if_true, ih, cells_get]
      split_ifs <;> rfl
    · simp only [cells_del, hca, if_false, cells_get, ih]
      by_cases hcb : c = b
      · subst hcb
        simp [Ne.symm hca]
      · simp [hcb]

theorem load_store (t : Tree V) (a b : Nat) (n : Node V) :
    load (store t a n) b = if a = b then some n else load t b := by
  simp only [load, store, cells_get, cells_get_del]
  split_ifs <;> rfl

theorem load_free (t : Tree V) (a b : Nat) :
    load (free t a) b = if a = b then none else load t b := by
  simp only [load, free, cells_get_del]

theorem load_alloc (t : Tree V) (n : Node V) (b : Nat) :
    load (alloc t n).1 b = if t.next = b then some n else load t b := by
  simp only [load, alloc, cells_get, cells_get_del]
  split_ifs <;> rfl

theorem WF.empty : WF (Tree.empty : Tree V) := by
  refine ⟨?_, ?_, ?_, ?_, ?_, ?_, ?_, ?_⟩
  · intro a n h; simp [load, Tree.empty, cells_get] at h
  · intro a n h; simp [load, Tree.empty, cells_get] at h
  · intro a n h; simp [load, Tree.empty, cells_get] at h
  · intro a n h; simp [load, Tree.empty, cells_get] at h
  · intro r h; simp [Tree.empty] at h
  · intro r h; simp [Tree.empty] at h
  · intro a n h; simp [load, Tree.empty, cells_get] at h
  · intro a n h; simp [load, Tree.empty, cells_get] at h

/-- A node is overwritten by a node with the same fragment and parent reference, whose
children map is sorted and has entries that refer to nodes with the entry's fragment
and the node as parent. -/
theorem WF.store_same {t : Tree V} (h : WF t) {a : Nat} {n : Node V}
    (ha : load t a = some n) (n1 : Node V) (hk : n1.m_key = n.m_key)
    (hp : n1.m_parent = n.m_parent)
    (hs : n1.m_children.Pairwise (fun x y => key_lt x.1 y.1 = true))
    (hl : ∀ e ∈ n1.m_children,
      ∃ c, load t e.2 = some c ∧ c.m_key = e.1 ∧ c.m_parent = some a)
    (hleaf : n1.m_is_leaf = true → n1.m_children = []) :
    WF (store t a n1) := by
  refine ⟨?_, ?_, ?_, ?_, ?_, ?_, ?_, ?_⟩
  · intro b bn hb e he
    rw [load_store] at hb
    have key : ∀ c, load t e.2 = some c → c.m_key = e.1 → c.m_parent = some b →
        ∃ c, load (store t a n1) e.2 = some c ∧ c.m_key = e.1 ∧ c.m_parent = some b := by
      intro c h1 h2 h3
      rw [load_store]
      by_cases hae : a = e.2
      · rw [if_pos hae]
        rw [← hae, ha] at h1
        have : n = c := Option.some.inj h1
        subst this
        exact ⟨_, rfl, by rw [hk]; exact h2, by rw [hp]; exact h3⟩
      · rw [if_neg hae]
        exact ⟨c, h1, h2, h3⟩
    by_cases hab : a = b
    · subst hab
      simp only [if_true, Option.some.injEq] at hb
      subst hb
      obtain ⟨c, h1, h2, h3⟩ := hl e he
      exact key c h1 h2 h3
    · rw [if_neg hab] at hb
      obtain ⟨c, h1, h2, h3⟩ := h.link b bn hb e he
      exact key c h1 h2 h3
  · intro b bn hb
    rw [load_store] at hb
    by_cases hab : a = b
    · subst hab
      simp only [if_true, Option.some.injEq] at hb
      subst hb
      rw [hp]
      exact h.root_null a n ha
    · rw [if_neg hab] at hb
      exact h.root_null b bn hb
  · intro b bn hb
    rw [load_store] at hb
    by_cases hab : a = b
    · subst hab
      simp only [if_true, Option.some.injEq] at hb
      subst hb
      exact hs
    · rw [if_neg hab] at hb
      exact h.sorted b bn hb
  · intro b bn hb
    rw [load_store] at hb
    by_cases hab : a = b
    · subst hab
      exact h.bound a n ha
    · rw [if_neg hab] at hb
      exact h.bound b bn hb
  · exact h.root_bound
  · intro r hr
    obtain ⟨rn, hrn⟩ := h.root_live r hr
    rw [load_store]
    by_cases har : a = r
    · rw [if_pos har]; exact ⟨_, rfl⟩
    · rw [if_neg har]; exact ⟨rn, hrn⟩
  · intro b bn hb hlf
    rw [load_store] at hb
    by_cases hab : a = b
    · subst hab
      simp only [if_true, Option.some.injEq] at hb
      subst hb
      exact hleaf hlf
    · rw [if_neg hab] at hb
      exact h.leaf_childless b bn hb hlf
  · intro b bn hb
    rw [load_store] at hb
    by_cases hab : a = b
    · subst hab
      simp only [if_true, Option.some.injEq] at hb
      subst hb
      rw [hp]
      exact h.no_self a n ha
    · rw [if_neg hab] at hb
      exact h.no_self b bn hb

theorem load_alloc_old {t : Tree V} (h : WF t) (c0 : Node V) {a : Nat} {n : Node V}
    (ha : load t a = some n) : load (alloc t c0).1 a = some n := by
  rw [load_alloc, if_neg]
  · exact ha
  · exact Nat.ne_of_gt (h.bound a n ha)

/-- A new node without children whose parent reference is an address in use is
written at the next unused address. -/
theorem WF.alloc_child {t : Tree V} (h : WF t) (c0 : Node V) (hc : c0.m_children = [])
    {p : Nat} (hp : c0.m_parent = some p) (hlt : p < t.next) : WF (alloc t c0).1 := by
  refine ⟨?_, ?_, ?_, ?_, ?_, ?_, ?_, ?_⟩
  · intro b bn hb e he
    rw [load_alloc] at hb
    by_cases hab : t.next = b
    · simp only [hab, if_true, Option.some.injEq] at hb
      subst hb
      rw [hc] at he
      simp at he
    · rw [if_neg hab] at hb
      obtain ⟨c, h1, h2, h3⟩ := h.link b bn hb e he
      refine ⟨c, ?_, h2, h3⟩
      rw [load_alloc, if_neg]
      · exact h1
      · exact Nat.ne_of_gt (h.bound _ _ h1)
  · intro b bn hb
    rw [load_alloc] at hb
    by_cases hab : t.next = b
    · simp only [hab, if_true, Option.some.injEq] at hb
      subst hb
      rw [hp]
      constructor
      · intro h0; exact Option.noConfusion h0
      · intro h0
        have := h.root_bound b h0
        omega
    · rw [if_neg hab] at hb
      exact h.root_null b bn hb
  · intro b bn hb
    rw [load_alloc] at hb
    by_cases hab : t.next = b
    · simp only [hab, if_true, Option.some.injEq] at hb
      subst hb
      rw [hc]; simp
    · rw [if_neg hab] at hb
      exact h.sorted b bn hb
  · intro b bn hb
    rw [load_alloc] at hb
    show b < t.next + 1
    by_cases hab : t.next = b
    · omega
    · rw [if_neg hab] at hb
      have := h.bound b bn hb
      omega
  · intro r hr
    show r < t.next + 1
    have := h.root_bound r hr
    omega
  · intro r hr
    obtain ⟨rn, hrn⟩ := h.root_live r hr
    exact ⟨rn, load_alloc_old h c0 hrn⟩
  · intro b bn hb hlf
    rw [load_alloc] at hb
    by_cases hab : t.next = b
    · simp only [hab, if_true, Option.some.injEq] at hb
      subst hb
      exact hc
    · rw [if_neg hab] at hb
      exact h.leaf_childless b bn hb hlf
  · intro b bn hb
    rw [load_alloc] at hb
    by_cases hab : t.next = b
    · simp only [hab, if_true, Option.some.injEq] at hb
      subst hb
      rw [hp]
      intro h0
      have := Option.some.inj h0
      omega
    · rw [if_neg hab] at hb
      exact h.no_self b bn hb

/-- The root is created: a node without children and with a null parent reference is
written at the next unused address and becomes the root of a tree without one. -/
theorem WF.alloc_root {t : Tree V} (h : WF t) (hr : t.m_root = none) (c0 : Node V)
    (hc : c0.m_children = []) (hp : c0.m_parent = none) :
    WF ({ (alloc t c0).1 with m_root := some t.next } : Tree V) := by
  have hload : ∀ b, load ({ (alloc t c0).1 with m_root := some t.next } : Tree V) b
      = if t.next = b then some c0 else load t b := fun b => load_alloc t c0 b
  refine ⟨?_, ?_, ?_, ?_, ?_, ?_, ?_, ?_⟩
  · intro b bn hb e he
    rw [hload] at hb
    by_cases hab : t.next = b
    · simp only [hab, if_true, Option.some.injEq] at hb
      subst hb
      rw [hc] at he
      simp at he
    · rw [if_neg hab] at hb
      obtain ⟨c, h1, h2, h3⟩ := h.link b bn hb e he
      refine ⟨c, ?_, h2, h3⟩
      rw [hload, if_neg]
      · exact h1
      · exact Nat.ne_of_gt (h.bound _ _ h1)
  · intro b bn hb
    rw [hload] at hb
    show bn.m_parent = none ↔ some t.next = some b
    by_cases hab : t.next = b
    · simp only [hab, if_true, Option.some.injEq] at hb
      subst hb
      simp [hp, hab]
    · rw [if_neg hab] at hb
      have := h.root_null b bn hb
      rw [hr] at this
      constructor
      · intro h0; exact absurd (this.mp h0) (by simp)
      · intro h0; exact absurd (Option.some.inj h0) hab
  · intro b bn hb
    rw [hload] at hb
    by_cases hab : t.next = b
    · simp only [hab, if_true, Option.some.injEq] at hb
      subst hb
      rw [hc]; simp
    · rw [if_neg hab] at hb
      exact h.sorted b bn hb
  · intro b bn hb
    rw [hload] at hb
    show b < t.next + 1
    by_cases hab : t.next = b
    · omega
    · rw [if_neg hab] at hb
      have := h.bound b bn hb
      omega
  · intro r hr2
    show r < t.next + 1
    have : some t.next = some r := hr2
    have := Option.some.inj this
    omega
  · intro r hr2
    have h0 : some t.next = some r := hr2
    have h1 := Option.some.inj h0
    rw [hload, if_pos h1]
    exact ⟨c0, rfl⟩
  · intro b bn hb hlf
    rw [hload] at hb
    by_cases hab : t.next = b
    · simp only [hab, if_true, Option.some.injEq] at hb
      subst hb
      exact hc
    · rw [if_neg hab] at hb
      exact h.leaf_childless b bn hb hlf
  · intro b bn hb
    rw [hload] at hb
    by_cases hab : t.next = b
    · simp only [hab, if_true, Option.some.injEq] at hb
      subst hb
      rw [hp]; simp
    · rw [if_neg hab] at hb
      exact h.no_self b bn hb

/-- The fragment, depth and parent reference of a node that no entry refers to are
overwritten; the node is not the root and not its own new parent. -/
theorem WF.store_reparent {t : Tree V} (h : WF t) {a : Nat} {n : Node V}
    (ha : load t a = some n)
    (hin : ∀ b bn, load t b = some bn → ∀ e ∈ bn.m_children, e.2 ≠ a)
    (q : Nat) (hq : q ≠ a) (hroot : t.m_root ≠ some a) (k : Key) (d : Int) :
    WF (store t a { n with m_parent := some q, m_depth := d, m_key := k }) := by
  refine ⟨?_, ?_, ?_, ?_, ?_, ?_, ?_, ?_⟩
  · intro b bn hb e he
    rw [load_store] at hb
    have hbn : ∃ bn0, load t b = some bn0 ∧ bn0.m_children = bn.m_children := by
      by_cases hab : a = b
      · subst hab
        simp only [if_true, Option.some.injEq] at hb
        subst hb
        exact ⟨n, ha, rfl⟩
      · rw [if_neg hab] at hb
        exact ⟨bn, hb, rfl⟩
    obtain ⟨bn0, hb0, hcs⟩ := hbn
    rw [← hcs] at he
    obtain ⟨c, h1, h2, h3⟩ := h.link b bn0 hb0 e he
    refine ⟨c, ?_, h2, h3⟩
    rw [load_store, if_neg]
    · exact h1
    · exact (hin b bn0 hb0 e he).symm
  · intro b bn hb
    rw [load_store] at hb
    by_cases hab : a = b
    · subst hab
      simp only [if_true, Option.some.injEq] at hb
      subst hb
      constructor
      · intro h0; exact Option.noConfusion h0
      · intro h0; exact absurd h0 hroot
    · rw [if_neg hab] at hb
      exact h.root_null b bn hb
  · intro b bn hb
    rw [load_store] at hb
    by_cases hab : a = b
    · subst hab
      simp only [if_true, Option.some.injEq] at hb
      subst hb
      exact h.sorted a n ha
    · rw [if_neg hab] at hb
      exact h.sorted b bn hb
  · intro b bn hb
    rw [load_store] at hb
    by_cases hab : a = b
    · subst hab
      exact h.bound a n ha
    · rw [if_neg hab] at hb
      exact h.bound b bn hb
  · exact h.root_bound
  · intro r hr
    obtain ⟨rn, hrn⟩ := h.root_live r hr
    rw [load_store]
    by_cases har : a = r
    · rw [if_pos har]; exact ⟨_, rfl⟩
    · rw [if_neg har]; exact ⟨rn, hrn⟩
  · intro b bn hb hlf
    rw [load_store] at hb
    by_cases hab : a = b
    · subst hab
      simp only [if_true, Option.some.injEq] at hb
      subst hb
      exact h.leaf_childless a n ha hlf
    · rw [if_neg hab] at hb
      exact h.leaf_childless b bn hb hlf
  · intro b bn hb
    rw [load_store] at hb
    by_cases hab : a = b
    · subst hab
      simp only [if_true, Option.some.injEq] at hb
      subst hb
      intro h0
      exact hq (Option.some.inj h0)
    · rw [if_neg hab] at hb
      exact h.no_self b bn hb

/-- A node that no entry refers to is removed. -/
theorem WF.free {t : Tree V} (h : WF t) {a : Nat}
    (hin : ∀ b bn, load t b = some bn → ∀ e ∈ bn.m_children, e.2 ≠ a)
    (hroot : t.m_root ≠ some a) :
    WF (free t a) := by
  have hsub : ∀ b bn, load (Linked.free t a) b = some bn → load t b = some bn := by
    intro b bn hb
    rw [load_free] at hb
    by_cases hab : a = b
    · rw [if_pos hab] at hb; exact Option.noConfusion hb
    · rw [if_neg hab] at hb; exact hb
  refine ⟨?_, ?_, ?_, ?_, ?_, ?_, ?_, ?_⟩
  · intro b bn hb e he
    obtain ⟨c, h1, h2, h3⟩ := h.link b bn (hsub b bn hb) e he
    refine ⟨c, ?_, h2, h3⟩
    rw [load_free, if_neg]
    · exact h1
    · exact (hin b bn (hsub b bn hb) e he).symm
  · intro b bn hb
    exact h.root_null b bn (hsub b bn hb)
  · intro b bn hb
    exact h.sorted b bn (hsub b bn hb)
  · intro b bn hb
    exact h.bound b bn (hsub b bn hb)
  · exact h.root_bound
  · intro r hr
    obtain ⟨rn, hrn⟩ := h.root_live r hr
    rw [load_free, if_neg]
    · exact ⟨rn, hrn⟩
    · intro har
      exact hroot (by rw [har]; exact hr)
  · intro b bn hb
    exact h.leaf_childless b bn (hsub b bn hb)
  · intro b bn hb
    exact h.no_self b bn (hsub b bn hb)

theorem WF.set_size {t : Tree V} (h : WF t) (s : Nat) :
    WF ({ t with m_size := s } : Tree V) :=
  ⟨h.link, h.root_null, h.sorted, h.bound, h.root_bound, h.root_live, h.leaf_childless,
    h.no_self⟩

/-- The entries that refer to a node are in the children map of its parent. -/
theorem WF.incoming {t : Tree V} (h : WF t) {a P : Nat} {n Pn : Node V}
    (ha : load t a = some n) (hp : n.m_parent = some P) (hP : load t P = some Pn)
    (hno : ∀ e ∈ Pn.m_children, e.2 ≠ a) :
    ∀ b bn, load t b = some bn → ∀ e ∈ bn.m_children, e.2 ≠ a := by
  intro b bn hb e he h0
  obtain ⟨c, h1, -, h3⟩ := h.link b bn hb e he
  rw [h0, ha] at h1
  have hc : n = c := Option.some.inj h1
  subst hc
  rw [hp] at h3
  have hPb : P = b := Option.some.inj h3
  subst hPb
  rw [hP] at hb
  have : Pn = bn := Option.some.inj hb
  subst this
  exact hno e he h0


theorem alloc_snd (t : Tree V) (c0 : Node V) : (alloc t c0).2 = t.next := rfl

theorem load_alloc_new (t : Tree V) (c0 : Node V) : load (alloc t c0).1 t.next = some c0 := by
  rw [load_alloc, if_pos rfl]

/-- A new node without children is created with a node that is not a leaf as its
parent, and entered in the children map of that node under its fragment. -/
theorem WF.attach {t : Tree V} (h : WF t) {parent : Nat} {pn : Node V}
    (hp : load t parent = some pn) (hnl : pn.m_is_leaf = false) (c0 : Node V)
    (hc : c0.m_children = []) (hcp : c0.m_parent = some parent) :
    WF (store (alloc t c0).1 parent
      { pn with m_children := map_set pn.m_children c0.m_key t.next }) := by
  have h1 : WF (alloc t c0).1 := h.alloc_child c0 hc hcp (h.bound _ _ hp)
  have hp1 : load (alloc t c0).1 parent = some pn := load_alloc_old h c0 hp
  refine h1.store_same hp1 _ rfl rfl (map_set_sorted _ _ (h.sorted _ _ hp)) ?_ ?_
  · intro e he
    rcases mem_of_mem_map_set he with h0 | h0
    · subst h0
      exact ⟨c0, load_alloc_new t c0, rfl, hcp⟩
    · exact h1.link parent pn hp1 e h0
  · intro h0
    rw [hnl] at h0
    exact Bool.noConfusion h0

/-- The function `add_leaf` on a node that is not a leaf keeps the invariant. -/
theorem add_leaf_wf {t : Tree V} (h : WF t) {parent : Nat} {pn : Node V} (val : Key × V)
    (hp : load t parent = some pn) (hnl : pn.m_is_leaf = false)
    {r : Tree V × Nat} (hr : add_leaf t parent val = .ok r) : WF r.1 := by
  unfold add_leaf at hr
  rw [hp] at hr
  simp only at hr
  split at hr
  · cases hr
  · cases hs : substr val.1 0 0 with
    | error e => rw [hs] at hr; cases hr
    | ok nul =>
      rw [hs] at hr
      simp only at hr
      rw [load_alloc_old h _ hp] at hr
      simp only at hr
      cases hr
      exact h.attach hp hnl ⟨nul, some val, [], some parent, radix_length val.1, true⟩ rfl rfl

/-- The function `add_child` on a node that is not a leaf keeps the invariant. -/
theorem add_child_wf {t : Tree V} (h : WF t) {parent : Nat} {pn : Node V} (val : Key × V)
    (hp : load t parent = some pn) (hnl : pn.m_is_leaf = false)
    {r : Tree V × Nat} (hr : add_child t parent val = .ok r) : WF r.1 := by
  unfold add_child at hr
  rw [hp] at hr
  simp only at hr
  cases hs : substr val.1 pn.m_depth (radix_length pn.m_key) with
  | error e => rw [hs] at hr; cases hr
  | ok s =>
    rw [hs] at hr
    simp only at hr
    split at hr
    · cases hr
    · split at hr
      · cases hs2 : substr val.1 (pn.m_depth + radix_length pn.m_key)
            (radix_length val.1 - (pn.m_depth + radix_length pn.m_key)) with
        | error e => rw [hs2] at hr; cases hr
        | ok key =>
          rw [hs2] at hr
          simp only at hr
          rw [load_alloc_old h _ hp] at hr
          simp only at hr
          have h2 := h.attach hp hnl
            ⟨key, none, [], some parent, pn.m_depth + radix_length pn.m_key, false⟩ rfl rfl
          have hl : load (store (alloc t
              ⟨key, none, [], some parent, pn.m_depth + radix_length pn.m_key, false⟩).1 parent
              { pn with m_children := map_set pn.m_children key t.next }) t.next
              = some ⟨key, none, [], some parent, pn.m_depth + radix_length pn.m_key, false⟩ := by
            rw [load_store, if_neg]
            · exact load_alloc_new t _
            · exact Nat.ne_of_lt (h.bound _ _ hp)
          exact add_leaf_wf h2 val hl rfl hr
      · exact add_leaf_wf h val hp hnl hr

/-- The function `add_root` on a node whose parent is not a leaf keeps the invariant. -/
theorem add_root_wf {t : Tree V} (h : WF t) {node : Nat} {n : Node V} (val : Key × V)
    (hn : load t node = some n)
    (hpar : ∀ P Pn, n.m_parent = some P → load t P = some Pn → Pn.m_is_leaf = false)
    {r : Tree V × Nat} (hr : add_root t node val = .ok r) : WF r.1 := by
  unfold add_root at hr
  rw [hn] at hr
  simp only at hr
  split at hr
  · cases hr
  generalize add_root_count n.m_key val.1 n.m_depth (radix_length n.m_key)
    (radix_length val.1 - n.m_depth) (radix_length n.m_key).toNat 0 = count at hr
  split at hr
  · cases hr
  split at hr
  · cases hr
  cases hpp : n.m_parent with
  | none => rw [hpp] at hr; cases hr
  | some P =>
    rw [hpp] at hr
    simp only at hr
    cases hP : load t P with
    | none => rw [hP] at hr; cases hr
    | some Pn =>
      rw [hP] at hr
      simp only at hr
      have hPne : P ≠ node := by
        intro h0
        exact h.no_self node n hn (by rw [hpp, h0])
      rw [load_store, if_neg hPne, hn] at hr
      simp only at hr
      rw [hpp] at hr
      simp only at hr
      have hnl : Pn.m_is_leaf = false := hpar P Pn hpp hP
      -- the tree after the erasure of the entry of the node
      have h1 : WF (store t P { Pn with m_children := map_erase Pn.m_children n.m_key }) := by
        refine h.store_same hP _ rfl rfl (map_erase_sorted _ (h.sorted _ _ hP)) ?_ ?_
        · intro e he
          exact h.link P Pn hP e (mem_of_mem_map_erase he)
        · intro h0
          rw [hnl] at h0
          exact Bool.noConfusion h0
      have hl1n : load (store t P { Pn with m_children := map_erase Pn.m_children n.m_key })
          node = some n := by
        rw [load_store, if_neg hPne, hn]
      have hno : ∀ e ∈ map_erase Pn.m_children n.m_key, e.2 ≠ node := by
        intro e he h0
        obtain ⟨c, h2, h3, -⟩ := h.link P Pn hP e (mem_of_mem_map_erase he)
        rw [h0, hn] at h2
        have : n = c := Option.some.inj h2
        subst this
        exact map_erase_key_ne (h.sorted _ _ hP) he h3.symm
      have hl1P : load (store t P { Pn with m_children := map_erase Pn.m_children n.m_key }) P
          = some { Pn with m_children := map_erase Pn.m_children n.m_key } := by
        rw [load_store, if_pos rfl]
      generalize store t P { Pn with m_children := map_erase Pn.m_children n.m_key } = t1
        at hr h1 hl1n hl1P
      have hnl1 : ({ Pn with m_children := map_erase Pn.m_children n.m_key } : Node V).m_is_leaf
          = false := hnl
      have hno1 : ∀ e ∈ ({ Pn with m_children := map_erase Pn.m_children n.m_key } :
          Node V).m_children, e.2 ≠ node := hno
      generalize ({ Pn with m_children := map_erase Pn.m_children n.m_key } : Node V) = Pn1
        at hr hl1P hnl1 hno1
      clear hno hnl hP hpar hn h
      cases hk : substr n.m_key 0 count with
      | error e => rw [hk] at hr; cases hr
      | ok key =>
        rw [hk] at hr
        simp only at hr
        rw [load_alloc_old h1 _ hl1P] at hr
        simp only [alloc_snd] at hr
        have hlt : node < t1.next := h1.bound _ _ hl1n
        have hPlt : P < t1.next := h1.bound _ _ hl1P
        set cp : Node V := ⟨key, none, [], some P, n.m_depth, false⟩ with hcp
        -- the tree after the new node has taken the place of the node
        set t3 : Tree V := store (alloc t1 cp).1 P
          { Pn1 with m_children := map_set Pn1.m_children key t1.next } with ht3
        have h3 : WF t3 := h1.attach hl1P hnl1 cp rfl rfl
        have hl3n : load t3 node = some n := by
          rw [ht3, load_store, if_neg hPne]
          exact load_alloc_old h1 _ hl1n
        have hl3p : load t3 t1.next = some cp := by
          rw [ht3, load_store, if_neg (Nat.ne_of_lt hPlt)]
          exact load_alloc_new t1 _
        have hl3P : load t3 P
            = some { Pn1 with m_children := map_set Pn1.m_children key t1.next } := by
          rw [ht3, load_store, if_pos rfl]
        have hin3 : ∀ b bn, load t3 b = some bn → ∀ e ∈ bn.m_children, e.2 ≠ node := by
          refine h3.incoming hl3n hpp hl3P ?_
          intro e he
          rcases mem_of_mem_map_set he with h0 | h0
          · rw [h0]
            exact Nat.ne_of_gt hlt
          · exact hno1 e h0
        have hroot3 : t3.m_root ≠ some node := by
          intro h0
          have := (h3.root_null node n hl3n).mpr h0
          rw [hpp] at this
          exact Option.noConfusion this
        rw [hl3n] at hr
        simp only at hr
        cases hk2 : substr n.m_key count (radix_length n.m_key - count) with
        | error e => rw [hk2] at hr; cases hr
        | ok node_key =>
          rw [hk2] at hr
          simp only at hr
          set t4 : Tree V := store t3 node
            { n with m_parent := some t1.next, m_depth := n.m_depth + count,
                     m_key := node_key } with ht4
          have h4 : WF t4 :=
            h3.store_reparent hl3n hin3 t1.next (Nat.ne_of_gt hlt) hroot3 node_key
              (n.m_depth + count)
          have hl4p : load t4 t1.next = some cp := by
            rw [ht4, load_store, if_neg (Nat.ne_of_lt hlt)]
            exact hl3p
          have hl4n : load t4 node = some ⟨node_key, n.m_value, n.m_children, some t1.next,
              n.m_depth + count, n.m_is_leaf⟩ := by
            rw [ht4, load_store, if_pos rfl]
          rw [hl4p] at hr
          simp only at hr
          have h5 : WF (store t4 t1.next
              { cp with m_children := map_set cp.m_children node_key node }) := by
            refine h4.store_same hl4p _ rfl rfl (map_set_sorted _ _ (by simp [hcp])) ?_ ?_
            · intro e he
              rcases mem_of_mem_map_set he with h0 | h0
              · rw [h0]
                exact ⟨_, hl4n, rfl, rfl⟩
              · simp [hcp] at h0
            · intro h0
              simp [hcp] at h0
          have hl5 : load (store t4 t1.next
              { cp with m_children := map_set cp.m_children node_key node }) t1.next
              = some { cp with m_children := map_set cp.m_children node_key node } := by
            rw [load_store, if_pos rfl]
          exact add_child_wf h5 val hl5 rfl hr


/-- The loop of the descent returns the node itself or a node that an entry of a
children map refers to. -/
theorem descent_loop_entry (call : Nat → Int → Except Stop Nat) (t : Tree V) (key : Key)
    (node : Nat)
    (hcall : ∀ c m r, call c m = .ok r →
      r = c ∨ ∃ b bn f, load t b = some bn ∧ (f, r) ∈ bn.m_children)
    {n : Node V} (hn : load t node = some n) :
    ∀ (cs : List (Key × Nat)) (m : Int) (r : Nat), (∀ e ∈ cs, e ∈ n.m_children) →
      get_longest_prefix_node_loop call t key node cs m = .ok r →
      r = node ∨ ∃ b bn f, load t b = some bn ∧ (f, r) ∈ bn.m_children := by
  intro cs
  induction cs with
  | nil =>
    intro m r _ hr
    simp only [get_longest_prefix_node_loop] at hr
    cases hr
    exact Or.inl rfl
  | cons e rest ih =>
    obtain ⟨f, c⟩ := e
    intro m r hsub hr
    have hmem : (f, c) ∈ n.m_children := hsub _ (List.mem_cons_self _ _)
    have hrest : ∀ e ∈ rest, e ∈ n.m_children := fun e he => hsub e (List.mem_cons_of_mem _ he)
    simp only [get_longest_prefix_node_loop] at hr
    cases hc : load t c with
    | none => rw [hc] at hr; cases hr
    | some child =>
      rw [hc] at hr
      simp only at hr
      split at hr
      · split at hr
        · cases hr
          exact Or.inr ⟨node, n, f, hn, hmem⟩
        · exact ih m r hrest hr
      · split at hr
        · cases hs : substr key m (radix_length f) with
          | error e => rw [hs] at hr; cases hr
          | ok s =>
            rw [hs] at hr
            simp only at hr
            split at hr
            · rcases hcall _ _ _ hr with h0 | h0
              · rw [h0]
                exact Or.inr ⟨node, n, f, hn, hmem⟩
              · exact Or.inr h0
            · cases hr
              exact Or.inr ⟨node, n, f, hn, hmem⟩
        · exact ih m r hrest hr

/-- The descent returns the node it starts from or a node that an entry of a children
map refers to. -/
theorem descent_entry (t : Tree V) (key : Key) :
    ∀ (fuel node : Nat) (m : Int) (r : Nat),
      get_longest_prefix_node t key fuel node m = .ok r →
      r = node ∨ ∃ b bn f, load t b = some bn ∧ (f, r) ∈ bn.m_children := by
  intro fuel
  induction fuel with
  | zero =>
    intro node m r hr
    simp [get_longest_prefix_node] at hr
  | succ fuel ih =>
    intro node m r hr
    simp only [get_longest_prefix_node] at hr
    cases hn : load t node with
    | none => rw [hn] at hr; cases hr
    | some n =>
      rw [hn] at hr
      simp only at hr
      split at hr
      · cases hr
        exact Or.inl rfl
      · exact descent_loop_entry _ t key node (fun c m r h => ih c m r h) hn _ m r
          (fun e he => he) hr

/-- The first lines of `insert` keep the invariant and give the root. -/
theorem ensure_root_wf {t : Tree V} (h : WF t) (key : Key) {r : Tree V × Nat}
    (hr : ensure_root t key = .ok r) : WF r.1 ∧ r.1.m_root = some r.2 := by
  unfold ensure_root at hr
  cases hroot : t.m_root with
  | some a =>
    rw [hroot] at hr
    cases hr
    exact ⟨h, hroot⟩
  | none =>
    rw [hroot] at hr
    simp only at hr
    cases hs : substr key 0 0 with
    | error e => rw [hs] at hr; cases hr
    | ok nul =>
      rw [hs] at hr
      simp only at hr
      cases hr
      exact ⟨h.alloc_root hroot _ rfl rfl, rfl⟩

/-- The member `insert` keeps the invariant. -/
theorem insert_wf {t : Tree V} (h : WF t) (fuel : Nat) (val : Key × V)
    {r : Tree V × Option Nat × Bool} (hr : insert fuel t val = .ok r) : WF r.1 := by
  unfold insert at hr
  cases he : ensure_root t val.1 with
  | error e => rw [he] at hr; cases hr
  | ok p =>
    obtain ⟨t0, root⟩ := p
    rw [he] at hr
    simp only at hr
    obtain ⟨h0, hroot⟩ := ensure_root_wf h val.1 he
    simp only at h0 hroot
    cases hd : get_longest_prefix_node t0 val.1 fuel root 0 with
    | error e => rw [hd] at hr; cases hr
    | ok node =>
      rw [hd] at hr
      simp only at hr
      cases hn : load t0 node with
      | none => rw [hn] at hr; cases hr
      | some n =>
        rw [hn] at hr
        simp only at hr
        split at hr
        · cases hr
          exact h0
        · rename_i hleaf
          have hnl : n.m_is_leaf = false := by
            cases hb : n.m_is_leaf
            · rfl
            · exact absurd hb hleaf
          have h1 : WF ({ t0 with m_size := t0.m_size + 1 } : Tree V) := h0.set_size _
          have hn1 : load ({ t0 with m_size := t0.m_size + 1 } : Tree V) node = some n := hn
          cases hs : substr val.1 n.m_depth (radix_length n.m_key) with
          | error e => rw [hs] at hr; cases hr
          | ok s =>
            rw [hs] at hr
            simp only at hr
            split at hr
            · cases ha : add_child ({ t0 with m_size := t0.m_size + 1 } : Tree V) node val with
              | error e => rw [ha] at hr; cases hr
              | ok q =>
                rw [ha] at hr
                cases hr
                exact add_child_wf h1 val hn1 hnl ha
            · rename_i hcase
              cases ha : add_root ({ t0 with m_size := t0.m_size + 1 } : Tree V) node val with
              | error e => rw [ha] at hr; cases hr
              | ok q =>
                rw [ha] at hr
                cases hr
                refine add_root_wf h1 val hn1 ?_ ha
                intro P Pn hP hPn
                have hne : node ≠ root := fun h2 => hcase (Or.inl h2)
                rcases descent_entry t0 val.1 fuel root 0 node hd with h2 | ⟨b, bn, f, hb, hmem⟩
                · exact absurd h2 hne
                · obtain ⟨c, hc1, -, hc3⟩ := h0.link b bn hb _ hmem
                  rw [show load t0 node = some n from hn] at hc1
                  have : n = c := Option.some.inj hc1
                  subst this
                  rw [hP] at hc3
                  have hPb : P = b := Option.some.inj hc3
                  subst hPb
                  have hPn0 : load t0 P = some Pn := hPn
                  rw [hb] at hPn0
                  have : bn = Pn := Option.some.inj hPn0
                  subst this
                  cases hb2 : bn.m_is_leaf
                  · rfl
                  · have := h0.leaf_childless P bn hb hb2
                    rw [this] at hmem
                    simp at hmem

/-- The assignment through an iterator keeps the invariant. -/
theorem assign_wf {t : Tree V} (h : WF t) (it : Option Nat) (v : V) {r : Tree V}
    (hr : assign t it v = .ok r) : WF r := by
  unfold assign at hr
  cases it with
  | none => cases hr
  | some a =>
    simp only at hr
    cases hn : load t a with
    | none => rw [hn] at hr; cases hr
    | some n =>
      rw [hn] at hr
      simp only at hr
      cases hv : n.m_value with
      | none => rw [hv] at hr; cases hr
      | some kv =>
        rw [hv] at hr
        simp only at hr
        cases hr
        exact h.store_same hn _ rfl rfl (h.sorted a n hn) (h.link a n hn)
          (h.leaf_childless a n hn)

/-- The statement `tree[key] = v` keeps the invariant. -/
theorem index_assign_wf [Inhabited V] {t : Tree V} (h : WF t) (fuel : Nat) (key : Key) (v : V)
    {r : Tree V} (hr : index_assign fuel t key v = .ok r) : WF r := by
  unfold index_assign at hr
  cases hs : subscript fuel t key with
  | error e => rw [hs] at hr; cases hr
  | ok p =>
    obtain ⟨t1, it⟩ := p
    rw [hs] at hr
    simp only at hr
    refine assign_wf ?_ it v hr
    unfold subscript at hs
    cases hf : find fuel t key with
    | error e => rw [hf] at hs; cases hs
    | ok o =>
      rw [hf] at hs
      cases o with
      | some a =>
        simp only at hs
        cases hs
        exact h
      | none =>
        simp only at hs
        cases hi : insert fuel t (key, default) with
        | error e => rw [hi] at hs; cases hs
        | ok q =>
          obtain ⟨t2, it2, flag⟩ := q
          rw [hi] at hs
          simp only at hs
          split at hs
          · cases hs
            exact insert_wf h fuel _ hi
          · cases hs


/-- The statement `delete node` on a node without children removes the node. -/
theorem destroy_childless {t : Tree V} {node : Nat} {n : Node V}
    (hn : load t node = some n) (hc : n.m_children = []) (fuel : Nat) {r : Tree V}
    (hr : destroy fuel t node = .ok r) : r = free t node := by
  cases fuel with
  | zero => simp [destroy] at hr
  | succ f =>
    simp only [destroy] at hr
    rw [hn] at hr
    simp only [hc, destroy_loop] at hr
    cases hr
    rfl

/-- The function `merge_node` on a node that is not a leaf returns at once. -/
theorem merge_node_inner {t : Tree V} {node : Nat} {n : Node V}
    (hn : load t node = some n) (hnl : n.m_is_leaf = false) (fuel : Nat) :
    merge_node fuel t node = .ok t := by
  unfold merge_node
  rw [hn]
  simp [hnl]

/-- The function `erase(radix_tree_node*)` keeps the invariant. -/
theorem erase_node_wf : ∀ (fuel : Nat) (t : Tree V) (node : Nat) (r : Tree V), WF t →
    erase_node fuel t node = .ok r → WF r := by
  intro fuel
  induction fuel with
  | zero =>
    intro t node r _ hr
    simp [erase_node] at hr
  | succ fuel ih =>
    intro t node r h hr
    simp only [erase_node] at hr
    cases hn : load t node with
    | none => rw [hn] at hr; cases hr
    | some n =>
      rw [hn] at hr
      simp only at hr
      split at hr
      · cases hr
      rename_i hleaf
      have hlf : n.m_is_leaf = true := not_not.mp hleaf
      cases hpp : n.m_parent with
      | none => rw [hpp] at hr; cases hr
      | some P =>
        rw [hpp] at hr
        simp only at hr
        cases hP : load t P with
        | none => rw [hP] at hr; cases hr
        | some Pn =>
          rw [hP] at hr
          simp only at hr
          have hPne : P ≠ node := by
            intro h0
            exact h.no_self node n hn (by rw [hpp, h0])
          set t1 : Tree V := store t P { Pn with m_children := map_erase Pn.m_children n.m_key }
            with ht1
          have h1 : WF t1 := by
            refine h.store_same hP _ rfl rfl (map_erase_sorted _ (h.sorted _ _ hP)) ?_ ?_
            · intro e he
              exact h.link P Pn hP e (mem_of_mem_map_erase he)
            · intro h0
              have h2 : Pn.m_children = [] := h.leaf_childless P Pn hP h0
              show map_erase Pn.m_children n.m_key = []
              rw [h2]
              rfl
          have hl1n : load t1 node = some n := by
            rw [ht1, load_store, if_neg hPne, hn]
          have hl1P : load t1 P
              = some { Pn with m_children := map_erase Pn.m_children n.m_key } := by
            rw [ht1, load_store, if_pos rfl]
          have hin1 : ∀ b bn, load t1 b = some bn → ∀ e ∈ bn.m_children, e.2 ≠ node := by
            refine h1.incoming hl1n hpp hl1P ?_
            intro e he h0
            obtain ⟨c, h2, h3, -⟩ := h.link P Pn hP e (mem_of_mem_map_erase he)
            rw [h0, hn] at h2
            have : n = c := Option.some.inj h2
            subst this
            exact map_erase_key_ne (h.sorted _ _ hP) he h3.symm
          have hroot1 : t1.m_root ≠ some node := by
            intro h0
            have := (h1.root_null node n hl1n).mpr h0
            rw [hpp] at this
            exact Option.noConfusion this
          cases hd : destroy fuel t1 node with
          | error e => rw [hd] at hr; cases hr
          | ok t2 =>
            rw [hd] at hr
            simp only at hr
            have ht2 : t2 = free t1 node :=
              destroy_childless hl1n (h.leaf_childless node n hn hlf) fuel hd
            have h2 : WF t2 := by
              rw [ht2]
              exact h1.free hin1 hroot1
            cases hP2 : load t2 P with
            | none => rw [hP2] at hr; cases hr
            | some Pn2 =>
              rw [hP2] at hr
              simp only at hr
              split at hr
              · cases hr
                exact h2
              · split at hr
                · exact ih t2 P r h2 hr
                · split at hr
                  · cases hr
                  · rename_i k c rest hcs
                    cases hc : load t2 c with
                    | none => rw [hc] at hr; cases hr
                    | some cn =>
                      rw [hc] at hr
                      simp only at hr
                      split at hr
                      · cases hr
                      · rename_i hcl
                        have hcnl : cn.m_is_leaf = false := not_not.mp hcl
                        rw [merge_node_inner hc hcnl fuel] at hr
                        cases hr
                        exact h2

/-- The member `erase(const K&)` keeps the invariant. -/
theorem erase_wf {t : Tree V} (h : WF t) (fuel : Nat) (key : Key) {r : Tree V × Bool}
    (hr : erase fuel t key = .ok r) : WF r.1 := by
  unfold erase at hr
  cases hroot : t.m_root with
  | none => rw [hroot] at hr; cases hr
  | some root =>
    rw [hroot] at hr
    simp only at hr
    cases hd : get_longest_prefix_node t key fuel root 0 with
    | error e => rw [hd] at hr; cases hr
    | ok node =>
      rw [hd] at hr
      simp only at hr
      cases hn : load t node with
      | none => rw [hn] at hr; cases hr
      | some n =>
        rw [hn] at hr
        simp only at hr
        split at hr
        · cases hr
          exact h
        · cases he : erase_node fuel t node with
          | error e => rw [he] at hr; cases hr
          | ok t1 =>
            rw [he] at hr
            cases hr
            exact erase_node_wf fuel t node t1 h he

/-- A run of insertions and erasures keeps the invariant. -/
theorem run_edits_wf [Inhabited V] (fuel : Nat) : ∀ (edits : List (Edit V)) (t r : Tree V),
    WF t → run_edits fuel edits t = .ok r → WF r := by
  intro edits
  induction edits with
  | nil =>
    intro t r h hr
    simp only [run_edits] at hr
    cases hr
    exact h
  | cons e rest ih =>
    intro t r h hr
    cases e with
    | insert val =>
      simp only [run_edits] at hr
      cases hi : insert fuel t val with
      | error e => rw [hi] at hr; cases hr
      | ok q =>
        rw [hi] at hr
        exact ih q.1 r (insert_wf h fuel val hi) hr
    | assign k v =>
      simp only [run_edits] at hr
      cases hi : index_assign fuel t k v with
      | error e => rw [hi] at hr; cases hr
      | ok q =>
        rw [hi] at hr
        exact ih q r (index_assign_wf h fuel k v hi) hr
    | erase k =>
      simp only [run_edits] at hr
      cases hi : erase fuel t k with
      | error e => rw [hi] at hr; cases hr
      | ok q =>
        rw [hi] at hr
        exact ih q.1 r (erase_wf h fuel k hi) hr

/-- C21: after any sequence of insertions (by `insert` or by `tree[k] = v`) and
erasures on a fresh tree that completes, every entry `(f, c)` of the children map of
every node `n` refers to a node whose own fragment `m_key` is `f` and whose parent
reference is `n`; the root is a node with a null parent reference, and it is the only
such node. -/
theorem children_entries_linked [Inhabited V] (fuel : Nat) (edits : List (Edit V))
    (t : Tree V) (hrun : run_edits fuel edits Tree.empty = .ok t) :
    (∀ a n, load t a = some n → ∀ e ∈ n.m_children,
      ∃ c, load t e.2 = some c ∧ c.m_key = e.1 ∧ c.m_parent = some a) ∧
    (∀ r, t.m_root = some r → ∃ n, load t r = some n ∧ n.m_parent = none) ∧
    (∀ a n, load t a = some n → n.m_parent = none → t.m_root = some a) := by
  have h : WF t := run_edits_wf fuel edits Tree.empty t WF.empty hrun
  refine ⟨h.link, ?_, ?_⟩
  · intro r hr
    obtain ⟨n, hn⟩ := h.root_live r hr
    exact ⟨n, hn, (h.root_null r n hn).mpr hr⟩
  · intro a n hn hp
    exact (h.root_null a n hn).mp hp

/-- The run `bro_edits` with ten nested calls completes with the store `bro_store`, and
the entries and parent references of `bro_store` agree. -/
theorem children_entries_linked_witness :
    run_edits 10 bro_edits Tree.empty = .ok bro_store ∧
    ((∀ a n, load bro_store a = some n → ∀ e ∈ n.m_children,
      ∃ c, load bro_store e.2 = some c ∧ c.m_key = e.1 ∧ c.m_parent = some a) ∧
    (∀ r, bro_store.m_root = some r → ∃ n, load bro_store r = some n ∧ n.m_parent = none) ∧
    (∀ a n, load bro_store a = some n → n.m_parent = none → bro_store.m_root = some a)) :=
  ⟨by decide!, children_entries_linked 10 bro_edits bro_store (by decide!)⟩

end Linked

end RadixTree
